import Mathlib

/-!
# Translation dictionaries: command handlers and text codec

A shallow embedding of `src/sharifullina.sofia/F0/commands.cpp` and of the
dispatch loop of `main.cpp`, followed by theorems about it.

Modelling conventions

* `std::string` is `Str`, a list of characters.  The code only ever searches
  for ASCII characters (space, newline, the `isspace` class), which never occur
  inside a multi-byte UTF-8 sequence, and UTF-8 byte order is code point order.
* `std::set<std::string>` is `Finset Str`; its iteration order (ascending) is
  `Finset.sort`.  `std::set_intersection` on two sets is `∩`.
* `std::unordered_map<std::string, V>` is `UMap V`: a list of entries with
  pairwise distinct keys.  The list order stands for the unspecified iteration
  order of the hash table.
* `std::istream` is the list of characters not yet read.  Every read returns
  the unread rest.
* The files reachable through `std::ifstream`/`std::ofstream` are a
  `FileSystem`.
-/

namespace sharifullina

/-- The type `std::string`. -/
abbrev Str := List Char

/-- The type `std::set< std::string >`. -/
abbrev TransSet := Finset Str

/-- The type `std::unordered_map< std::string, V >`: entries with pairwise
distinct keys, listed in iteration order. -/
structure UMap (V : Type) where
  entries : List (Str × V)
  nodupKeys : (entries.map Prod.fst).Nodup

namespace UMap

variable {V : Type}

instance [DecidableEq V] : DecidableEq (UMap V) := fun a b =>
  decidable_of_iff (a.entries = b.entries) (by cases a; cases b; simp)

/-- A default-constructed map. -/
def empty : UMap V := ⟨[], List.nodup_nil⟩

/-- The keys in iteration order. -/
def keys (m : UMap V) : List Str := m.entries.map Prod.fst

/-- Search of a key in a list of entries. -/
def lookupList (k : Str) : List (Str × V) → Option V
  | [] => none
  | e :: rest => if e.1 = k then some e.2 else lookupList k rest

/-- The member `find`: the mapped value, or `none` for `end()`. -/
def find (m : UMap V) (k : Str) : Option V := lookupList k m.entries

/-- Whether `find(k) != end()`. -/
def contains (m : UMap V) (k : Str) : Bool := (m.find k).isSome

/-- The member `empty()`. -/
def isEmpty (m : UMap V) : Bool := m.entries.isEmpty

/-- The member `size()`. -/
def size (m : UMap V) : Nat := m.entries.length

/-- In-place update of the value stored under `k` (through a reference or an
iterator to the element); no effect when `k` is absent. -/
def modify (m : UMap V) (k : Str) (f : V → V) : UMap V :=
  ⟨m.entries.map (fun e => if e.1 = k then (e.1, f e.2) else e), by
    have h : (m.entries.map (fun e => if e.1 = k then (e.1, f e.2) else e)).map Prod.fst
        = m.entries.map Prod.fst := by
      rw [List.map_map]
      apply List.map_congr_left
      intro e _
      by_cases hk : e.1 = k <;> simp [hk]
    rw [h]
    exact m.nodupKeys⟩

/-- The assignment `m[k] = v`: overwrites the value of an existing key, inserts
a new element otherwise. -/
def assign (m : UMap V) (k : Str) (v : V) : UMap V :=
  if h : k ∈ m.entries.map Prod.fst then m.modify k (fun _ => v)
  else ⟨(k, v) :: m.entries, List.nodup_cons.mpr ⟨h, m.nodupKeys⟩⟩

/-- The member `erase(k)` (also `erase(it)` for the iterator found for `k`). -/
def erase (m : UMap V) (k : Str) : UMap V :=
  ⟨m.entries.filter (fun e => e.1 ≠ k),
    m.nodupKeys.sublist ((List.filter_sublist m.entries).map Prod.fst)⟩

end UMap

/-- The type `Dictionary`: word to translation set. -/
abbrev Dictionary := UMap TransSet

/-- The type `DictCollection`: dictionary name to dictionary. -/
abbrev DictCollection := UMap Dictionary

/-! ## Input stream -/

/-- The classification `std::isspace` of the "C" locale, which `operator>>`
uses to delimit tokens. -/
def isspace (c : Char) : Bool :=
  c = ' ' || c = '\t' || c = '\n' || c = '\x0b' || c = '\x0c' || c = '\r'

/-- The extraction `in >> str` for a `std::string`: skips leading white space,
then takes characters up to the next white space or the end of the input.  It
fails exactly when only white space is left, and then the whole input is
consumed. -/
def readToken (inp : List Char) : Option Str × List Char :=
  match inp.dropWhile isspace with
  | [] => (none, [])
  | c :: cs =>
    (some ((c :: cs).takeWhile (fun x => !isspace x)),
      (c :: cs).dropWhile (fun x => !isspace x))

/-- The value of a run of decimal digits. -/
def digitsValue (ds : List Char) : Nat :=
  ds.foldl (fun acc c => 10 * acc + (c.toNat - 48)) 0

/-- The optional sign in front of a number: whether it is `-`, and the input
after it. -/
def readSign : List Char → Bool × List Char
  | '-' :: r => (true, r)
  | '+' :: r => (false, r)
  | s => (false, s)

/-- The extraction `in >> count` for an `int` (decimal base): skips white
space, takes an optional sign and the longest run of digits.  It fails when
there is no digit or when the value does not fit in 32 bits; the characters
taken so far stay consumed. -/
def readInt (inp : List Char) : Option Int × List Char :=
  let signed := readSign (inp.dropWhile isspace)
  let ds := signed.2.takeWhile Char.isDigit
  let rest := signed.2.dropWhile Char.isDigit
  if ds = [] then (none, rest)
  else if signed.1 then
    (if digitsValue ds ≤ 2147483648 then some (-(digitsValue ds : Int)) else none, rest)
  else
    (if digitsValue ds ≤ 2147483647 then some (digitsValue ds : Int) else none, rest)

/-- The loop `for (int i = 0; i < count; ++i)` that reads `count` tokens with
`in >> name` and appends them to a vector; it stops at the first failed
extraction. -/
def readNames : Nat → List Char → Option (List Str) × List Char
  | 0, inp => (some [], inp)
  | n + 1, inp =>
    match readToken inp with
    | (none, rest) => (none, rest)
    | (some t, rest) =>
      match readNames n rest with
      | (none, rest2) => (none, rest2)
      | (some ts, rest2) => (some (t :: ts), rest2)

/-- The loop of `readTranslations`, `while (in >> translation)`, bounded by a
number of iterations. -/
def readTranslationsLoop : Nat → List Char → TransSet → TransSet × List Char
  | 0, inp, acc => (acc, inp)
  | n + 1, inp, acc =>
    match readToken inp with
    | (none, rest) => (acc, rest)
    | (some t, rest) => readTranslationsLoop n rest (insert t acc)

/-- The function `readTranslations`: inserts every token up to the end of the
input.  Each successful extraction consumes a character, so `inp.length + 1`
iterations reach the failing one. -/
def readTranslations (inp : List Char) (translations : TransSet) : TransSet × List Char :=
  readTranslationsLoop (inp.length + 1) inp translations

/-! ## Files and output -/

/-- The files the process can reach: `content name` is the text read through
`std::ifstream file(name)` (`none` when the stream cannot be opened), and
`writable name` tells whether `std::ofstream file(name)` opens. -/
structure FileSystem where
  content : Str → Option (List Char)
  writable : Str → Bool

/-- The file system after `text` was written to the truncated file `name`. -/
def FileSystem.write (fs : FileSystem) (name : Str) (text : List Char) : FileSystem :=
  ⟨fun n => if n = name then some text else fs.content n, fs.writable⟩

/-- The function `printError`: the text sent to `std::cout`. -/
def printError (message : Str) : List Char :=
  "<ERROR: ".toList ++ message ++ ">\n".toList

/-- The functor `PrintWord` applied to each element of a range. -/
def printWords : List Str → List Char
  | [] => []
  | w :: ws => w ++ ' ' :: printWords ws

/-- The elements of a `std::set< std::string >` in iteration order. -/
def setElems (s : TransSet) : List Str := s.sort (fun a b => a ≤ b)

/-- The functor `PrintWordWithTranslations` applied to one element. -/
def printWordWithTranslations (wordPair : Str × TransSet) : List Char :=
  wordPair.1 ++ ' ' :: (printWords (setElems wordPair.2) ++ ['\n'])

/-- The functor `PrintWordWithTranslations` applied to each element of a
dictionary. -/
def printDictionary : List (Str × TransSet) → List Char
  | [] => []
  | e :: es => printWordWithTranslations e ++ printDictionary es

/-- The functor `PrintDictName` applied to each element of the collection. -/
def printDictNames : List (Str × Dictionary) → List Char
  | [] => []
  | e :: es => e.1 ++ '\n' :: printDictNames es

/-! ## Text codec -/

/-- The lines that successive calls `std::getline(in, line)` return until the
call fails: the pieces between newline characters, without a last empty piece
(at the end of the input `getline` extracts nothing and fails). -/
def getlines : List Char → List (List Char)
  | [] => []
  | c :: cs =>
    if c = '\n' then [] :: getlines cs
    else
      match getlines cs with
      | [] => [[c]]
      | l :: ls => (c :: l) :: ls

/-- The substrings `[start, end)` that the inner loop of `readDictionary`
visits, `end` running over the positions of the spaces, followed by the final
substring `substr(start)`. -/
def spacePieces : List Char → List (List Char)
  | [] => [[]]
  | c :: cs =>
    if c = ' ' then [] :: spacePieces cs
    else
      match spacePieces cs with
      | [] => [[c]]
      | p :: ps => (c :: p) :: ps

/-- The translation set that `readDictionary` builds from `translationsStr`:
every non-empty piece is inserted (`end > start` inside the loop,
`start < length` after it). -/
def parseTranslations (translationsStr : List Char) : TransSet :=
  (spacePieces translationsStr).foldl
    (fun translations p => if p ≠ [] then insert p translations else translations) ∅

/-- The body of the loop of `readDictionary` for one line. -/
def readLine (dict : Dictionary) (line : List Char) : Dictionary :=
  if line = [] then dict
  else if ' ' ∉ line then dict
  else
    let word := line.takeWhile (fun c => c ≠ ' ')
    let translationsStr := (line.dropWhile (fun c => c ≠ ' ')).tail
    let translations := parseTranslations translationsStr
    if translations ≠ ∅ then dict.assign word translations else dict

/-- The function `readDictionary`. -/
def readDictionary (text : List Char) : Dictionary :=
  (getlines text).foldl readLine UMap.empty

/-! ## Command handlers -/

/-- What a handler call leaves behind: the text written to `std::cout`, the
collection, the unread input, the files, and whether the call was left by an
exception (`std::out_of_range` of a failed `at`) instead of a return. -/
structure Result where
  out : List Char
  dicts : DictCollection
  rest : List Char
  fs : FileSystem
  thrown : Bool

/-- The signature shared by the sixteen handlers. -/
abbrev Handler := List Char → FileSystem → DictCollection → Result

/-- A return after `printError(message)`: nothing but the output changes. -/
def errorResult (message : Str) (rest : List Char) (fs : FileSystem)
    (dicts : DictCollection) : Result :=
  ⟨printError message, dicts, rest, fs, false⟩

/-- A call left by the exception of a failed `at`. -/
def thrownResult (rest : List Char) (fs : FileSystem) (dicts : DictCollection) : Result :=
  ⟨[], dicts, rest, fs, true⟩

/-- The function `dictExists`. -/
def dictExists (name : Str) (dicts : DictCollection) : Bool :=
  dicts.contains name

/-- The function `wordExists`. -/
def wordExists (dictName word : Str) (dicts : DictCollection) : Bool :=
  match dicts.find dictName with
  | none => false
  | some dict => dict.contains word

/-- The handler `createDict`. -/
def createDict : Handler := fun inp fs dicts =>
  match readToken inp with
  | (none, rest) => errorResult "invalid arguments for createdict".toList rest fs dicts
  | (some name, rest) =>
    if dictExists name dicts then errorResult "dictionary already exists".toList rest fs dicts
    else ⟨[], dicts.assign name UMap.empty, rest, fs, false⟩

/-- The handler `deleteDict`. -/
def deleteDict : Handler := fun inp fs dicts =>
  match readToken inp with
  | (none, rest) => errorResult "invalid arguments for deletedict".toList rest fs dicts
  | (some name, rest) =>
    match dicts.find name with
    | none => errorResult "dictionary not found".toList rest fs dicts
    | some _ => ⟨[], dicts.erase name, rest, fs, false⟩

/-- The handler `listDicts`. -/
def listDicts : Handler := fun inp fs dicts =>
  if dicts.isEmpty then ⟨"<EMPTY>\n".toList, dicts, inp, fs, false⟩
  else ⟨printDictNames dicts.entries, dicts, inp, fs, false⟩

/-- The handler `addWord`. -/
def addWord : Handler := fun inp fs dicts =>
  match readToken inp with
  | (none, rest) => errorResult "invalid arguments for addword".toList rest fs dicts
  | (some dictName, rest1) =>
    match readToken rest1 with
    | (none, rest) => errorResult "invalid arguments for addword".toList rest fs dicts
    | (some word, rest2) =>
      match dicts.find dictName with
      | none => errorResult "dictionary not found".toList rest2 fs dicts
      | some dict =>
        if dict.contains word then errorResult "word already exists".toList rest2 fs dicts
        else
          let read := readTranslations rest2 ∅
          if read.1 = ∅ then errorResult "no translations provided".toList read.2 fs dicts
          else ⟨[], dicts.modify dictName (fun d => d.assign word read.1), read.2, fs, false⟩

/-- The handler `addTranslation`. -/
def addTranslation : Handler := fun inp fs dicts =>
  match readToken inp with
  | (none, rest) => errorResult "invalid arguments for addtranslation".toList rest fs dicts
  | (some dictName, rest1) =>
    match readToken rest1 with
    | (none, rest) => errorResult "invalid arguments for addtranslation".toList rest fs dicts
    | (some word, rest2) =>
      match readToken rest2 with
      | (none, rest) => errorResult "invalid arguments for addtranslation".toList rest fs dicts
      | (some translation, rest3) =>
        match dicts.find dictName with
        | none => errorResult "dictionary or word not found".toList rest3 fs dicts
        | some dict =>
          match dict.find word with
          | none => errorResult "dictionary or word not found".toList rest3 fs dicts
          | some _ =>
            ⟨[], dicts.modify dictName (fun d => d.modify word (fun t => insert translation t)),
              rest3, fs, false⟩

/-- The handler `removeTranslation`. -/
def removeTranslation : Handler := fun inp fs dicts =>
  match readToken inp with
  | (none, rest) => errorResult "invalid arguments for removetranslation".toList rest fs dicts
  | (some dictName, rest1) =>
    match readToken rest1 with
    | (none, rest) => errorResult "invalid arguments for removetranslation".toList rest fs dicts
    | (some word, rest2) =>
      match readToken rest2 with
      | (none, rest) =>
        errorResult "invalid arguments for removetranslation".toList rest fs dicts
      | (some translation, rest3) =>
        match dicts.find dictName with
        | none => errorResult "dictionary, word or translation not found".toList rest3 fs dicts
        | some dict =>
          match dict.find word with
          | none =>
            errorResult "dictionary, word or translation not found".toList rest3 fs dicts
          | some translations =>
            if translation ∉ translations then
              errorResult "dictionary, word or translation not found".toList rest3 fs dicts
            else if translations.erase translation = ∅ then
              ⟨[], dicts.modify dictName (fun d => d.erase word), rest3, fs, false⟩
            else
              ⟨[], dicts.modify dictName
                (fun d => d.modify word (fun t => t.erase translation)), rest3, fs, false⟩

/-- The handler `deleteWord`. -/
def deleteWord : Handler := fun inp fs dicts =>
  match readToken inp with
  | (none, rest) => errorResult "invalid arguments for deleteword".toList rest fs dicts
  | (some dictName, rest1) =>
    match readToken rest1 with
    | (none, rest) => errorResult "invalid arguments for deleteword".toList rest fs dicts
    | (some word, rest2) =>
      match dicts.find dictName with
      | none => errorResult "dictionary or word not found".toList rest2 fs dicts
      | some dict =>
        if dict.contains word then
          ⟨[], dicts.modify dictName (fun d => d.erase word), rest2, fs, false⟩
        else errorResult "dictionary or word not found".toList rest2 fs dicts

/-- The handler `findTranslations`. -/
def findTranslations : Handler := fun inp fs dicts =>
  match readToken inp with
  | (none, rest) => errorResult "invalid arguments for findtranslations".toList rest fs dicts
  | (some dictName, rest1) =>
    match readToken rest1 with
    | (none, rest) => errorResult "invalid arguments for findtranslations".toList rest fs dicts
    | (some word, rest2) =>
      if !dictExists dictName dicts then
        errorResult "dictionary or word not found".toList rest2 fs dicts
      else
        match dicts.find dictName with
        | none => thrownResult rest2 fs dicts
        | some dict =>
          match dict.find word with
          | none => errorResult "dictionary or word not found".toList rest2 fs dicts
          | some translations =>
            ⟨printWords (setElems translations) ++ ['\n'], dicts, rest2, fs, false⟩

/-- The handler `listWords`. -/
def listWords : Handler := fun inp fs dicts =>
  match readToken inp with
  | (none, rest) => errorResult "invalid arguments for listwords".toList rest fs dicts
  | (some dictName, rest1) =>
    if !dictExists dictName dicts then errorResult "dictionary not found".toList rest1 fs dicts
    else
      match dicts.find dictName with
      | none => thrownResult rest1 fs dicts
      | some dict =>
        if dict.isEmpty then ⟨"<EMPTY>\n".toList, dicts, rest1, fs, false⟩
        else ⟨printDictionary dict.entries, dicts, rest1, fs, false⟩

/-- The statement `newDict[word].insert(first, last)`: `operator[]` creates an
empty set for a new word, then the range is inserted. -/
def insertRange (newDict : Dictionary) (word : Str) (translations : TransSet) : Dictionary :=
  (if newDict.contains word then newDict else newDict.assign word ∅).modify word
    (fun t => t ∪ translations)

/-- The inner `std::for_each` of `mergeDicts` over one source dictionary. -/
def mergeSource (newDict : Dictionary) (sourceDict : Dictionary) : Dictionary :=
  sourceDict.entries.foldl (fun nd wordPair => insertRange nd wordPair.1 wordPair.2) newDict

/-- The loop of `mergeDicts` over `dictNames`; `none` when `dicts.at(name)`
throws. -/
def mergeLoop (dicts : DictCollection) : List Str → Dictionary → Option Dictionary
  | [], newDict => some newDict
  | name :: names, newDict =>
    match dicts.find name with
    | none => none
    | some sourceDict => mergeLoop dicts names (mergeSource newDict sourceDict)

/-- The handler `mergeDicts`. -/
def mergeDicts : Handler := fun inp fs dicts =>
  match readToken inp with
  | (none, rest) => errorResult "invalid arguments for merge".toList rest fs dicts
  | (some newDictName, rest1) =>
    match readInt rest1 with
    | (none, rest) => errorResult "invalid arguments for merge".toList rest fs dicts
    | (some count, rest2) =>
      if count < 2 then errorResult "invalid count".toList rest2 fs dicts
      else
        match readNames count.toNat rest2 with
        | (none, rest) => errorResult "invalid count".toList rest fs dicts
        | (some dictNames, rest3) =>
          if !dictNames.all (fun name => dictExists name dicts) then
            errorResult "dictionary not found".toList rest3 fs dicts
          else if dictExists newDictName dicts then
            errorResult "dictionary already exists".toList rest3 fs dicts
          else
            match mergeLoop dicts dictNames UMap.empty with
            | none => thrownResult rest3 fs dicts
            | some newDict => ⟨[], dicts.assign newDictName newDict, rest3, fs, false⟩

/-- The loop of `findCommon` over `words[1]`, `words[2]`, ...: the running
intersection; `none` when `dict.at(words[i])` throws. -/
def commonLoop (dict : Dictionary) : List Str → TransSet → Option TransSet
  | [], commonTranslations => some commonTranslations
  | w :: ws, commonTranslations =>
    match dict.find w with
    | none => none
    | some currentTranslations => commonLoop dict ws (commonTranslations ∩ currentTranslations)

/-- The computation of `commonTranslations` in `findCommon`, from
`dict.at(words[0])` on; `none` when an access fails. -/
def commonTranslations (dict : Dictionary) : List Str → Option TransSet
  | [] => none
  | w :: ws =>
    match dict.find w with
    | none => none
    | some first => commonLoop dict ws first

/-- The handler `findCommon`. -/
def findCommon : Handler := fun inp fs dicts =>
  match readToken inp with
  | (none, rest) => errorResult "invalid arguments for findcommon".toList rest fs dicts
  | (some dictName, rest1) =>
    match readInt rest1 with
    | (none, rest) => errorResult "invalid arguments for findcommon".toList rest fs dicts
    | (some count, rest2) =>
      if count < 1 then errorResult "invalid count".toList rest2 fs dicts
      else if !dictExists dictName dicts then
        errorResult "dictionary or word(s) not found".toList rest2 fs dicts
      else
        match readNames count.toNat rest2 with
        | (none, rest) => errorResult "invalid count".toList rest fs dicts
        | (some words, rest3) =>
          match dicts.find dictName with
          | none => thrownResult rest3 fs dicts
          | some dict =>
            if !words.all (fun w => dict.contains w) then
              errorResult "dictionary or word(s) not found".toList rest3 fs dicts
            else
              match commonTranslations dict words with
              | none => thrownResult rest3 fs dicts
              | some common =>
                if common = ∅ then ⟨"<EMPTY>\n".toList, dicts, rest3, fs, false⟩
                else ⟨printWords (setElems common) ++ ['\n'], dicts, rest3, fs, false⟩

/-- The handler `saveDict`. -/
def saveDict : Handler := fun inp fs dicts =>
  match readToken inp with
  | (none, rest) => errorResult "invalid arguments for save".toList rest fs dicts
  | (some dictName, rest1) =>
    match readToken rest1 with
    | (none, rest) => errorResult "invalid arguments for save".toList rest fs dicts
    | (some filename, rest2) =>
      if !dictExists dictName dicts then
        errorResult "dictionary not found or file error".toList rest2 fs dicts
      else if !fs.writable filename then
        errorResult "dictionary not found or file error".toList rest2 fs dicts
      else
        match dicts.find dictName with
        | none => thrownResult rest2 (fs.write filename []) dicts
        | some dict =>
          ⟨[], dicts, rest2, fs.write filename (printDictionary dict.entries), false⟩

/-- The handler `loadDict`. -/
def loadDict : Handler := fun inp fs dicts =>
  match readToken inp with
  | (none, rest) => errorResult "invalid arguments for load".toList rest fs dicts
  | (some dictName, rest1) =>
    match readToken rest1 with
    | (none, rest) => errorResult "invalid arguments for load".toList rest fs dicts
    | (some filename, rest2) =>
      if dictExists dictName dicts then
        errorResult "dictionary already exists".toList rest2 fs dicts
      else
        match fs.content filename with
        | none => errorResult "file not found or invalid format".toList rest2 fs dicts
        | some text =>
          if (readDictionary text).isEmpty then
            errorResult "file not found or invalid format".toList rest2 fs dicts
          else ⟨[], dicts.assign dictName (readDictionary text), rest2, fs, false⟩

/-- The sum that `statDict` accumulates in `totalTranslations`. -/
def totalTranslations (dict : Dictionary) : Nat :=
  dict.entries.foldl (fun total wordPair => total + wordPair.2.card) 0

/-- The handler `statDict`.  The text that `std::cout` writes for the `double`
quotient of two counts is the parameter `showQuotient`; the value `0.0` of the
empty dictionary is the quotient of 0 and 1. -/
def statDict (showQuotient : Nat → Nat → List Char) : Handler := fun inp fs dicts =>
  match readToken inp with
  | (none, rest) => errorResult "invalid arguments for stat".toList rest fs dicts
  | (some dictName, rest1) =>
    if !dictExists dictName dicts then errorResult "dictionary not found".toList rest1 fs dicts
    else
      match dicts.find dictName with
      | none => thrownResult rest1 fs dicts
      | some dict =>
        let totalWords := dict.size
        let avgTranslations :=
          if totalWords > 0 then showQuotient (totalTranslations dict) totalWords
          else showQuotient 0 1
        ⟨"Words: ".toList ++ Nat.toDigits 10 totalWords ++ "\n".toList
          ++ "Translations: ".toList ++ Nat.toDigits 10 (totalTranslations dict) ++ "\n".toList
          ++ "Average translations per word: ".toList ++ avgTranslations ++ "\n".toList,
          dicts, rest1, fs, false⟩

/-- The inner loop of `subtractDicts` that computes `foundInOthers` for one
word over `dictNames[1]`, `dictNames[2]`, ...; `none` when `dicts.at` throws. -/
def foundInOthers (dicts : DictCollection) (word : Str) : List Str → Option Bool
  | [] => some false
  | name :: names =>
    match dicts.find name with
    | none => none
    | some otherDict =>
      if otherDict.contains word then some true else foundInOthers dicts word names

/-- The `std::for_each` of `subtractDicts` over the first dictionary. -/
def subtractLoop (dicts : DictCollection) (others : List Str) :
    List (Str × TransSet) → Dictionary → Option Dictionary
  | [], newDict => some newDict
  | wordPair :: rest, newDict =>
    match foundInOthers dicts wordPair.1 others with
    | none => none
    | some true => subtractLoop dicts others rest newDict
    | some false => subtractLoop dicts others rest (newDict.assign wordPair.1 wordPair.2)

/-- The result construction of `subtractDicts`, from `dicts.at(dictNames[0])`
on; `none` when an access fails. -/
def subtractResult (dicts : DictCollection) : List Str → Option Dictionary
  | [] => none
  | first :: others =>
    match dicts.find first with
    | none => none
    | some firstDict => subtractLoop dicts others firstDict.entries UMap.empty

/-- The handler `subtractDicts`. -/
def subtractDicts : Handler := fun inp fs dicts =>
  match readToken inp with
  | (none, rest) => errorResult "invalid arguments for subtract".toList rest fs dicts
  | (some newDictName, rest1) =>
    match readInt rest1 with
    | (none, rest) => errorResult "invalid arguments for subtract".toList rest fs dicts
    | (some count, rest2) =>
      if count < 2 then errorResult "invalid count".toList rest2 fs dicts
      else
        match readNames count.toNat rest2 with
        | (none, rest) => errorResult "invalid count".toList rest fs dicts
        | (some dictNames, rest3) =>
          if !dictNames.all (fun name => dictExists name dicts) then
            errorResult "dictionary not found".toList rest3 fs dicts
          else if dictExists newDictName dicts then
            errorResult "dictionary already exists".toList rest3 fs dicts
          else
            match subtractResult dicts dictNames with
            | none => thrownResult rest3 fs dicts
            | some newDict => ⟨[], dicts.assign newDictName newDict, rest3, fs, false⟩

/-- The statement `wordCount[word]++`: `operator[]` starts a new word at 0. -/
def countWord (wordCount : UMap Int) (word : Str) : UMap Int :=
  (if wordCount.contains word then wordCount else wordCount.assign word 0).modify word
    (fun c => c + 1)

/-- The inner `std::for_each` of `symdiffDicts` over one source dictionary,
on the pair `(wordCount, wordTranslations)`. -/
def symdiffSource (acc : UMap Int × Dictionary) (dict : Dictionary) : UMap Int × Dictionary :=
  dict.entries.foldl
    (fun a wordPair => (countWord a.1 wordPair.1, insertRange a.2 wordPair.1 wordPair.2)) acc

/-- The first loop of `symdiffDicts` over `dictNames`; `none` when
`dicts.at(name)` throws. -/
def symdiffLoop (dicts : DictCollection) :
    List Str → UMap Int × Dictionary → Option (UMap Int × Dictionary)
  | [], acc => some acc
  | name :: names, acc =>
    match dicts.find name with
    | none => none
    | some dict => symdiffLoop dicts names (symdiffSource acc dict)

/-- The value of `wordTranslations[word]`: `operator[]` yields an empty set for
a word that is not stored. -/
def translationsOf (wordTranslations : Dictionary) (word : Str) : TransSet :=
  match wordTranslations.find word with
  | none => ∅
  | some t => t

/-- The second `std::for_each` of `symdiffDicts`, over `wordCount`. -/
def symdiffSelect (wordCount : UMap Int) (wordTranslations : Dictionary) : Dictionary :=
  wordCount.entries.foldl
    (fun newDict countPair =>
      if countPair.2 = 1 then
        newDict.assign countPair.1 (translationsOf wordTranslations countPair.1)
      else newDict) UMap.empty

/-- The result construction of `symdiffDicts`; `none` when an access fails. -/
def symdiffResult (dicts : DictCollection) (dictNames : List Str) : Option Dictionary :=
  match symdiffLoop dicts dictNames (UMap.empty, UMap.empty) with
  | none => none
  | some acc => some (symdiffSelect acc.1 acc.2)

/-- The handler `symdiffDicts`. -/
def symdiffDicts : Handler := fun inp fs dicts =>
  match readToken inp with
  | (none, rest) => errorResult "invalid arguments for symdiff".toList rest fs dicts
  | (some newDictName, rest1) =>
    match readInt rest1 with
    | (none, rest) => errorResult "invalid arguments for symdiff".toList rest fs dicts
    | (some count, rest2) =>
      if count < 2 then errorResult "invalid count".toList rest2 fs dicts
      else
        match readNames count.toNat rest2 with
        | (none, rest) => errorResult "invalid count".toList rest fs dicts
        | (some dictNames, rest3) =>
          if !dictNames.all (fun name => dictExists name dicts) then
            errorResult "dictionary not found".toList rest3 fs dicts
          else if dictExists newDictName dicts then
            errorResult "dictionary already exists".toList rest3 fs dicts
          else
            match symdiffResult dicts dictNames with
            | none => thrownResult rest3 fs dicts
            | some newDict => ⟨[], dicts.assign newDictName newDict, rest3, fs, false⟩

/-- The function `loadFile`; `none` when it throws `std::runtime_error`. -/
def loadFile (filename : Str) (fs : FileSystem) (dicts : DictCollection) :
    Option DictCollection :=
  match fs.content filename with
  | none => none
  | some text =>
    if !(readDictionary text).isEmpty then
      some (dicts.assign "default".toList (readDictionary text))
    else some dicts

/-- The sixteen commands registered in `cmds` by `main`. -/
inductive Command where
  | createdict | deletedict | listdicts | addword | addtranslation | removetranslation
  | deleteword | findtranslations | listwords | merge | findcommon | save | load | stat
  | subtract | symdiff
  deriving DecidableEq, Repr

/-- The handler bound to a command in `cmds`. -/
def Command.handler (showQuotient : Nat → Nat → List Char) : Command → Handler
  | .createdict => createDict
  | .deletedict => deleteDict
  | .listdicts => listDicts
  | .addword => addWord
  | .addtranslation => addTranslation
  | .removetranslation => removeTranslation
  | .deleteword => deleteWord
  | .findtranslations => findTranslations
  | .listwords => listWords
  | .merge => mergeDicts
  | .findcommon => findCommon
  | .save => saveDict
  | .load => loadDict
  | .stat => statDict showQuotient
  | .subtract => subtractDicts
  | .symdiff => symdiffDicts

/-! ## Dispatch loop -/

/-- The lookup `cmds.at(command)`; `none` when it throws `std::out_of_range`. -/
def Command.ofName (command : Str) : Option Command :=
  if command = "createdict".toList then some .createdict
  else if command = "deletedict".toList then some .deletedict
  else if command = "listdicts".toList then some .listdicts
  else if command = "addword".toList then some .addword
  else if command = "addtranslation".toList then some .addtranslation
  else if command = "removetranslation".toList then some .removetranslation
  else if command = "deleteword".toList then some .deleteword
  else if command = "findtranslations".toList then some .findtranslations
  else if command = "listwords".toList then some .listwords
  else if command = "merge".toList then some .merge
  else if command = "findcommon".toList then some .findcommon
  else if command = "save".toList then some .save
  else if command = "load".toList then some .load
  else if command = "stat".toList then some .stat
  else if command = "subtract".toList then some .subtract
  else if command = "symdiff".toList then some .symdiff
  else none

/-- The call `std::cin.ignore(max, '\n')`: drops the input up to and including
the next newline. -/
def ignoreLine (inp : List Char) : List Char :=
  (inp.dropWhile (fun c => c ≠ '\n')).tail

/-- The state that the dispatch loop of `main` carries. -/
structure LoopState where
  out : List Char
  dicts : DictCollection
  fs : FileSystem

/-- One pass of the `try` block of `main` for a command that was read: the
handler call, with `<INVALID COMMAND>` printed when `cmds.at` or the handler
throws `std::out_of_range`. -/
def dispatch (showQuotient : Nat → Nat → List Char) (command : Str) : Handler :=
  fun inp fs dicts =>
    match Command.ofName command with
    | none => ⟨"<INVALID COMMAND>\n".toList, dicts, inp, fs, false⟩
    | some c =>
      let r := c.handler showQuotient inp fs dicts
      if r.thrown then ⟨r.out ++ "<INVALID COMMAND>\n".toList, r.dicts, r.rest, r.fs, false⟩
      else r

/-- The loop `while (!(std::cin >> command).eof())` of `main`, bounded by a
number of passes; `none` when the bound is reached before the loop ends.
The flag `eofbit` is set when the extraction of the command reaches the last
character of the input, which also happens when the command is the last token
and nothing follows it. -/
def commandLoop (showQuotient : Nat → Nat → List Char) :
    Nat → List Char → LoopState → Option LoopState
  | 0, _, _ => none
  | fuel + 1, inp, st =>
    match readToken inp with
    | (none, _) => some st
    | (some command, rest) =>
      if rest = [] then some st
      else
        let r := dispatch showQuotient command rest st.fs st.dicts
        commandLoop showQuotient fuel (ignoreLine r.rest) ⟨st.out ++ r.out, r.dicts, r.fs⟩

/-- The dispatch loop of `main` on the whole standard input, with a bound of
`inp.length + 1` passes (every pass consumes at least the command token). -/
def runCommands (showQuotient : Nat → Nat → List Char) (inp : List Char)
    (fs : FileSystem) (dicts : DictCollection) : Option LoopState :=
  commandLoop showQuotient (inp.length + 1) inp ⟨[], dicts, fs⟩

/-! ## Sample data used by the concrete checks -/

/-- A file system without readable files in which every file can be written. -/
def emptyFs : FileSystem := ⟨fun _ => none, fun _ => true⟩

/-- The dictionary `cat -> kot`. -/
def sampleA : Dictionary :=
  UMap.empty.assign "cat".toList {"kot".toList}

/-- The dictionary `cat -> koshka`, `dog -> pes`. -/
def sampleB : Dictionary :=
  (UMap.empty.assign "cat".toList {"koshka".toList}).assign "dog".toList {"pes".toList}

/-- The collection with `sampleA` under `a` and `sampleB` under `b`. -/
def sampleDicts : DictCollection :=
  (UMap.empty.assign "a".toList sampleA).assign "b".toList sampleB

/-! ## Notions used to state the properties -/

/-- The entries of a list of dictionary names whose dictionary has `word` as a
key, with repetitions: the sources in which the word occurs. -/
def sourcesWith (dicts : DictCollection) (word : Str) (dictNames : List Str) : List Str :=
  dictNames.filter (fun name => wordExists name word dicts)

/-- The dictionary `a -> x, y`, `b -> y, z`, `c -> y`. -/
def sampleC : Dictionary :=
  ((UMap.empty.assign "a".toList {"x".toList, "y".toList}).assign "b".toList
    {"y".toList, "z".toList}).assign "c".toList {"y".toList}

/-- The collection with `sampleC` under `d`. -/
def sampleDicts2 : DictCollection :=
  UMap.empty.assign "d".toList sampleC

/-- Every word of the dictionary has a non-empty translation set. -/
def setsNonEmpty (d : Dictionary) : Prop :=
  ∀ e ∈ d.entries, e.2 ≠ ∅

instance (d : Dictionary) : Decidable (setsNonEmpty d) :=
  inferInstanceAs (Decidable (∀ e ∈ d.entries, e.2 ≠ ∅))

/-- The invariant of the data model: every word of every dictionary of the
collection has a non-empty translation set. -/
def nonEmptySets (dicts : DictCollection) : Prop :=
  ∀ e ∈ dicts.entries, setsNonEmpty e.2

instance (dicts : DictCollection) : Decidable (nonEmptySets dicts) :=
  inferInstanceAs (Decidable (∀ e ∈ dicts.entries, setsNonEmpty e.2))

/-- A non-empty token without white space. -/
def tokenOK (t : Str) : Prop :=
  t ≠ [] ∧ ∀ c ∈ t, isspace c = false

instance (t : Str) : Decidable (tokenOK t) :=
  inferInstanceAs (Decidable (t ≠ [] ∧ ∀ c ∈ t, isspace c = false))

/-- The invariants of the data model for one dictionary: words and translations
are non-empty tokens without white space, and every translation set is
non-empty. -/
def wellFormedDict (d : Dictionary) : Prop :=
  ∀ e ∈ d.entries, tokenOK e.1 ∧ e.2 ≠ ∅ ∧ ∀ t ∈ e.2, tokenOK t

instance (d : Dictionary) : Decidable (wellFormedDict d) :=
  inferInstanceAs (Decidable (∀ e ∈ d.entries, tokenOK e.1 ∧ e.2 ≠ ∅ ∧ ∀ t ∈ e.2, tokenOK t))

/-- The collection that holds only the empty dictionary, under `a`. -/
def sampleDicts3 : DictCollection :=
  UMap.empty.assign "a".toList UMap.empty

/-- The translation set stored for `word` in the dictionary `dictName` of the
collection; empty when the dictionary or the word is missing. -/
def lookupTranslations (dicts : DictCollection) (dictName word : Str) : TransSet :=
  match dicts.find dictName with
  | none => ∅
  | some d => translationsOf d word

/-- The number of tokens in a piece of input: the number of characters that are
not white space and that start the input or follow a white-space character
(`afterSpace` tells whether the position before the input counts as white
space). -/
def countTokens : Bool → List Char → Nat
  | _, [] => 0
  | afterSpace, c :: cs =>
    (if afterSpace && !isspace c then 1 else 0) + countTokens (isspace c) cs

/-- The collection that holds only the empty dictionary, under `en`. -/
def sampleDicts4 : DictCollection :=
  UMap.empty.assign "en".toList UMap.empty

/-- The key under which a command is registered in `cmds`; it is also the
name that the handler puts in its `invalid arguments for` message. -/
def Command.name : Command → Str
  | .createdict => "createdict".toList
  | .deletedict => "deletedict".toList
  | .listdicts => "listdicts".toList
  | .addword => "addword".toList
  | .addtranslation => "addtranslation".toList
  | .removetranslation => "removetranslation".toList
  | .deleteword => "deleteword".toList
  | .findtranslations => "findtranslations".toList
  | .listwords => "listwords".toList
  | .merge => "merge".toList
  | .findcommon => "findcommon".toList
  | .save => "save".toList
  | .load => "load".toList
  | .stat => "stat".toList
  | .subtract => "subtract".toList
  | .symdiff => "symdiff".toList

/-- The number of leading arguments a command requires: the tokens its handler
extracts in its first `if (!(in >> ...))` test. -/
def Command.required : Command → Nat
  | .createdict => 1
  | .deletedict => 1
  | .listdicts => 0
  | .addword => 2
  | .addtranslation => 3
  | .removetranslation => 3
  | .deleteword => 2
  | .findtranslations => 2
  | .listwords => 1
  | .merge => 2
  | .findcommon => 2
  | .save => 2
  | .load => 2
  | .stat => 1
  | .subtract => 2
  | .symdiff => 2

/-- The rest of the line on which a command stands: the input up to the next
newline. -/
def ownLine (inp : List Char) : List Char :=
  inp.takeWhile (fun c => c ≠ '\n')

/-- Tokenisation on runs of separators: the maximal runs of characters that are
not separators, in order. -/
def tokensBy (isSep : Char → Bool) : List Char → List Str
  | [] => []
  | [c] => if isSep c then [] else [[c]]
  | c :: d :: r =>
    if isSep c then tokensBy isSep (d :: r)
    else if isSep d then [c] :: tokensBy isSep (d :: r)
    else
      match tokensBy isSep (d :: r) with
      | t :: ts => (c :: t) :: ts
      | [] => [[c]]

/-- Decoding of one line by tokenisation: the first token is the word, the set
of the remaining tokens its translations; a line without a translation leaves
the dictionary as it is. -/
def decodeLine (isSep : Char → Bool) (dict : Dictionary) (line : List Char) : Dictionary :=
  match tokensBy isSep line with
  | word :: t :: ts => dict.assign word (t :: ts).toFinset
  | _ => dict

/-- Decoding of a text by tokenisation of its lines. -/
def decodeBy (isSep : Char → Bool) (text : List Char) : Dictionary :=
  (getlines text).foldl (decodeLine isSep) UMap.empty

/-- Whether a character is the space character, the one separator that
`readDictionary` searches for. -/
def isBlank (c : Char) : Bool := c = ' '

/-- A non-empty string without a space and without a newline. -/
def spaceFree (t : Str) : Prop :=
  t ≠ [] ∧ ∀ c ∈ t, c ≠ ' ' ∧ c ≠ '\n'

instance (t : Str) : Decidable (spaceFree t) :=
  inferInstanceAs (Decidable (t ≠ [] ∧ ∀ c ∈ t, c ≠ ' ' ∧ c ≠ '\n'))

/-- The text that follows a command name on an input line with the given
arguments: every argument is preceded by a space, and a newline ends the line. -/
def commandLine : List Str → List Char
  | [] => ['\n']
  | a :: as => ' ' :: (a ++ commandLine as)

/-- The collection after the commands `removetranslation dictName word t`, one
line for each `t` of a list, in order. -/
def removeEach (fs : FileSystem) (dicts : DictCollection) (dictName word : Str)
    (ts : List Str) : DictCollection :=
  ts.foldl (fun ds t => (removeTranslation (commandLine [dictName, word, t]) fs ds).dicts) dicts

/-- The dictionary `cat -> кот, кошка`, `dog -> пёс`. -/
def sampleEn : Dictionary :=
  (UMap.empty.assign "cat".toList {"кот".toList, "кошка".toList}).assign "dog".toList
    {"пёс".toList}

/-- The collection with `sampleEn` under `en`. -/
def sampleDicts5 : DictCollection :=
  UMap.empty.assign "en".toList sampleEn

/-- The collection after the three commands `subtract x 2 a b`,
`subtract y 2 b a` and `merge m 2 x y`. -/
def mergeOfDifferences (fs : FileSystem) (dicts : DictCollection) (a b x y m : Str) :
    DictCollection :=
  (mergeDicts (commandLine [m, ['2'], x, y]) fs
    (subtractDicts (commandLine [y, ['2'], b, a]) fs
      (subtractDicts (commandLine [x, ['2'], a, b]) fs dicts).dicts).dicts).dicts

/-- The word of a line of a dictionary file: `line.substr(0, firstSpace)` in
`readDictionary`. -/
def lineWord (line : List Char) : Str :=
  line.takeWhile (fun c => c ≠ ' ')

/-- The translation set that `readDictionary` builds from a line: the pieces of
`line.substr(firstSpace + 1)`. -/
def lineTranslations (line : List Char) : TransSet :=
  parseTranslations (line.dropWhile (fun c => c ≠ ' ')).tail

/-! ## Basic facts about maps -/

namespace UMap

variable {V : Type}

theorem lookupList_eq_none {k : Str} {l : List (Str × V)} :
    lookupList k l = none ↔ k ∉ l.map Prod.fst := by
  induction l with
  | nil => simp [lookupList]
  | cons e rest ih =>
    by_cases h : e.1 = k
    · rw [lookupList, if_pos h]
      constructor
      · intro h1
        exact absurd h1 (Option.some_ne_none _)
      · intro h1
        exact absurd (List.mem_map.mpr ⟨e, List.mem_cons_self _ _, h⟩) h1
    · rw [lookupList, if_neg h, ih, List.map_cons, List.mem_cons, not_or]
      constructor
      · intro h1
        exact ⟨fun h3 => h h3.symm, h1⟩
      · intro h1
        exact h1.2

theorem lookupList_mem {k : Str} {v : V} {l : List (Str × V)}
    (h : lookupList k l = some v) : (k, v) ∈ l := by
  induction l with
  | nil => simp [lookupList] at h
  | cons e rest ih =>
    by_cases hk : e.1 = k
    · simp only [lookupList, hk, if_true, Option.some.injEq] at h
      rw [← hk, ← h]
      exact List.mem_cons_self _ _
    · simp only [lookupList, hk, if_false] at h
      exact List.mem_cons_of_mem _ (ih h)

theorem lookupList_of_mem {k : Str} {v : V} {l : List (Str × V)}
    (hn : (l.map Prod.fst).Nodup) (h : (k, v) ∈ l) : lookupList k l = some v := by
  induction l with
  | nil => simp at h
  | cons e rest ih =>
    rw [List.map_cons, List.nodup_cons] at hn
    rcases List.mem_cons.mp h with h1 | h1
    · subst h1
      simp [lookupList]
    · have hk : e.1 ≠ k := by
        intro hk
        apply hn.1
        rw [hk]
        exact List.mem_map.mpr ⟨(k, v), h1, rfl⟩
      simp only [lookupList, hk, if_false]
      exact ih hn.2 h1

theorem lookupList_map {k k0 : Str} {f : V → V} {l : List (Str × V)} :
    lookupList k (l.map (fun e => if e.1 = k0 then (e.1, f e.2) else e))
      = if k = k0 then (lookupList k l).map f else lookupList k l := by
  induction l with
  | nil => simp [lookupList]
  | cons e rest ih =>
    by_cases h0 : e.1 = k0
    · by_cases hk : e.1 = k
      · have hkk : k = k0 := by rw [← hk, h0]
        simp [lookupList, h0, hkk]
      · have hkk : ¬ k = k0 := by
          intro h
          apply hk
          rw [h, h0]
        have h0k : ¬ k0 = k := fun h => hkk h.symm
        simp only [List.map_cons, h0, if_true, lookupList, h0k, if_false, hkk] at ih ⊢
        exact ih
    · by_cases hk : e.1 = k
      · have hkk : ¬ k = k0 := by
          intro h
          apply h0
          rw [hk, h]
        simp [lookupList, h0, hk, hkk]
      · simp only [List.map_cons, h0, if_false, lookupList, hk] at ih ⊢
        exact ih

theorem lookupList_filter {k k0 : Str} {l : List (Str × V)} :
    lookupList k (l.filter (fun e => e.1 ≠ k0))
      = if k = k0 then none else lookupList k l := by
  induction l with
  | nil => simp [lookupList]
  | cons e rest ih =>
    by_cases h0 : e.1 = k0
    · rw [List.filter_cons_of_neg (by simp [h0]), ih]
      by_cases hkk : k = k0
      · rw [if_pos hkk, if_pos hkk]
      · have hk : ¬ e.1 = k := by
          intro h
          apply hkk
          rw [← h, h0]
        rw [if_neg hkk, if_neg hkk, lookupList, if_neg hk]
    · rw [List.filter_cons_of_pos (by simp [h0]), lookupList]
      by_cases hk : e.1 = k
      · have hkk : ¬ k = k0 := by
          intro h
          apply h0
          rw [hk, h]
        rw [if_pos hk, if_neg hkk, lookupList, if_pos hk]
      · rw [if_neg hk, ih, lookupList, if_neg hk]

@[simp] theorem find_empty (k : Str) : (empty : UMap V).find k = none := rfl

theorem find_modify (m : UMap V) (k0 k : Str) (f : V → V) :
    (m.modify k0 f).find k = if k = k0 then (m.find k).map f else m.find k := by
  unfold modify find
  exact lookupList_map

theorem find_erase (m : UMap V) (k0 k : Str) :
    (m.erase k0).find k = if k = k0 then none else m.find k := by
  unfold erase find
  exact lookupList_filter

theorem find_eq_none (m : UMap V) (k : Str) : m.find k = none ↔ k ∉ m.entries.map Prod.fst :=
  lookupList_eq_none

theorem find_assign (m : UMap V) (k0 k : Str) (v : V) :
    (m.assign k0 v).find k = if k = k0 then some v else m.find k := by
  unfold assign
  by_cases h : k0 ∈ m.entries.map Prod.fst
  · rw [dif_pos h, find_modify]
    by_cases hk : k = k0
    · subst hk
      rw [if_pos rfl, if_pos rfl]
      cases hf : m.find k with
      | none => exact absurd h ((find_eq_none m k).mp hf)
      | some v0 => rfl
    · rw [if_neg hk, if_neg hk]
  · rw [dif_neg h]
    by_cases hk : k = k0
    · subst hk
      simp [find, lookupList]
    · have hk2 : ¬ k0 = k := fun h2 => hk h2.symm
      simp [find, lookupList, hk, hk2]

theorem contains_iff (m : UMap V) (k : Str) : m.contains k = true ↔ ∃ v, m.find k = some v := by
  unfold contains
  exact Option.isSome_iff_exists

theorem contains_eq_false (m : UMap V) (k : Str) : m.contains k = false ↔ m.find k = none := by
  unfold contains
  cases m.find k <;> simp

theorem mem_entries (m : UMap V) (k : Str) (v : V) : (k, v) ∈ m.entries ↔ m.find k = some v :=
  ⟨lookupList_of_mem m.nodupKeys, lookupList_mem⟩

end UMap

/-! ## Merge -/

theorem translationsOf_of_find {d : Dictionary} {w : Str} {S : TransSet}
    (h : d.find w = some S) : translationsOf d w = S := by
  simp [translationsOf, h]

theorem translationsOf_of_none {d : Dictionary} {w : Str}
    (h : d.find w = none) : translationsOf d w = ∅ := by
  simp [translationsOf, h]

theorem find_insertRange (nd : Dictionary) (w0 w : Str) (T : TransSet) :
    (insertRange nd w0 T).find w
      = if w = w0 then some (translationsOf nd w0 ∪ T) else nd.find w := by
  unfold insertRange
  rw [UMap.find_modify]
  by_cases hw : w = w0
  · subst hw
    rw [if_pos rfl, if_pos rfl]
    cases hc : nd.contains w with
    | true =>
      obtain ⟨S, hS⟩ := (UMap.contains_iff nd w).mp hc
      simp [hS, translationsOf]
    | false =>
      have hS := (UMap.contains_eq_false nd w).mp hc
      simp [UMap.find_assign, hS, translationsOf]
  · rw [if_neg hw, if_neg hw]
    cases hc : nd.contains w0 with
    | true => simp
    | false => simp [UMap.find_assign, hw]

theorem find_foldl_insertRange (l : List (Str × TransSet)) (hn : (l.map Prod.fst).Nodup)
    (nd : Dictionary) (w : Str) :
    (l.foldl (fun nd wordPair => insertRange nd wordPair.1 wordPair.2) nd).find w
      = match UMap.lookupList w l with
        | none => nd.find w
        | some S => some (translationsOf nd w ∪ S) := by
  induction l generalizing nd with
  | nil => simp [UMap.lookupList]
  | cons e rest ih =>
    rw [List.map_cons, List.nodup_cons] at hn
    rw [List.foldl_cons, ih hn.2]
    by_cases hk : e.1 = w
    · have hnone : UMap.lookupList w rest = none := by
        rw [UMap.lookupList_eq_none, ← hk]
        exact hn.1
      simp [UMap.lookupList, hk, hnone, find_insertRange]
    · have hk2 : ¬ w = e.1 := fun h => hk h.symm
      simp only [UMap.lookupList, hk, if_false]
      cases UMap.lookupList w rest with
      | none => simp [find_insertRange, hk2]
      | some S => simp [translationsOf, find_insertRange, hk2]

theorem find_mergeSource (nd src : Dictionary) (w : Str) :
    (mergeSource nd src).find w
      = match src.find w with
        | none => nd.find w
        | some S => some (translationsOf nd w ∪ S) :=
  find_foldl_insertRange src.entries src.nodupKeys nd w

theorem mergeLoop_spec (dicts : DictCollection) (names : List Str)
    (hex : ∀ name ∈ names, dicts.contains name = true) (nd : Dictionary) :
    ∃ R, mergeLoop dicts names nd = some R ∧
      (∀ w, R.contains w = true ↔ nd.contains w = true ∨
        ∃ name ∈ names, ∃ d, dicts.find name = some d ∧ d.contains w = true) ∧
      (∀ w t, t ∈ translationsOf R w ↔ t ∈ translationsOf nd w ∨
        ∃ name ∈ names, ∃ d S, dicts.find name = some d ∧ d.find w = some S ∧ t ∈ S) := by
  induction names generalizing nd with
  | nil => exact ⟨nd, rfl, by simp, by simp⟩
  | cons name names ih =>
    obtain ⟨src, hsrc⟩ := (UMap.contains_iff dicts name).mp (hex name (List.mem_cons_self _ _))
    obtain ⟨R, hR, hc, ht⟩ :=
      ih (fun n hn => hex n (List.mem_cons_of_mem _ hn)) (mergeSource nd src)
    refine ⟨R, ?_, ?_, ?_⟩
    · simp [mergeLoop, hsrc, hR]
    · intro w
      rw [hc w]
      have hstep : (mergeSource nd src).contains w = true ↔
          nd.contains w = true ∨ src.contains w = true := by
        simp only [UMap.contains, find_mergeSource]
        cases src.find w <;> simp
      rw [hstep]
      constructor
      · rintro ((h | h) | ⟨n, hn, d, hd, hw⟩)
        · exact Or.inl h
        · exact Or.inr ⟨name, List.mem_cons_self _ _, src, hsrc, h⟩
        · exact Or.inr ⟨n, List.mem_cons_of_mem _ hn, d, hd, hw⟩
      · rintro (h | ⟨n, hn, d, hd, hw⟩)
        · exact Or.inl (Or.inl h)
        · rcases List.mem_cons.mp hn with h1 | h1
          · subst h1
            rw [hsrc] at hd
            cases hd
            exact Or.inl (Or.inr hw)
          · exact Or.inr ⟨n, h1, d, hd, hw⟩
    · intro w t
      rw [ht w t]
      have hstep : t ∈ translationsOf (mergeSource nd src) w ↔
          t ∈ translationsOf nd w ∨ ∃ S, src.find w = some S ∧ t ∈ S := by
        simp only [translationsOf, find_mergeSource]
        cases src.find w <;> simp
      rw [hstep]
      constructor
      · rintro ((h | ⟨S, hS, h⟩) | ⟨n, hn, d, S, hd, hS, h⟩)
        · exact Or.inl h
        · exact Or.inr ⟨name, List.mem_cons_self _ _, src, S, hsrc, hS, h⟩
        · exact Or.inr ⟨n, List.mem_cons_of_mem _ hn, d, S, hd, hS, h⟩
      · rintro (h | ⟨n, hn, d, S, hd, hS, h⟩)
        · exact Or.inl (Or.inl h)
        · rcases List.mem_cons.mp hn with h1 | h1
          · subst h1
            rw [hsrc] at hd
            cases hd
            exact Or.inl (Or.inr ⟨S, hS, h⟩)
          · exact Or.inr ⟨n, h1, d, S, hd, hS, h⟩

theorem not_exists_missing {V : Type} {dicts : UMap V} {names : List Str}
    (hex : ∀ name ∈ names, dicts.contains name = true) :
    ¬ ∃ x ∈ names, dicts.contains x = false := by
  rintro ⟨x, hx, h⟩
  rw [hex x hx] at h
  cases h

/-- C1. After a successful `mergeDicts` (target name unused, `count >= 2`, all
`count` listed dictionaries exist) the target dictionary is stored, it contains
a word exactly when some listed source contains it, and the translation set of a
word in the target is the union of its translation sets in the listed sources
that contain it. -/
theorem mergeDicts_union (inp rest1 rest2 rest3 : List Char) (fs : FileSystem)
    (dicts : DictCollection) (newDictName : Str) (count : Int) (dictNames : List Str)
    (hname : readToken inp = (some newDictName, rest1))
    (hcount : readInt rest1 = (some count, rest2))
    (hge : 2 ≤ count)
    (hnames : readNames count.toNat rest2 = (some dictNames, rest3))
    (hex : ∀ name ∈ dictNames, dicts.contains name = true)
    (hnew : dicts.contains newDictName = false) :
    ∃ target, (mergeDicts inp fs dicts).dicts.find newDictName = some target ∧
      (∀ w, target.contains w = true ↔
        ∃ name ∈ dictNames, ∃ d, dicts.find name = some d ∧ d.contains w = true) ∧
      (∀ w S, target.find w = some S → ∀ t, t ∈ S ↔
        ∃ name ∈ dictNames, ∃ d S2, dicts.find name = some d ∧ d.find w = some S2 ∧ t ∈ S2) := by
  obtain ⟨R, hR, hc, ht⟩ := mergeLoop_spec dicts dictNames hex UMap.empty
  have hlt : ¬ count < 2 := not_lt.mpr hge
  refine ⟨R, ?_, ?_, ?_⟩
  · simp [mergeDicts, hname, hcount, hlt, hnames, not_exists_missing hex, dictExists, hnew, hR,
      UMap.find_assign]
  · intro w
    rw [hc w]
    simp [UMap.contains]
  · intro w S hS t
    have h := ht w t
    rw [translationsOf_of_find hS] at h
    rw [h]
    simp [translationsOf]

/-- C1, concrete check: `merge m 2 a b` on the sample collection. -/
theorem mergeDicts_union_witness :
    ∃ target, (mergeDicts " m 2 a b\n".toList emptyFs sampleDicts).dicts.find "m".toList
        = some target ∧
      (∀ w, target.contains w = true ↔
        ∃ name ∈ ["a".toList, "b".toList], ∃ d,
          sampleDicts.find name = some d ∧ d.contains w = true) ∧
      (∀ w S, target.find w = some S → ∀ t, t ∈ S ↔
        ∃ name ∈ ["a".toList, "b".toList], ∃ d S2,
          sampleDicts.find name = some d ∧ d.find w = some S2 ∧ t ∈ S2) :=
  mergeDicts_union " m 2 a b\n".toList " 2 a b\n".toList " a b\n".toList "\n".toList emptyFs
    sampleDicts "m".toList 2 ["a".toList, "b".toList] (by decide) (by decide) (by decide)
    (by decide) (by decide) (by decide)

/-! ## Subtract -/

theorem foundInOthers_spec (dicts : DictCollection) (w : Str) (others : List Str)
    (hex : ∀ name ∈ others, dicts.contains name = true) :
    ∃ b, foundInOthers dicts w others = some b ∧
      (b = true ↔ ∃ name ∈ others, ∃ d, dicts.find name = some d ∧ d.contains w = true) := by
  induction others with
  | nil => exact ⟨false, rfl, by simp⟩
  | cons name names ih =>
    obtain ⟨d, hd⟩ := (UMap.contains_iff dicts name).mp (hex name (List.mem_cons_self _ _))
    obtain ⟨b, hb, hiff⟩ := ih (fun n hn => hex n (List.mem_cons_of_mem _ hn))
    cases hw : d.contains w with
    | true =>
      refine ⟨true, by simp [foundInOthers, hd, hw], ?_⟩
      simp only [true_iff]
      exact ⟨name, List.mem_cons_self _ _, d, hd, hw⟩
    | false =>
      refine ⟨b, by simp [foundInOthers, hd, hw, hb], ?_⟩
      rw [hiff]
      constructor
      · rintro ⟨n, hn, d2, hd2, h⟩
        exact ⟨n, List.mem_cons_of_mem _ hn, d2, hd2, h⟩
      · rintro ⟨n, hn, d2, hd2, h⟩
        rcases List.mem_cons.mp hn with h1 | h1
        · subst h1
          rw [hd] at hd2
          cases hd2
          rw [hw] at h
          cases h
        · exact ⟨n, h1, d2, hd2, h⟩

theorem subtractLoop_spec (dicts : DictCollection) (others : List Str)
    (hex : ∀ name ∈ others, dicts.contains name = true)
    (l : List (Str × TransSet)) (hn : (l.map Prod.fst).Nodup) (nd : Dictionary) :
    ∃ R, subtractLoop dicts others l nd = some R ∧
      ∀ w, R.find w =
        match UMap.lookupList w l with
        | none => nd.find w
        | some S => if foundInOthers dicts w others = some true then nd.find w else some S := by
  induction l generalizing nd with
  | nil => exact ⟨nd, rfl, fun w => rfl⟩
  | cons e rest ih =>
    rw [List.map_cons, List.nodup_cons] at hn
    obtain ⟨b, hb, -⟩ := foundInOthers_spec dicts e.1 others hex
    have hnone : UMap.lookupList e.1 rest = none := UMap.lookupList_eq_none.mpr hn.1
    cases b with
    | true =>
      obtain ⟨R, hR, hfind⟩ := ih hn.2 nd
      refine ⟨R, by simp [subtractLoop, hb, hR], ?_⟩
      intro w
      rw [hfind w]
      by_cases hk : e.1 = w
      · subst hk
        simp [UMap.lookupList, hnone, hb]
      · simp [UMap.lookupList, hk]
    | false =>
      obtain ⟨R, hR, hfind⟩ := ih hn.2 (nd.assign e.1 e.2)
      refine ⟨R, by simp [subtractLoop, hb, hR], ?_⟩
      intro w
      rw [hfind w]
      by_cases hk : e.1 = w
      · subst hk
        simp [UMap.lookupList, hnone, hb, UMap.find_assign]
      · have hk2 : ¬ w = e.1 := fun h => hk h.symm
        simp only [UMap.lookupList, hk, if_false, UMap.find_assign, hk2]

/-- C2. After a successful `subtractDicts` (target name unused, `count >= 2`,
all listed dictionaries exist) the target dictionary is stored, it contains a
word exactly when the first listed dictionary contains it and no other listed
dictionary does, and every word of the target has the translation set it has in
the first dictionary. -/
theorem subtractDicts_difference (inp rest1 rest2 rest3 : List Char) (fs : FileSystem)
    (dicts : DictCollection) (newDictName : Str) (count : Int) (firstName : Str)
    (others : List Str) (firstDict : Dictionary)
    (hname : readToken inp = (some newDictName, rest1))
    (hcount : readInt rest1 = (some count, rest2))
    (hge : 2 ≤ count)
    (hnames : readNames count.toNat rest2 = (some (firstName :: others), rest3))
    (hfirst : dicts.find firstName = some firstDict)
    (hex : ∀ name ∈ others, dicts.contains name = true)
    (hnew : dicts.contains newDictName = false) :
    ∃ target, (subtractDicts inp fs dicts).dicts.find newDictName = some target ∧
      (∀ w, target.contains w = true ↔
        firstDict.contains w = true ∧
          ∀ name ∈ others, ∀ d, dicts.find name = some d → d.contains w = false) ∧
      (∀ w S, target.find w = some S → firstDict.find w = some S) := by
  obtain ⟨R, hR, hfind⟩ :=
    subtractLoop_spec dicts others hex firstDict.entries firstDict.nodupKeys UMap.empty
  have hlt : ¬ count < 2 := not_lt.mpr hge
  have hfc : dicts.contains firstName = true := (UMap.contains_iff _ _).mpr ⟨firstDict, hfirst⟩
  have hkey : ∀ w, R.find w =
      if foundInOthers dicts w others = some true then none else firstDict.find w := by
    intro w
    rw [hfind w]
    change (match firstDict.find w with
      | none => (UMap.empty : Dictionary).find w
      | some S => if foundInOthers dicts w others = some true
          then (UMap.empty : Dictionary).find w else some S) = _
    cases firstDict.find w <;> simp
  refine ⟨R, ?_, ?_, ?_⟩
  · simp [subtractDicts, hname, hcount, hlt, hnames, not_exists_missing hex, dictExists, hnew,
      hfc, subtractResult, hfirst, hR, UMap.find_assign]
  · intro w
    obtain ⟨b, hb, hiff⟩ := foundInOthers_spec dicts w others hex
    simp only [UMap.contains, hkey w, hb]
    cases b with
    | true =>
      obtain ⟨n, hn, d, hd, hw⟩ := hiff.mp rfl
      constructor
      · intro h
        simp at h
      · rintro ⟨-, hall⟩
        have h2 := hall n hn d hd
        simp only [UMap.contains] at hw
        rw [hw] at h2
        cases h2
    | false =>
      have hno : ¬ ∃ name ∈ others, ∃ d, dicts.find name = some d ∧ d.contains w = true := by
        intro h
        have := hiff.mpr h
        cases this
      have hne : ¬ ((some false : Option Bool) = some true) := by simp
      rw [if_neg hne]
      constructor
      · intro h
        refine ⟨h, ?_⟩
        intro n hn d hd
        cases hdw : (d.find w).isSome with
        | false => rfl
        | true => exact absurd ⟨n, hn, d, hd, hdw⟩ hno
      · intro h
        exact h.1
  · intro w S hS
    rw [hkey w] at hS
    by_cases hf : foundInOthers dicts w others = some true
    · rw [if_pos hf] at hS
      cases hS
    · rw [if_neg hf] at hS
      exact hS

/-- C2, concrete check: `subtract m 2 b a` on the sample collection. -/
theorem subtractDicts_difference_witness :
    ∃ target, (subtractDicts " m 2 b a\n".toList emptyFs sampleDicts).dicts.find "m".toList
        = some target ∧
      (∀ w, target.contains w = true ↔
        sampleB.contains w = true ∧
          ∀ name ∈ ["a".toList], ∀ d, sampleDicts.find name = some d → d.contains w = false) ∧
      (∀ w S, target.find w = some S → sampleB.find w = some S) :=
  subtractDicts_difference " m 2 b a\n".toList " 2 b a\n".toList " b a\n".toList "\n".toList
    emptyFs sampleDicts "m".toList 2 "b".toList ["a".toList] sampleB (by decide) (by decide)
    (by decide) (by decide) (by decide) (by decide) (by decide)

/-! ## Symmetric difference -/

theorem find_countWord (wc : UMap Int) (w0 w : Str) :
    (countWord wc w0).find w
      = if w = w0 then some ((wc.find w0).getD 0 + 1) else wc.find w := by
  unfold countWord
  rw [UMap.find_modify]
  by_cases hw : w = w0
  · subst hw
    rw [if_pos rfl, if_pos rfl]
    cases hc : wc.contains w with
    | true =>
      obtain ⟨c, hc2⟩ := (UMap.contains_iff wc w).mp hc
      simp [hc2]
    | false =>
      have hc2 := (UMap.contains_eq_false wc w).mp hc
      simp [UMap.find_assign, hc2]
  · rw [if_neg hw, if_neg hw]
    cases hc : wc.contains w0 with
    | true => simp
    | false => simp [UMap.find_assign, hw]

theorem symdiffSource_snd (l : List (Str × TransSet)) (acc : UMap Int × Dictionary) :
    (l.foldl (fun a wordPair =>
        (countWord a.1 wordPair.1, insertRange a.2 wordPair.1 wordPair.2)) acc).2
      = l.foldl (fun nd wordPair => insertRange nd wordPair.1 wordPair.2) acc.2 := by
  induction l generalizing acc with
  | nil => rfl
  | cons e rest ih => simp only [List.foldl_cons, ih]

theorem symdiffSource_fst (l : List (Str × TransSet)) (acc : UMap Int × Dictionary) :
    (l.foldl (fun a wordPair =>
        (countWord a.1 wordPair.1, insertRange a.2 wordPair.1 wordPair.2)) acc).1
      = l.foldl (fun wc wordPair => countWord wc wordPair.1) acc.1 := by
  induction l generalizing acc with
  | nil => rfl
  | cons e rest ih => simp only [List.foldl_cons, ih]

theorem find_foldl_countWord (l : List (Str × TransSet)) (hn : (l.map Prod.fst).Nodup)
    (wc : UMap Int) (w : Str) :
    ((l.foldl (fun wc wordPair => countWord wc wordPair.1) wc).find w).getD 0
      = (wc.find w).getD 0 + if (UMap.lookupList w l).isSome then 1 else 0 := by
  induction l generalizing wc with
  | nil => simp [UMap.lookupList]
  | cons e rest ih =>
    rw [List.map_cons, List.nodup_cons] at hn
    rw [List.foldl_cons, ih hn.2]
    by_cases hk : e.1 = w
    · have hnone : UMap.lookupList w rest = none := by
        rw [UMap.lookupList_eq_none, ← hk]
        exact hn.1
      simp [UMap.lookupList, hk, hnone, find_countWord]
    · have hk2 : ¬ w = e.1 := fun h => hk h.symm
      simp [UMap.lookupList, hk, find_countWord, hk2]

theorem wordExists_eq (dicts : DictCollection) (name w : Str) (d : Dictionary)
    (hd : dicts.find name = some d) : wordExists name w dicts = d.contains w := by
  simp [wordExists, hd]

theorem symdiffLoop_spec (dicts : DictCollection) (names : List Str)
    (hex : ∀ name ∈ names, dicts.contains name = true) (acc : UMap Int × Dictionary) :
    ∃ res, symdiffLoop dicts names acc = some res ∧
      mergeLoop dicts names acc.2 = some res.2 ∧
      ∀ w, (res.1.find w).getD 0
        = (acc.1.find w).getD 0 + ((sourcesWith dicts w names).length : Int) := by
  induction names generalizing acc with
  | nil => exact ⟨acc, rfl, rfl, by simp [sourcesWith]⟩
  | cons name names ih =>
    obtain ⟨d, hd⟩ := (UMap.contains_iff dicts name).mp (hex name (List.mem_cons_self _ _))
    obtain ⟨res, hres, hm, hcnt⟩ :=
      ih (fun n hn => hex n (List.mem_cons_of_mem _ hn)) (symdiffSource acc d)
    refine ⟨res, by simp [symdiffLoop, hd, hres], ?_, ?_⟩
    · have h2 : (symdiffSource acc d).2 = mergeSource acc.2 d := symdiffSource_snd _ _
      rw [h2] at hm
      simp [mergeLoop, hd, hm]
    · intro w
      rw [hcnt w]
      have h1 : (symdiffSource acc d).1
          = d.entries.foldl (fun wc wordPair => countWord wc wordPair.1) acc.1 :=
        symdiffSource_fst _ _
      rw [h1, find_foldl_countWord d.entries d.nodupKeys]
      have hwe := wordExists_eq dicts name w d hd
      unfold sourcesWith at *
      cases hc : d.contains w with
      | true =>
        rw [hc] at hwe
        have hl : (UMap.lookupList w d.entries).isSome = true := hc
        simp only [List.filter_cons, hwe, hl, if_true, List.length_cons]
        push_cast
        ring
      | false =>
        rw [hc] at hwe
        have hl : (UMap.lookupList w d.entries).isSome = false := hc
        simp [List.filter_cons, hwe, hl]

theorem find_symdiffSelect_aux (wt : Dictionary) (l : List (Str × Int))
    (hn : (l.map Prod.fst).Nodup) (nd : Dictionary) (w : Str) :
    (l.foldl (fun newDict countPair =>
        if countPair.2 = 1 then newDict.assign countPair.1 (translationsOf wt countPair.1)
        else newDict) nd).find w
      = match UMap.lookupList w l with
        | none => nd.find w
        | some c => if c = 1 then some (translationsOf wt w) else nd.find w := by
  induction l generalizing nd with
  | nil => simp [UMap.lookupList]
  | cons e rest ih =>
    rw [List.map_cons, List.nodup_cons] at hn
    rw [List.foldl_cons, ih hn.2]
    by_cases hk : e.1 = w
    · have hnone : UMap.lookupList w rest = none := by
        rw [UMap.lookupList_eq_none, ← hk]
        exact hn.1
      subst hk
      by_cases h1 : e.2 = 1
      · simp [UMap.lookupList, hnone, h1, UMap.find_assign]
      · simp [UMap.lookupList, hnone, h1]
    · have hk2 : ¬ w = e.1 := fun h => hk h.symm
      simp only [UMap.lookupList, hk, if_false]
      by_cases h1 : e.2 = 1
      · simp only [h1, if_true, UMap.find_assign, hk2, if_false]
      · simp only [h1, if_false]

theorem find_symdiffSelect (wc : UMap Int) (wt : Dictionary) (w : Str) :
    (symdiffSelect wc wt).find w
      = if wc.find w = some 1 then some (translationsOf wt w) else none := by
  unfold symdiffSelect
  rw [find_symdiffSelect_aux wt wc.entries wc.nodupKeys]
  change (match wc.find w with
    | none => (UMap.empty : Dictionary).find w
    | some c => if c = 1 then some (translationsOf wt w) else (UMap.empty : Dictionary).find w) = _
  cases wc.find w with
  | none => simp
  | some c => by_cases h1 : c = 1 <;> simp [h1]

theorem mem_sourcesWith (dicts : DictCollection) (w : Str) (names : List Str) (name : Str) :
    name ∈ sourcesWith dicts w names ↔ name ∈ names ∧ wordExists name w dicts = true := by
  simp [sourcesWith, List.mem_filter]

/-- C3. After a successful `symdiffDicts` (target name unused, `count >= 2`, all
listed dictionaries exist) the target dictionary is stored, it contains a word
exactly when the word is a key of exactly one entry of the list of sources, and
such a word has in the target the translation set it has in that one source. -/
theorem symdiffDicts_exactly_one (inp rest1 rest2 rest3 : List Char) (fs : FileSystem)
    (dicts : DictCollection) (newDictName : Str) (count : Int) (dictNames : List Str)
    (hname : readToken inp = (some newDictName, rest1))
    (hcount : readInt rest1 = (some count, rest2))
    (hge : 2 ≤ count)
    (hnames : readNames count.toNat rest2 = (some dictNames, rest3))
    (hex : ∀ name ∈ dictNames, dicts.contains name = true)
    (hnew : dicts.contains newDictName = false) :
    ∃ target, (symdiffDicts inp fs dicts).dicts.find newDictName = some target ∧
      (∀ w, target.contains w = true ↔ (sourcesWith dicts w dictNames).length = 1) ∧
      (∀ w name, sourcesWith dicts w dictNames = [name] →
        ∃ d S, dicts.find name = some d ∧ d.find w = some S ∧ target.find w = some S) := by
  obtain ⟨res, hres, hm, hcnt⟩ :=
    symdiffLoop_spec dicts dictNames hex (UMap.empty, UMap.empty)
  obtain ⟨R, hR, -, ht⟩ := mergeLoop_spec dicts dictNames hex UMap.empty
  have hR2 : R = res.2 := by
    have h : mergeLoop dicts dictNames UMap.empty = some res.2 := hm
    rw [hR] at h
    exact Option.some.inj h
  subst hR2
  have hlt : ¬ count < 2 := not_lt.mpr hge
  have hone : ∀ w, res.1.find w = some 1 ↔ (sourcesWith dicts w dictNames).length = 1 := by
    intro w
    have h := hcnt w
    simp only [UMap.find_empty, Option.getD_none, zero_add] at h
    constructor
    · intro h1
      rw [h1] at h
      simp only [Option.getD_some] at h
      exact_mod_cast h.symm
    · intro h1
      rw [h1] at h
      cases hf : res.1.find w with
      | none =>
        rw [hf] at h
        simp at h
      | some c =>
        rw [hf] at h
        simp only [Option.getD_some] at h
        rw [h]
        rfl
  refine ⟨symdiffSelect res.1 res.2, ?_, ?_, ?_⟩
  · simp [symdiffDicts, hname, hcount, hlt, hnames, not_exists_missing hex, dictExists, hnew,
      symdiffResult, hres, UMap.find_assign]
  · intro w
    rw [← hone w]
    simp only [UMap.contains, find_symdiffSelect]
    by_cases h1 : res.1.find w = some 1 <;> simp [h1]
  · intro w name hsrc
    have hmem : name ∈ sourcesWith dicts w dictNames := by
      rw [hsrc]
      exact List.mem_singleton_self _
    rw [mem_sourcesWith] at hmem
    obtain ⟨d, hd⟩ := (UMap.contains_iff dicts name).mp (hex name hmem.1)
    have hdw : d.contains w = true := by
      rw [← wordExists_eq dicts name w d hd]
      exact hmem.2
    obtain ⟨S, hS⟩ := (UMap.contains_iff d w).mp hdw
    refine ⟨d, S, hd, hS, ?_⟩
    have hlen : (sourcesWith dicts w dictNames).length = 1 := by rw [hsrc]; rfl
    rw [find_symdiffSelect, if_pos ((hone w).mpr hlen)]
    congr 1
    ext t
    rw [ht w t]
    simp only [translationsOf, UMap.find_empty, Finset.not_mem_empty, false_or]
    constructor
    · rintro ⟨n, hn, d2, S2, hd2, hS2, htS⟩
      have hn2 : n ∈ sourcesWith dicts w dictNames := by
        rw [mem_sourcesWith]
        refine ⟨hn, ?_⟩
        rw [wordExists_eq dicts n w d2 hd2]
        exact (UMap.contains_iff d2 w).mpr ⟨S2, hS2⟩
      rw [hsrc, List.mem_singleton] at hn2
      subst hn2
      rw [hd] at hd2
      cases hd2
      rw [hS] at hS2
      cases hS2
      exact htS
    · intro htS
      exact ⟨name, hmem.1, d, S, hd, hS, htS⟩

/-- C3, concrete check: `symdiff m 2 a b` on the sample collection. -/
theorem symdiffDicts_exactly_one_witness :
    ∃ target, (symdiffDicts " m 2 a b\n".toList emptyFs sampleDicts).dicts.find "m".toList
        = some target ∧
      (∀ w, target.contains w = true ↔
        (sourcesWith sampleDicts w ["a".toList, "b".toList]).length = 1) ∧
      (∀ w name, sourcesWith sampleDicts w ["a".toList, "b".toList] = [name] →
        ∃ d S, sampleDicts.find name = some d ∧ d.find w = some S ∧ target.find w = some S) :=
  symdiffDicts_exactly_one " m 2 a b\n".toList " 2 a b\n".toList " a b\n".toList "\n".toList
    emptyFs sampleDicts "m".toList 2 ["a".toList, "b".toList] (by decide) (by decide)
    (by decide) (by decide) (by decide) (by decide)

/-! ## Common translations -/

theorem readNames_length (n : Nat) (inp rest : List Char) (l : List Str)
    (h : readNames n inp = (some l, rest)) : l.length = n := by
  induction n generalizing inp l rest with
  | zero =>
    simp only [readNames, Prod.mk.injEq, Option.some.injEq] at h
    rw [← h.1]
    rfl
  | succ n ih =>
    rcases ht : readToken inp with ⟨_ | t, r1⟩
    · simp [readNames, ht] at h
    · rcases hr : readNames n r1 with ⟨_ | ts, r2⟩
      · simp [readNames, ht, hr] at h
      · simp only [readNames, ht, hr, Prod.mk.injEq, Option.some.injEq] at h
        rw [← h.1, List.length_cons, ih r1 r2 ts hr]

theorem commonLoop_spec (dict : Dictionary) (ws : List Str)
    (hkeys : ∀ w ∈ ws, dict.contains w = true) (acc : TransSet) :
    ∃ R, commonLoop dict ws acc = some R ∧
      ∀ t, t ∈ R ↔ t ∈ acc ∧ ∀ w ∈ ws, ∃ S, dict.find w = some S ∧ t ∈ S := by
  induction ws generalizing acc with
  | nil => exact ⟨acc, rfl, by simp⟩
  | cons w ws ih =>
    obtain ⟨S, hS⟩ := (UMap.contains_iff dict w).mp (hkeys w (List.mem_cons_self _ _))
    obtain ⟨R, hR, hmem⟩ := ih (fun x hx => hkeys x (List.mem_cons_of_mem _ hx)) (acc ∩ S)
    refine ⟨R, by simp [commonLoop, hS, hR], ?_⟩
    intro t
    rw [hmem t, Finset.mem_inter]
    constructor
    · rintro ⟨⟨h1, h2⟩, h3⟩
      refine ⟨h1, ?_⟩
      intro x hx
      rcases List.mem_cons.mp hx with h | h
      · subst h
        exact ⟨S, hS, h2⟩
      · exact h3 x h
    · rintro ⟨h1, h2⟩
      obtain ⟨S2, hS2, ht⟩ := h2 w (List.mem_cons_self _ _)
      rw [hS] at hS2
      cases hS2
      exact ⟨⟨h1, ht⟩, fun x hx => h2 x (List.mem_cons_of_mem _ hx)⟩

theorem commonTranslations_spec (dict : Dictionary) (words : List Str) (hne : words ≠ [])
    (hkeys : ∀ w ∈ words, dict.contains w = true) :
    ∃ R, commonTranslations dict words = some R ∧
      ∀ t, t ∈ R ↔ ∀ w ∈ words, ∃ S, dict.find w = some S ∧ t ∈ S := by
  cases words with
  | nil => exact absurd rfl hne
  | cons w ws =>
    obtain ⟨S, hS⟩ := (UMap.contains_iff dict w).mp (hkeys w (List.mem_cons_self _ _))
    obtain ⟨R, hR, hmem⟩ :=
      commonLoop_spec dict ws (fun x hx => hkeys x (List.mem_cons_of_mem _ hx)) S
    refine ⟨R, by simp [commonTranslations, hS, hR], ?_⟩
    intro t
    rw [hmem t]
    constructor
    · rintro ⟨h1, h2⟩ x hx
      rcases List.mem_cons.mp hx with h | h
      · subst h
        exact ⟨S, hS, h1⟩
      · exact h2 x h
    · intro h
      obtain ⟨S2, hS2, ht⟩ := h w (List.mem_cons_self _ _)
      rw [hS] at hS2
      cases hS2
      exact ⟨ht, fun x hx => h x (List.mem_cons_of_mem _ hx)⟩

theorem printWords_ends_with_space (l : List Str) (hne : l ≠ []) :
    ∃ xs, printWords l = xs ++ [' '] := by
  induction l with
  | nil => exact absurd rfl hne
  | cons w ws ih =>
    cases ws with
    | nil => exact ⟨w, rfl⟩
    | cons w2 ws2 =>
      obtain ⟨xs, hxs⟩ := ih (List.cons_ne_nil _ _)
      refine ⟨w ++ ' ' :: xs, ?_⟩
      rw [printWords, hxs]
      simp

theorem printWords_line_ne_empty_marker (l : List Str) (hne : l ≠ []) :
    printWords l ++ ['\n'] ≠ "<EMPTY>\n".toList := by
  obtain ⟨xs, hxs⟩ := printWords_ends_with_space l hne
  rw [hxs]
  intro h
  have h2 : xs ++ [' ', '\n'] = "<EMPTY".toList ++ ['>', '\n'] := by
    have e : "<EMPTY>\n".toList = "<EMPTY".toList ++ ['>', '\n'] := by decide
    rw [← e, ← h]
    simp
  have h3 := (List.append_inj' h2 rfl).2
  simp at h3

theorem setElems_ne_nil (s : TransSet) (hne : s ≠ ∅) : setElems s ≠ [] := by
  intro h
  apply hne
  apply Finset.eq_empty_of_forall_not_mem
  intro t ht
  have h2 : t ∈ setElems s := (Finset.mem_sort _).mpr ht
  rw [h] at h2
  simp at h2

/-- C4. When `findCommon` gets an existing dictionary and `count >= 1` words
that are all keys of it, the set it prints is the intersection of the
translation sets of all listed words: it writes `<EMPTY>` when that set is
empty and otherwise its elements in ascending order, each followed by a space,
and a newline.  The output is the `<EMPTY>` line exactly when the intersection
is empty, a single word gives that word's translation set, and any reordering
of the words gives the same set. -/
theorem findCommon_intersection (inp rest1 rest2 rest3 : List Char) (fs : FileSystem)
    (dicts : DictCollection) (dictName : Str) (count : Int) (words : List Str)
    (dict : Dictionary)
    (hname : readToken inp = (some dictName, rest1))
    (hcount : readInt rest1 = (some count, rest2))
    (hge : 1 ≤ count)
    (hdict : dicts.find dictName = some dict)
    (hwords : readNames count.toNat rest2 = (some words, rest3))
    (hkeys : ∀ w ∈ words, dict.contains w = true) :
    ∃ common : TransSet,
      (∀ t, t ∈ common ↔ ∀ w ∈ words, ∃ S, dict.find w = some S ∧ t ∈ S) ∧
      (findCommon inp fs dicts).out
        = (if common = ∅ then "<EMPTY>\n".toList else printWords (setElems common) ++ ['\n']) ∧
      ((findCommon inp fs dicts).out = "<EMPTY>\n".toList ↔ common = ∅) ∧
      (∀ w S, words = [w] → dict.find w = some S → common = S) ∧
      (∀ words2, words2.Perm words → commonTranslations dict words2 = some common) := by
  have hlen := readNames_length _ _ _ _ hwords
  have hne : words ≠ [] := by
    intro h
    rw [h] at hlen
    have h1 : count.toNat = 0 := hlen.symm
    omega
  obtain ⟨R, hR, hmem⟩ := commonTranslations_spec dict words hne hkeys
  have hlt : ¬ count < 1 := not_lt.mpr hge
  have hdc : dicts.contains dictName = true := (UMap.contains_iff _ _).mpr ⟨dict, hdict⟩
  have hout : (findCommon inp fs dicts).out
      = (if R = ∅ then "<EMPTY>\n".toList else printWords (setElems R) ++ ['\n']) := by
    simp only [findCommon, hname, hcount, hlt, if_false, dictExists, hdc, Bool.not_true,
      Bool.false_eq_true, hwords, hdict, hR]
    have hall : words.all (fun w => dict.contains w) = true := by
      rw [List.all_eq_true]
      exact hkeys
    rw [hall]
    by_cases he : R = ∅ <;> simp [he]
  refine ⟨R, hmem, hout, ?_, ?_, ?_⟩
  · rw [hout]
    by_cases he : R = ∅
    · simp [he]
    · rw [if_neg he]
      constructor
      · intro h
        exact absurd h (printWords_line_ne_empty_marker _ (setElems_ne_nil R he))
      · intro h
        exact absurd h he
  · intro w S hw hS
    subst hw
    ext t
    rw [hmem t]
    constructor
    · intro h
      obtain ⟨S2, hS2, ht⟩ := h w (List.mem_singleton_self _)
      rw [hS] at hS2
      cases hS2
      exact ht
    · intro ht x hx
      rw [List.mem_singleton] at hx
      subst hx
      exact ⟨S, hS, ht⟩
  · intro words2 hperm
    have hne2 : words2 ≠ [] := by
      intro h
      rw [h] at hperm
      exact hne (List.Perm.nil_eq hperm).symm
    obtain ⟨R2, hR2, hmem2⟩ := commonTranslations_spec dict words2 hne2
      (fun w hw => hkeys w (hperm.mem_iff.mp hw))
    rw [hR2]
    congr 1
    ext t
    rw [hmem t, hmem2 t]
    constructor
    · intro h w hw
      exact h w (hperm.mem_iff.mpr hw)
    · intro h w hw
      exact h w (hperm.mem_iff.mp hw)

/-- C4, concrete check: `findcommon d 3 a b c` on a dictionary whose three
words share the translation `y`. -/
theorem findCommon_intersection_witness :
    ∃ common : TransSet,
      (∀ t, t ∈ common ↔
        ∀ w ∈ ["a".toList, "b".toList, "c".toList], ∃ S, sampleC.find w = some S ∧ t ∈ S) ∧
      (findCommon " d 3 a b c\n".toList emptyFs sampleDicts2).out
        = (if common = ∅ then "<EMPTY>\n".toList else printWords (setElems common) ++ ['\n']) ∧
      ((findCommon " d 3 a b c\n".toList emptyFs sampleDicts2).out = "<EMPTY>\n".toList
        ↔ common = ∅) ∧
      (∀ w S, ["a".toList, "b".toList, "c".toList] = [w] → sampleC.find w = some S →
        common = S) ∧
      (∀ words2, words2.Perm ["a".toList, "b".toList, "c".toList] →
        commonTranslations sampleC words2 = some common) :=
  findCommon_intersection " d 3 a b c\n".toList " 3 a b c\n".toList " a b c\n".toList
    "\n".toList emptyFs sampleDicts2 "d".toList 3 ["a".toList, "b".toList, "c".toList] sampleC
    (by decide) (by decide) (by decide) (by decide) (by decide) (by decide)

/-! ## The invariant of non-empty translation sets -/

theorem setsNonEmpty_iff (d : Dictionary) :
    setsNonEmpty d ↔ ∀ w S, d.find w = some S → S ≠ ∅ := by
  constructor
  · intro h w S hS
    exact h (w, S) ((UMap.mem_entries d w S).mpr hS)
  · intro h e he
    exact h e.1 e.2 ((UMap.mem_entries d e.1 e.2).mp he)

theorem nonEmptySets_iff (dicts : DictCollection) :
    nonEmptySets dicts ↔ ∀ name d, dicts.find name = some d → setsNonEmpty d := by
  constructor
  · intro h name d hd
    exact h (name, d) ((UMap.mem_entries dicts name d).mpr hd)
  · intro h e he
    exact h e.1 e.2 ((UMap.mem_entries dicts e.1 e.2).mp he)

theorem setsNonEmpty_empty : setsNonEmpty UMap.empty := by
  intro e he
  simp [UMap.empty] at he

theorem setsNonEmpty_assign {d : Dictionary} (h : setsNonEmpty d) (w : Str) {S : TransSet}
    (hS : S ≠ ∅) : setsNonEmpty (d.assign w S) := by
  rw [setsNonEmpty_iff] at h ⊢
  intro w2 S2 h2
  rw [UMap.find_assign] at h2
  by_cases hw : w2 = w
  · rw [if_pos hw] at h2
    cases h2
    exact hS
  · rw [if_neg hw] at h2
    exact h w2 S2 h2

theorem setsNonEmpty_erase {d : Dictionary} (h : setsNonEmpty d) (w : Str) :
    setsNonEmpty (d.erase w) := by
  rw [setsNonEmpty_iff] at h ⊢
  intro w2 S2 h2
  rw [UMap.find_erase] at h2
  by_cases hw : w2 = w
  · rw [if_pos hw] at h2
    cases h2
  · rw [if_neg hw] at h2
    exact h w2 S2 h2

theorem setsNonEmpty_modify {d : Dictionary} (h : setsNonEmpty d) (w : Str)
    (f : TransSet → TransSet) (hf : ∀ S, d.find w = some S → f S ≠ ∅) :
    setsNonEmpty (d.modify w f) := by
  rw [setsNonEmpty_iff] at h ⊢
  intro w2 S2 h2
  rw [UMap.find_modify] at h2
  by_cases hw : w2 = w
  · subst hw
    rw [if_pos rfl] at h2
    cases hS : d.find w2 with
    | none =>
      rw [hS] at h2
      cases h2
    | some S =>
      rw [hS] at h2
      simp only [Option.map_some', Option.some.injEq] at h2
      rw [← h2]
      exact hf S hS
  · rw [if_neg hw] at h2
    exact h w2 S2 h2

theorem nonEmptySets_assign {dicts : DictCollection} (h : nonEmptySets dicts) (name : Str)
    {d : Dictionary} (hd : setsNonEmpty d) : nonEmptySets (dicts.assign name d) := by
  rw [nonEmptySets_iff] at h ⊢
  intro n2 d2 h2
  rw [UMap.find_assign] at h2
  by_cases hn : n2 = name
  · rw [if_pos hn] at h2
    cases h2
    exact hd
  · rw [if_neg hn] at h2
    exact h n2 d2 h2

theorem nonEmptySets_erase {dicts : DictCollection} (h : nonEmptySets dicts) (name : Str) :
    nonEmptySets (dicts.erase name) := by
  rw [nonEmptySets_iff] at h ⊢
  intro n2 d2 h2
  rw [UMap.find_erase] at h2
  by_cases hn : n2 = name
  · rw [if_pos hn] at h2
    cases h2
  · rw [if_neg hn] at h2
    exact h n2 d2 h2

theorem nonEmptySets_modify {dicts : DictCollection} (h : nonEmptySets dicts) (name : Str)
    (f : Dictionary → Dictionary)
    (hf : ∀ d, dicts.find name = some d → setsNonEmpty d → setsNonEmpty (f d)) :
    nonEmptySets (dicts.modify name f) := by
  rw [nonEmptySets_iff] at h ⊢
  intro n2 d2 h2
  rw [UMap.find_modify] at h2
  by_cases hn : n2 = name
  · subst hn
    rw [if_pos rfl] at h2
    cases hd : dicts.find n2 with
    | none =>
      rw [hd] at h2
      cases h2
    | some d =>
      rw [hd] at h2
      simp only [Option.map_some', Option.some.injEq] at h2
      rw [← h2]
      exact hf d hd (h n2 d hd)
  · rw [if_neg hn] at h2
    exact h n2 d2 h2

theorem setsNonEmpty_insertRange {d : Dictionary} (h : setsNonEmpty d) (w : Str)
    {T : TransSet} (hT : T ≠ ∅) : setsNonEmpty (insertRange d w T) := by
  rw [setsNonEmpty_iff] at h ⊢
  intro w2 S2 h2
  rw [find_insertRange] at h2
  by_cases hw : w2 = w
  · rw [if_pos hw] at h2
    cases h2
    intro he
    apply hT
    exact (Finset.union_eq_empty.mp he).2
  · rw [if_neg hw] at h2
    exact h w2 S2 h2

theorem setsNonEmpty_foldl_insertRange (l : List (Str × TransSet)) (hl : ∀ e ∈ l, e.2 ≠ ∅)
    (nd : Dictionary) (h : setsNonEmpty nd) :
    setsNonEmpty (l.foldl (fun nd wordPair => insertRange nd wordPair.1 wordPair.2) nd) := by
  induction l generalizing nd with
  | nil => exact h
  | cons e rest ih =>
    rw [List.foldl_cons]
    exact ih (fun x hx => hl x (List.mem_cons_of_mem _ hx)) _
      (setsNonEmpty_insertRange h e.1 (hl e (List.mem_cons_self _ _)))

theorem setsNonEmpty_mergeLoop (dicts : DictCollection) (hinv : nonEmptySets dicts)
    (names : List Str) (nd R : Dictionary) (h : setsNonEmpty nd)
    (hR : mergeLoop dicts names nd = some R) : setsNonEmpty R := by
  induction names generalizing nd with
  | nil =>
    simp only [mergeLoop, Option.some.injEq] at hR
    rw [← hR]
    exact h
  | cons name names ih =>
    cases hd : dicts.find name with
    | none => simp [mergeLoop, hd] at hR
    | some src =>
      simp only [mergeLoop, hd] at hR
      have hsrc : setsNonEmpty src := (nonEmptySets_iff dicts).mp hinv name src hd
      exact ih _ (setsNonEmpty_foldl_insertRange src.entries hsrc nd h) hR

theorem setsNonEmpty_subtractLoop (dicts : DictCollection) (others : List Str)
    (l : List (Str × TransSet)) (hl : ∀ e ∈ l, e.2 ≠ ∅) (nd R : Dictionary)
    (h : setsNonEmpty nd) (hR : subtractLoop dicts others l nd = some R) : setsNonEmpty R := by
  induction l generalizing nd with
  | nil =>
    simp only [subtractLoop, Option.some.injEq] at hR
    rw [← hR]
    exact h
  | cons e rest ih =>
    have hrest : ∀ x ∈ rest, x.2 ≠ ∅ := fun x hx => hl x (List.mem_cons_of_mem _ hx)
    cases hf : foundInOthers dicts e.1 others with
    | none => simp [subtractLoop, hf] at hR
    | some b =>
      cases b with
      | true =>
        simp only [subtractLoop, hf] at hR
        exact ih hrest nd h hR
      | false =>
        simp only [subtractLoop, hf] at hR
        exact ih hrest _ (setsNonEmpty_assign h e.1 (hl e (List.mem_cons_self _ _))) hR

theorem symdiffSource_inv (l : List (Str × TransSet)) (hl : ∀ e ∈ l, e.2 ≠ ∅)
    (acc : UMap Int × Dictionary)
    (h : setsNonEmpty acc.2 ∧ ∀ w, acc.1.contains w = true → acc.2.contains w = true) :
    setsNonEmpty (l.foldl (fun a wordPair =>
        (countWord a.1 wordPair.1, insertRange a.2 wordPair.1 wordPair.2)) acc).2 ∧
      ∀ w, (l.foldl (fun a wordPair =>
        (countWord a.1 wordPair.1, insertRange a.2 wordPair.1 wordPair.2)) acc).1.contains w = true →
        (l.foldl (fun a wordPair =>
        (countWord a.1 wordPair.1, insertRange a.2 wordPair.1 wordPair.2)) acc).2.contains w
          = true := by
  induction l generalizing acc with
  | nil => exact h
  | cons e rest ih =>
    rw [List.foldl_cons]
    apply ih (fun x hx => hl x (List.mem_cons_of_mem _ hx))
    refine ⟨setsNonEmpty_insertRange h.1 e.1 (hl e (List.mem_cons_self _ _)), ?_⟩
    intro w hw
    simp only [UMap.contains, find_countWord, find_insertRange] at hw ⊢
    by_cases hwe : w = e.1
    · rw [if_pos hwe]
      rfl
    · rw [if_neg hwe] at hw ⊢
      exact h.2 w hw

theorem symdiffLoop_inv (dicts : DictCollection) (hinv : nonEmptySets dicts)
    (names : List Str) (acc res : UMap Int × Dictionary)
    (h : setsNonEmpty acc.2 ∧ ∀ w, acc.1.contains w = true → acc.2.contains w = true)
    (hres : symdiffLoop dicts names acc = some res) :
    setsNonEmpty res.2 ∧ ∀ w, res.1.contains w = true → res.2.contains w = true := by
  induction names generalizing acc with
  | nil =>
    simp only [symdiffLoop, Option.some.injEq] at hres
    rw [← hres]
    exact h
  | cons name names ih =>
    cases hd : dicts.find name with
    | none => simp [symdiffLoop, hd] at hres
    | some d =>
      simp only [symdiffLoop, hd] at hres
      have hsrc : setsNonEmpty d := (nonEmptySets_iff dicts).mp hinv name d hd
      exact ih _ (symdiffSource_inv d.entries hsrc acc h) hres

theorem setsNonEmpty_symdiffSelect (wc : UMap Int) (wt : Dictionary)
    (h : setsNonEmpty wt ∧ ∀ w, wc.contains w = true → wt.contains w = true) :
    setsNonEmpty (symdiffSelect wc wt) := by
  rw [setsNonEmpty_iff]
  intro w S hS
  rw [find_symdiffSelect] at hS
  by_cases h1 : wc.find w = some 1
  · rw [if_pos h1] at hS
    have hc : wc.contains w = true := (UMap.contains_iff wc w).mpr ⟨1, h1⟩
    obtain ⟨S2, hS2⟩ := (UMap.contains_iff wt w).mp (h.2 w hc)
    rw [translationsOf_of_find hS2] at hS
    rw [← Option.some.inj hS]
    exact (setsNonEmpty_iff wt).mp h.1 w S2 hS2
  · rw [if_neg h1] at hS
    cases hS

theorem setsNonEmpty_readLine (d : Dictionary) (line : List Char) (h : setsNonEmpty d) :
    setsNonEmpty (readLine d line) := by
  unfold readLine
  split
  · exact h
  · split
    · exact h
    · simp only
      split
      · rename_i hne
        exact setsNonEmpty_assign h _ hne
      · exact h

theorem setsNonEmpty_foldl_readLine (lines : List (List Char)) (d : Dictionary)
    (h : setsNonEmpty d) : setsNonEmpty (lines.foldl readLine d) := by
  induction lines generalizing d with
  | nil => exact h
  | cons l ls ih => exact ih _ (setsNonEmpty_readLine d l h)

theorem setsNonEmpty_readDictionary (text : List Char) : setsNonEmpty (readDictionary text) :=
  setsNonEmpty_foldl_readLine _ _ setsNonEmpty_empty

theorem createDict_inv (inp : List Char) (fs : FileSystem) (dicts : DictCollection)
    (h : nonEmptySets dicts) : nonEmptySets (createDict inp fs dicts).dicts := by
  unfold createDict
  repeat' split
  all_goals first
    | exact h
    | exact nonEmptySets_assign h _ setsNonEmpty_empty

theorem deleteDict_inv (inp : List Char) (fs : FileSystem) (dicts : DictCollection)
    (h : nonEmptySets dicts) : nonEmptySets (deleteDict inp fs dicts).dicts := by
  unfold deleteDict
  repeat' split
  all_goals first
    | exact h
    | exact nonEmptySets_erase h _

theorem listDicts_inv (inp : List Char) (fs : FileSystem) (dicts : DictCollection)
    (h : nonEmptySets dicts) : nonEmptySets (listDicts inp fs dicts).dicts := by
  unfold listDicts
  repeat' split
  all_goals exact h

theorem addWord_inv (inp : List Char) (fs : FileSystem) (dicts : DictCollection)
    (h : nonEmptySets dicts) : nonEmptySets (addWord inp fs dicts).dicts := by
  unfold addWord
  repeat' split
  all_goals first
    | exact h
    | skip
  dsimp only
  split
  · exact h
  · rename_i hne
    exact nonEmptySets_modify h _ _ (fun d _ hd => setsNonEmpty_assign hd _ hne)

theorem addTranslation_inv (inp : List Char) (fs : FileSystem) (dicts : DictCollection)
    (h : nonEmptySets dicts) : nonEmptySets (addTranslation inp fs dicts).dicts := by
  unfold addTranslation
  repeat' split
  all_goals first
    | exact h
    | exact nonEmptySets_modify h _ _ (fun d _ hd =>
        setsNonEmpty_modify hd _ _ (fun S _ => Finset.insert_ne_empty _ _))

theorem removeTranslation_inv (inp : List Char) (fs : FileSystem) (dicts : DictCollection)
    (h : nonEmptySets dicts) : nonEmptySets (removeTranslation inp fs dicts).dicts := by
  unfold removeTranslation
  repeat' split
  all_goals first
    | exact h
    | exact nonEmptySets_modify h _ _ (fun d _ hd => setsNonEmpty_erase hd _)
    | skip
  rename_i hd _ _ hw _ hne
  apply nonEmptySets_modify h
  intro d hd2 hdok
  rw [hd] at hd2
  cases hd2
  apply setsNonEmpty_modify hdok
  intro S hS
  rw [hw] at hS
  cases hS
  exact hne

theorem deleteWord_inv (inp : List Char) (fs : FileSystem) (dicts : DictCollection)
    (h : nonEmptySets dicts) : nonEmptySets (deleteWord inp fs dicts).dicts := by
  unfold deleteWord
  repeat' split
  all_goals first
    | exact h
    | exact nonEmptySets_modify h _ _ (fun d _ hd => setsNonEmpty_erase hd _)

theorem findTranslations_inv (inp : List Char) (fs : FileSystem) (dicts : DictCollection)
    (h : nonEmptySets dicts) : nonEmptySets (findTranslations inp fs dicts).dicts := by
  unfold findTranslations
  repeat' split
  all_goals exact h

theorem listWords_inv (inp : List Char) (fs : FileSystem) (dicts : DictCollection)
    (h : nonEmptySets dicts) : nonEmptySets (listWords inp fs dicts).dicts := by
  unfold listWords
  repeat' split
  all_goals exact h

theorem mergeDicts_inv (inp : List Char) (fs : FileSystem) (dicts : DictCollection)
    (h : nonEmptySets dicts) : nonEmptySets (mergeDicts inp fs dicts).dicts := by
  unfold mergeDicts
  repeat' split
  all_goals first
    | exact h
    | skip
  rename_i hR
  exact nonEmptySets_assign h _ (setsNonEmpty_mergeLoop dicts h _ _ _ setsNonEmpty_empty hR)

theorem findCommon_inv (inp : List Char) (fs : FileSystem) (dicts : DictCollection)
    (h : nonEmptySets dicts) : nonEmptySets (findCommon inp fs dicts).dicts := by
  unfold findCommon
  repeat' split
  all_goals exact h

theorem saveDict_inv (inp : List Char) (fs : FileSystem) (dicts : DictCollection)
    (h : nonEmptySets dicts) : nonEmptySets (saveDict inp fs dicts).dicts := by
  unfold saveDict
  repeat' split
  all_goals exact h

theorem loadDict_inv (inp : List Char) (fs : FileSystem) (dicts : DictCollection)
    (h : nonEmptySets dicts) : nonEmptySets (loadDict inp fs dicts).dicts := by
  unfold loadDict
  repeat' split
  all_goals first
    | exact h
    | exact nonEmptySets_assign h _ (setsNonEmpty_readDictionary _)

theorem statDict_inv (q : Nat → Nat → List Char) (inp : List Char) (fs : FileSystem)
    (dicts : DictCollection)
    (h : nonEmptySets dicts) : nonEmptySets (statDict q inp fs dicts).dicts := by
  unfold statDict
  repeat' split
  all_goals exact h

theorem subtractDicts_inv (inp : List Char) (fs : FileSystem) (dicts : DictCollection)
    (h : nonEmptySets dicts) : nonEmptySets (subtractDicts inp fs dicts).dicts := by
  unfold subtractDicts
  repeat' split
  all_goals first
    | exact h
    | skip
  rename_i names _ _ _ _ newDict hR
  apply nonEmptySets_assign h
  unfold subtractResult at hR
  split at hR
  · cases hR
  · split at hR
    · cases hR
    · rename_i firstDict hfd
      exact setsNonEmpty_subtractLoop dicts _ _
        ((nonEmptySets_iff dicts).mp h _ _ hfd) _ _ setsNonEmpty_empty hR

theorem symdiffDicts_inv (inp : List Char) (fs : FileSystem) (dicts : DictCollection)
    (h : nonEmptySets dicts) : nonEmptySets (symdiffDicts inp fs dicts).dicts := by
  unfold symdiffDicts
  repeat' split
  all_goals first
    | exact h
    | skip
  rename_i hR
  apply nonEmptySets_assign h
  unfold symdiffResult at hR
  split at hR
  · cases hR
  · rename_i acc hacc
    simp only [Option.some.injEq] at hR
    rw [← hR]
    apply setsNonEmpty_symdiffSelect
    exact symdiffLoop_inv dicts h _ _ _ ⟨setsNonEmpty_empty, fun w hw => by cases hw⟩ hacc

theorem loadFile_inv (filename : Str) (fs : FileSystem) (dicts dicts2 : DictCollection)
    (h : nonEmptySets dicts) (h2 : loadFile filename fs dicts = some dicts2) :
    nonEmptySets dicts2 := by
  unfold loadFile at h2
  split at h2
  · cases h2
  · split at h2
    · simp only [Option.some.injEq] at h2
      rw [← h2]
      exact nonEmptySets_assign h _ (setsNonEmpty_readDictionary _)
    · simp only [Option.some.injEq] at h2
      rw [← h2]
      exact h

/-- C5. If every word of every dictionary of the collection has a non-empty
translation set, the same holds for the collection left by any of the sixteen
handlers, for every input and every file system, and for the collection left by
`loadFile` when it returns. -/
theorem nonEmptySets_preserved (showQuotient : Nat → Nat → List Char) (fs : FileSystem)
    (dicts : DictCollection) (h : nonEmptySets dicts) :
    (∀ (c : Command) (inp : List Char),
      nonEmptySets (c.handler showQuotient inp fs dicts).dicts) ∧
    (∀ filename dicts2, loadFile filename fs dicts = some dicts2 → nonEmptySets dicts2) := by
  constructor
  · intro c inp
    cases c
    · exact createDict_inv inp fs dicts h
    · exact deleteDict_inv inp fs dicts h
    · exact listDicts_inv inp fs dicts h
    · exact addWord_inv inp fs dicts h
    · exact addTranslation_inv inp fs dicts h
    · exact removeTranslation_inv inp fs dicts h
    · exact deleteWord_inv inp fs dicts h
    · exact findTranslations_inv inp fs dicts h
    · exact listWords_inv inp fs dicts h
    · exact mergeDicts_inv inp fs dicts h
    · exact findCommon_inv inp fs dicts h
    · exact saveDict_inv inp fs dicts h
    · exact loadDict_inv inp fs dicts h
    · exact statDict_inv showQuotient inp fs dicts h
    · exact subtractDicts_inv inp fs dicts h
    · exact symdiffDicts_inv inp fs dicts h
  · intro filename dicts2 h2
    exact loadFile_inv filename fs dicts dicts2 h h2

/-- C5, concrete check: removing the only translation of `cat` from the sample
dictionary `a` leaves a collection that satisfies the invariant. -/
theorem nonEmptySets_preserved_witness :
    nonEmptySets sampleDicts ∧
      nonEmptySets (Command.handler (fun _ _ => []) Command.removetranslation
        " a cat kot\n".toList emptyFs sampleDicts).dicts :=
  ⟨by decide,
    (nonEmptySets_preserved (fun _ _ => []) emptyFs sampleDicts (by decide)).1
      Command.removetranslation " a cat kot\n".toList⟩

/-! ## Text codec round trip -/

/-- One call of `std::getline` on a non-empty input extracts the characters
before the first newline and discards that newline; `getlines` is the sequence
of these extractions. -/
theorem getlines_step (s : List Char) (hs : s ≠ []) :
    getlines s
      = s.takeWhile (fun c => c ≠ '\n') :: getlines (s.dropWhile (fun c => c ≠ '\n')).tail := by
  induction s with
  | nil => exact absurd rfl hs
  | cons c cs ih =>
    by_cases hc : c = '\n'
    · subst hc
      simp [getlines, List.takeWhile, List.dropWhile]
    · cases cs with
      | nil => simp [getlines, List.takeWhile, List.dropWhile, hc]
      | cons d ds =>
        rw [getlines, if_neg hc, ih (List.cons_ne_nil _ _)]
        simp [List.takeWhile, List.dropWhile, hc]

/-- One pass of the inner loop of `readDictionary`: with a space left, the piece
before it is visited and the search goes on after it; without one, the rest is
the final piece. -/
theorem spacePieces_step (s : List Char) :
    spacePieces s
      = if ' ' ∈ s then
          s.takeWhile (fun c => c ≠ ' ') :: spacePieces (s.dropWhile (fun c => c ≠ ' ')).tail
        else [s] := by
  induction s with
  | nil => simp [spacePieces]
  | cons c cs ih =>
    by_cases hc : c = ' '
    · subst hc
      simp [spacePieces, List.takeWhile, List.dropWhile]
    · have hc2 : ¬ ' ' = c := fun h => hc h.symm
      rw [spacePieces, if_neg hc, ih]
      by_cases hm : ' ' ∈ cs
      · simp [List.takeWhile, List.dropWhile, hc, hc2, hm]
      · simp [List.takeWhile, List.dropWhile, hc, hc2, hm]

theorem getlines_append_newline (line rest : List Char) (h : ∀ c ∈ line, c ≠ '\n') :
    getlines (line ++ '\n' :: rest) = line :: getlines rest := by
  induction line with
  | nil => simp [getlines]
  | cons c cs ih =>
    have hc : c ≠ '\n' := h c (List.mem_cons_self _ _)
    have ih2 := ih (fun x hx => h x (List.mem_cons_of_mem _ hx))
    rw [List.cons_append, getlines, if_neg hc, ih2]

theorem spacePieces_append_space (piece rest : List Char) (h : ∀ c ∈ piece, c ≠ ' ') :
    spacePieces (piece ++ ' ' :: rest) = piece :: spacePieces rest := by
  induction piece with
  | nil => simp [spacePieces]
  | cons c cs ih =>
    have hc : c ≠ ' ' := h c (List.mem_cons_self _ _)
    have ih2 := ih (fun x hx => h x (List.mem_cons_of_mem _ hx))
    rw [List.cons_append, spacePieces, if_neg hc, ih2]

theorem spacePieces_printWords (ts : List Str) (h : ∀ t ∈ ts, ∀ c ∈ t, c ≠ ' ') :
    spacePieces (printWords ts) = ts ++ [[]] := by
  induction ts with
  | nil => rfl
  | cons t ts ih =>
    rw [printWords, spacePieces_append_space t _ (h t (List.mem_cons_self _ _)),
      ih (fun x hx => h x (List.mem_cons_of_mem _ hx))]
    rfl

theorem mem_foldl_pieces (ps : List (List Char)) (acc : TransSet) (t : Str) :
    t ∈ ps.foldl (fun translations p => if p ≠ [] then insert p translations else translations)
        acc ↔ t ∈ acc ∨ (t ∈ ps ∧ t ≠ []) := by
  induction ps generalizing acc with
  | nil => simp
  | cons p ps ih =>
    rw [List.foldl_cons, ih]
    by_cases hp : p = []
    · subst hp
      simp only [ne_eq, not_true_eq_false, if_false, List.mem_cons]
      constructor
      · rintro (h | ⟨h1, h2⟩)
        · exact Or.inl h
        · exact Or.inr ⟨Or.inr h1, h2⟩
      · rintro (h | ⟨h1 | h1, h2⟩)
        · exact Or.inl h
        · exact absurd h1 h2
        · exact Or.inr ⟨h1, h2⟩
    · simp only [ne_eq, hp, not_false_eq_true, if_true, Finset.mem_insert, List.mem_cons]
      constructor
      · rintro ((h | h) | ⟨h1, h2⟩)
        · subst h
          exact Or.inr ⟨Or.inl rfl, hp⟩
        · exact Or.inl h
        · exact Or.inr ⟨Or.inr h1, h2⟩
      · rintro (h | ⟨h1 | h1, h2⟩)
        · exact Or.inl (Or.inr h)
        · exact Or.inl (Or.inl h1)
        · exact Or.inr ⟨h1, h2⟩

theorem parseTranslations_printWords (S : TransSet)
    (h : ∀ t ∈ S, t ≠ [] ∧ ∀ c ∈ t, c ≠ ' ') :
    parseTranslations (printWords (setElems S)) = S := by
  have hmem : ∀ t, t ∈ setElems S ↔ t ∈ S := fun t => Finset.mem_sort _
  unfold parseTranslations
  rw [spacePieces_printWords _ (fun t ht => (h t ((hmem t).mp ht)).2)]
  ext t
  rw [mem_foldl_pieces]
  simp only [Finset.not_mem_empty, false_or, List.mem_append, List.mem_singleton, hmem]
  constructor
  · rintro ⟨h1 | h1, h2⟩
    · exact h1
    · exact absurd h1 h2
  · intro ht
    exact ⟨Or.inl ht, (h t ht).1⟩

theorem takeWhile_append_stop (p : Char → Bool) (w rest : List Char) (x : Char)
    (hw : ∀ c ∈ w, p c = true) (hx : p x = false) :
    (w ++ x :: rest).takeWhile p = w ∧ (w ++ x :: rest).dropWhile p = x :: rest := by
  induction w with
  | nil => simp [List.takeWhile, List.dropWhile, hx]
  | cons c cs ih =>
    have hc : p c = true := hw c (List.mem_cons_self _ _)
    have ih2 := ih (fun y hy => hw y (List.mem_cons_of_mem _ hy))
    simp [List.takeWhile, List.dropWhile, hc, ih2.1, ih2.2]

theorem isspace_false_ne_space {c : Char} (h : isspace c = false) : c ≠ ' ' := by
  intro hc
  subst hc
  simp [isspace] at h

theorem isspace_false_ne_newline {c : Char} (h : isspace c = false) : c ≠ '\n' := by
  intro hc
  subst hc
  simp [isspace] at h

theorem printWords_no_newline (ts : List Str) (h : ∀ t ∈ ts, ∀ c ∈ t, c ≠ '\n') :
    ∀ c ∈ printWords ts, c ≠ '\n' := by
  induction ts with
  | nil => simp [printWords]
  | cons t ts ih =>
    intro c hc
    rw [printWords, List.mem_append, List.mem_cons] at hc
    rcases hc with h1 | h1 | h1
    · exact h t (List.mem_cons_self _ _) c h1
    · rw [h1]
      decide
    · exact ih (fun x hx => h x (List.mem_cons_of_mem _ hx)) c h1

theorem printWordWithTranslations_eq (e : Str × TransSet) :
    printWordWithTranslations e
      = (e.1 ++ ' ' :: printWords (setElems e.2)) ++ '\n' :: [] := by
  simp [printWordWithTranslations]

theorem entry_wf_facts {e : Str × TransSet}
    (h : tokenOK e.1 ∧ e.2 ≠ ∅ ∧ ∀ t ∈ e.2, tokenOK t) :
    (∀ c ∈ e.1, c ≠ ' ') ∧ (∀ c ∈ e.1, c ≠ '\n') ∧
      (∀ t ∈ e.2, t ≠ [] ∧ ∀ c ∈ t, c ≠ ' ') ∧ (∀ t ∈ setElems e.2, ∀ c ∈ t, c ≠ '\n') := by
  refine ⟨fun c hc => isspace_false_ne_space (h.1.2 c hc),
    fun c hc => isspace_false_ne_newline (h.1.2 c hc),
    fun t ht => ⟨(h.2.2 t ht).1, fun c hc => isspace_false_ne_space ((h.2.2 t ht).2 c hc)⟩, ?_⟩
  intro t ht c hc
  exact isspace_false_ne_newline ((h.2.2 t ((Finset.mem_sort _).mp ht)).2 c hc)

theorem readLine_printed (d : Dictionary) (e : Str × TransSet)
    (h : tokenOK e.1 ∧ e.2 ≠ ∅ ∧ ∀ t ∈ e.2, tokenOK t) :
    readLine d (e.1 ++ ' ' :: printWords (setElems e.2)) = d.assign e.1 e.2 := by
  obtain ⟨h1, -, h3, -⟩ := entry_wf_facts h
  have hsplit := takeWhile_append_stop (fun c => decide (c ≠ ' ')) e.1
    (printWords (setElems e.2)) ' ' (fun c hc => by simpa using h1 c hc) (by simp)
  unfold readLine
  have hne : e.1 ++ ' ' :: printWords (setElems e.2) ≠ [] := by simp
  have hmem : ' ' ∈ e.1 ++ ' ' :: printWords (setElems e.2) := by simp
  rw [if_neg hne, if_neg (not_not.mpr hmem)]
  simp only [hsplit.1, hsplit.2, List.tail_cons, parseTranslations_printWords _ h3]
  rw [if_pos h.2.1]

theorem getlines_printDictionary (l : List (Str × TransSet))
    (h : ∀ e ∈ l, tokenOK e.1 ∧ e.2 ≠ ∅ ∧ ∀ t ∈ e.2, tokenOK t) :
    getlines (printDictionary l) = l.map (fun e => e.1 ++ ' ' :: printWords (setElems e.2)) := by
  induction l with
  | nil => rfl
  | cons e es ih =>
    obtain ⟨-, h2, -, h4⟩ := entry_wf_facts (h e (List.mem_cons_self _ _))
    rw [printDictionary, printWordWithTranslations_eq, List.append_assoc, List.cons_append,
      List.nil_append, getlines_append_newline, ih (fun x hx => h x (List.mem_cons_of_mem _ hx))]
    · rfl
    · intro c hc
      rw [List.mem_append, List.mem_cons] at hc
      rcases hc with hc | hc | hc
      · exact h2 c hc
      · rw [hc]
        decide
      · exact printWords_no_newline _ h4 c hc

theorem foldl_readLine_printed (l : List (Str × TransSet))
    (h : ∀ e ∈ l, tokenOK e.1 ∧ e.2 ≠ ∅ ∧ ∀ t ∈ e.2, tokenOK t) (d : Dictionary) :
    (l.map (fun e => e.1 ++ ' ' :: printWords (setElems e.2))).foldl readLine d
      = l.foldl (fun d e => d.assign e.1 e.2) d := by
  induction l generalizing d with
  | nil => rfl
  | cons e es ih =>
    rw [List.map_cons, List.foldl_cons, List.foldl_cons,
      readLine_printed d e (h e (List.mem_cons_self _ _)),
      ih (fun x hx => h x (List.mem_cons_of_mem _ hx))]

theorem find_foldl_assign (l : List (Str × TransSet)) (hn : (l.map Prod.fst).Nodup)
    (d : Dictionary) (w : Str) :
    (l.foldl (fun d e => d.assign e.1 e.2) d).find w
      = match UMap.lookupList w l with
        | none => d.find w
        | some S => some S := by
  induction l generalizing d with
  | nil => rfl
  | cons e rest ih =>
    rw [List.map_cons, List.nodup_cons] at hn
    rw [List.foldl_cons, ih hn.2]
    by_cases hk : e.1 = w
    · have hnone : UMap.lookupList w rest = none := by
        rw [UMap.lookupList_eq_none, ← hk]
        exact hn.1
      simp [UMap.lookupList, hk, hnone, UMap.find_assign]
    · have hk2 : ¬ w = e.1 := fun h => hk h.symm
      simp only [UMap.lookupList, hk, if_false]
      cases UMap.lookupList w rest with
      | none => simp [UMap.find_assign, hk2]
      | some S => rfl

theorem readDictionary_printDictionary (D : Dictionary) (h : wellFormedDict D) (w : Str) :
    (readDictionary (printDictionary D.entries)).find w = D.find w := by
  unfold readDictionary
  rw [getlines_printDictionary D.entries h, foldl_readLine_printed D.entries h,
    find_foldl_assign D.entries D.nodupKeys]
  change (match D.find w with
    | none => (UMap.empty : Dictionary).find w
    | some S => some S) = _
  cases D.find w <;> rfl

theorem isEmpty_false_of_find {V : Type} (m : UMap V) (k : Str) (v : V)
    (h : m.find k = some v) : m.isEmpty = false := by
  cases hm : m.entries with
  | nil =>
    unfold UMap.find at h
    rw [hm] at h
    cases h
  | cons e es => simp [UMap.isEmpty, hm]

theorem exists_find_of_isEmpty_false {V : Type} (m : UMap V) (h : m.isEmpty = false) :
    ∃ k v, m.find k = some v := by
  cases hm : m.entries with
  | nil => simp [UMap.isEmpty, hm] at h
  | cons e es =>
    refine ⟨e.1, e.2, (UMap.mem_entries m e.1 e.2).mp ?_⟩
    rw [hm]
    exact List.mem_cons_self _ _

/-- C6 as stated fails for the empty dictionary, which satisfies the invariants
of the data model: `save a f` writes an empty file and `load n f` then reports
`file not found or invalid format` and stores nothing under `n`. -/
theorem save_load_empty_dictionary_fails :
    sampleDicts3.find "a".toList = some UMap.empty ∧
    wellFormedDict (UMap.empty : Dictionary) ∧
    sampleDicts3.contains "n".toList = false ∧
    (saveDict " a f\n".toList emptyFs sampleDicts3).out = [] ∧
    (loadDict " n f\n".toList (saveDict " a f\n".toList emptyFs sampleDicts3).fs
        (saveDict " a f\n".toList emptyFs sampleDicts3).dicts).out
      = printError "file not found or invalid format".toList ∧
    (loadDict " n f\n".toList (saveDict " a f\n".toList emptyFs sampleDicts3).fs
        (saveDict " a f\n".toList emptyFs sampleDicts3).dicts).dicts.find "n".toList = none := by
  decide

/-- C6, amended. For a non-empty dictionary `D` of the collection that satisfies
the invariants of the data model, `saveDict` to a writable file followed by
`loadDict` of that file under an unused name succeeds: neither call prints
anything, the file holds the text of `PrintWordWithTranslations` for `D`, and
the dictionary stored under the new name is `readDictionary` of that text and
maps every word to the translation set it has in `D`. -/
theorem save_load_roundtrip (inp1 rest1 rest2 inp2 rest3 rest4 : List Char)
    (fs : FileSystem) (dicts : DictCollection) (dictName filename newName : Str)
    (D : Dictionary)
    (hsave1 : readToken inp1 = (some dictName, rest1))
    (hsave2 : readToken rest1 = (some filename, rest2))
    (hload1 : readToken inp2 = (some newName, rest3))
    (hload2 : readToken rest3 = (some filename, rest4))
    (hD : dicts.find dictName = some D) (hwf : wellFormedDict D)
    (hne : D.isEmpty = false)
    (hw : fs.writable filename = true) (hnew : dicts.contains newName = false) :
    (saveDict inp1 fs dicts).out = [] ∧
    (saveDict inp1 fs dicts).dicts = dicts ∧
    (saveDict inp1 fs dicts).fs.content filename = some (printDictionary D.entries) ∧
    (loadDict inp2 (saveDict inp1 fs dicts).fs (saveDict inp1 fs dicts).dicts).out = [] ∧
    (loadDict inp2 (saveDict inp1 fs dicts).fs (saveDict inp1 fs dicts).dicts).dicts.find newName
      = some (readDictionary (printDictionary D.entries)) ∧
    ∀ w, (readDictionary (printDictionary D.entries)).find w = D.find w := by
  have hdc : dicts.contains dictName = true := (UMap.contains_iff _ _).mpr ⟨D, hD⟩
  have hsave : saveDict inp1 fs dicts
      = ⟨[], dicts, rest2, fs.write filename (printDictionary D.entries), false⟩ := by
    simp [saveDict, hsave1, hsave2, dictExists, hdc, hw, hD]
  have hrt := readDictionary_printDictionary D hwf
  obtain ⟨k, v, hkv⟩ := exists_find_of_isEmpty_false D hne
  have hne2 : (readDictionary (printDictionary D.entries)).isEmpty = false :=
    isEmpty_false_of_find _ k v (by rw [hrt k]; exact hkv)
  rw [hsave]
  refine ⟨rfl, rfl, by simp [FileSystem.write], ?_, ?_, hrt⟩
  · simp [loadDict, hload1, hload2, dictExists, hnew, FileSystem.write, hne2]
  · simp [loadDict, hload1, hload2, dictExists, hnew, FileSystem.write, hne2, UMap.find_assign]

/-- C6, concrete check: `save b f` and `load n f` on the sample collection. -/
theorem save_load_roundtrip_witness :
    (saveDict " b f\n".toList emptyFs sampleDicts).out = [] ∧
    (saveDict " b f\n".toList emptyFs sampleDicts).dicts = sampleDicts ∧
    (saveDict " b f\n".toList emptyFs sampleDicts).fs.content "f".toList
      = some (printDictionary sampleB.entries) ∧
    (loadDict " n f\n".toList (saveDict " b f\n".toList emptyFs sampleDicts).fs
      (saveDict " b f\n".toList emptyFs sampleDicts).dicts).out = [] ∧
    (loadDict " n f\n".toList (saveDict " b f\n".toList emptyFs sampleDicts).fs
      (saveDict " b f\n".toList emptyFs sampleDicts).dicts).dicts.find "n".toList
      = some (readDictionary (printDictionary sampleB.entries)) ∧
    ∀ w, (readDictionary (printDictionary sampleB.entries)).find w = sampleB.find w :=
  save_load_roundtrip " b f\n".toList " f\n".toList "\n".toList " n f\n".toList " f\n".toList
    "\n".toList emptyFs sampleDicts "b".toList "f".toList "n".toList sampleB (by decide)
    (by decide) (by decide) (by decide) (by decide) (by decide) (by decide) (by decide)
    (by decide)

/-! ## Errors and overwriting -/

theorem printError_ne_nil (msg : Str) : printError msg ≠ [] := by
  simp [printError]

theorem createDict_quiet (inp : List Char) (fs : FileSystem) (dicts : DictCollection) :
    (createDict inp fs dicts).dicts = dicts ∨ (createDict inp fs dicts).out = [] := by
  unfold createDict
  repeat' split
  all_goals first
    | exact Or.inl rfl
    | exact Or.inr rfl

theorem deleteDict_quiet (inp : List Char) (fs : FileSystem) (dicts : DictCollection) :
    (deleteDict inp fs dicts).dicts = dicts ∨ (deleteDict inp fs dicts).out = [] := by
  unfold deleteDict
  repeat' split
  all_goals first
    | exact Or.inl rfl
    | exact Or.inr rfl

theorem listDicts_quiet (inp : List Char) (fs : FileSystem) (dicts : DictCollection) :
    (listDicts inp fs dicts).dicts = dicts ∨ (listDicts inp fs dicts).out = [] := by
  unfold listDicts
  repeat' split
  all_goals exact Or.inl rfl

theorem addWord_quiet (inp : List Char) (fs : FileSystem) (dicts : DictCollection) :
    (addWord inp fs dicts).dicts = dicts ∨ (addWord inp fs dicts).out = [] := by
  unfold addWord
  repeat' split
  all_goals first
    | exact Or.inl rfl
    | exact Or.inr rfl
    | skip
  dsimp only
  split
  · exact Or.inl rfl
  · exact Or.inr rfl

theorem addTranslation_quiet (inp : List Char) (fs : FileSystem) (dicts : DictCollection) :
    (addTranslation inp fs dicts).dicts = dicts ∨ (addTranslation inp fs dicts).out = [] := by
  unfold addTranslation
  repeat' split
  all_goals first
    | exact Or.inl rfl
    | exact Or.inr rfl

theorem removeTranslation_quiet (inp : List Char) (fs : FileSystem) (dicts : DictCollection) :
    (removeTranslation inp fs dicts).dicts = dicts
      ∨ (removeTranslation inp fs dicts).out = [] := by
  unfold removeTranslation
  repeat' split
  all_goals first
    | exact Or.inl rfl
    | exact Or.inr rfl

theorem deleteWord_quiet (inp : List Char) (fs : FileSystem) (dicts : DictCollection) :
    (deleteWord inp fs dicts).dicts = dicts ∨ (deleteWord inp fs dicts).out = [] := by
  unfold deleteWord
  repeat' split
  all_goals first
    | exact Or.inl rfl
    | exact Or.inr rfl

theorem findTranslations_quiet (inp : List Char) (fs : FileSystem) (dicts : DictCollection) :
    (findTranslations inp fs dicts).dicts = dicts
      ∨ (findTranslations inp fs dicts).out = [] := by
  unfold findTranslations
  repeat' split
  all_goals exact Or.inl rfl

theorem listWords_quiet (inp : List Char) (fs : FileSystem) (dicts : DictCollection) :
    (listWords inp fs dicts).dicts = dicts ∨ (listWords inp fs dicts).out = [] := by
  unfold listWords
  repeat' split
  all_goals exact Or.inl rfl

theorem mergeDicts_quiet (inp : List Char) (fs : FileSystem) (dicts : DictCollection) :
    (mergeDicts inp fs dicts).dicts = dicts ∨ (mergeDicts inp fs dicts).out = [] := by
  unfold mergeDicts
  repeat' split
  all_goals first
    | exact Or.inl rfl
    | exact Or.inr rfl

theorem findCommon_quiet (inp : List Char) (fs : FileSystem) (dicts : DictCollection) :
    (findCommon inp fs dicts).dicts = dicts ∨ (findCommon inp fs dicts).out = [] := by
  unfold findCommon
  repeat' split
  all_goals exact Or.inl rfl

theorem saveDict_quiet (inp : List Char) (fs : FileSystem) (dicts : DictCollection) :
    (saveDict inp fs dicts).dicts = dicts ∨ (saveDict inp fs dicts).out = [] := by
  unfold saveDict
  repeat' split
  all_goals exact Or.inl rfl

theorem loadDict_quiet (inp : List Char) (fs : FileSystem) (dicts : DictCollection) :
    (loadDict inp fs dicts).dicts = dicts ∨ (loadDict inp fs dicts).out = [] := by
  unfold loadDict
  repeat' split
  all_goals first
    | exact Or.inl rfl
    | exact Or.inr rfl

theorem statDict_quiet (q : Nat → Nat → List Char) (inp : List Char) (fs : FileSystem)
    (dicts : DictCollection) :
    (statDict q inp fs dicts).dicts = dicts ∨ (statDict q inp fs dicts).out = [] := by
  unfold statDict
  repeat' split
  all_goals exact Or.inl rfl

theorem subtractDicts_quiet (inp : List Char) (fs : FileSystem) (dicts : DictCollection) :
    (subtractDicts inp fs dicts).dicts = dicts ∨ (subtractDicts inp fs dicts).out = [] := by
  unfold subtractDicts
  repeat' split
  all_goals first
    | exact Or.inl rfl
    | exact Or.inr rfl

theorem symdiffDicts_quiet (inp : List Char) (fs : FileSystem) (dicts : DictCollection) :
    (symdiffDicts inp fs dicts).dicts = dicts ∨ (symdiffDicts inp fs dicts).out = [] := by
  unfold symdiffDicts
  repeat' split
  all_goals first
    | exact Or.inl rfl
    | exact Or.inr rfl

theorem handler_quiet (q : Nat → Nat → List Char) (c : Command) (inp : List Char)
    (fs : FileSystem) (dicts : DictCollection) :
    (c.handler q inp fs dicts).dicts = dicts ∨ (c.handler q inp fs dicts).out = [] := by
  cases c
  · exact createDict_quiet inp fs dicts
  · exact deleteDict_quiet inp fs dicts
  · exact listDicts_quiet inp fs dicts
  · exact addWord_quiet inp fs dicts
  · exact addTranslation_quiet inp fs dicts
  · exact removeTranslation_quiet inp fs dicts
  · exact deleteWord_quiet inp fs dicts
  · exact findTranslations_quiet inp fs dicts
  · exact listWords_quiet inp fs dicts
  · exact mergeDicts_quiet inp fs dicts
  · exact findCommon_quiet inp fs dicts
  · exact saveDict_quiet inp fs dicts
  · exact loadDict_quiet inp fs dicts
  · exact statDict_quiet q inp fs dicts
  · exact subtractDicts_quiet inp fs dicts
  · exact symdiffDicts_quiet inp fs dicts

/-- C7. For each of the sixteen handlers, every collection, file system and
input: if the handler reports an error, that is, if what it writes is the text
of `printError` for some message, then the collection after the call is the
collection before the call. -/
theorem errors_leave_collection_unchanged (showQuotient : Nat → Nat → List Char)
    (c : Command) (inp : List Char) (fs : FileSystem) (dicts : DictCollection)
    (message : Str)
    (herr : (c.handler showQuotient inp fs dicts).out = printError message) :
    (c.handler showQuotient inp fs dicts).dicts = dicts := by
  rcases handler_quiet showQuotient c inp fs dicts with h | h
  · exact h
  · rw [h] at herr
    exact absurd herr.symm (printError_ne_nil message)

/-- C7, concrete check: `merge m 2 a x` with a missing source `x`. -/
theorem errors_leave_collection_unchanged_witness :
    (Command.handler (fun _ _ => []) Command.merge " m 2 a x\n".toList emptyFs sampleDicts).out
      = printError "dictionary not found".toList ∧
    (Command.handler (fun _ _ => []) Command.merge " m 2 a x\n".toList emptyFs
      sampleDicts).dicts = sampleDicts :=
  ⟨by decide,
    errors_leave_collection_unchanged (fun _ _ => []) Command.merge " m 2 a x\n".toList emptyFs
      sampleDicts "dictionary not found".toList (by decide)⟩

/-- C8. For `createdict`, `merge`, `subtract`, `symdiff` and `load`: when the
first argument, the target name, is already a key of the collection, the
handler reports an error and leaves the collection as it was, whatever follows
the name in the input; `createdict` reports `dictionary already exists`. -/
theorem existing_target_not_overwritten (inp rest : List Char) (fs : FileSystem)
    (dicts : DictCollection) (name : Str)
    (hname : readToken inp = (some name, rest))
    (hex : dicts.contains name = true) :
    ((createDict inp fs dicts).out = printError "dictionary already exists".toList ∧
      (createDict inp fs dicts).dicts = dicts) ∧
    (∃ message, (mergeDicts inp fs dicts).out = printError message) ∧
      (mergeDicts inp fs dicts).dicts = dicts ∧
    (∃ message, (subtractDicts inp fs dicts).out = printError message) ∧
      (subtractDicts inp fs dicts).dicts = dicts ∧
    (∃ message, (symdiffDicts inp fs dicts).out = printError message) ∧
      (symdiffDicts inp fs dicts).dicts = dicts ∧
    (∃ message, (loadDict inp fs dicts).out = printError message) ∧
      (loadDict inp fs dicts).dicts = dicts := by
  refine ⟨?_, ?_, ?_, ?_, ?_, ?_, ?_, ?_, ?_⟩
  · simp [createDict, hname, dictExists, hex, errorResult]
  · simp only [mergeDicts, hname, dictExists, hex, if_true]
    repeat' split
    all_goals exact ⟨_, rfl⟩
  · simp only [mergeDicts, hname, dictExists, hex, if_true]
    repeat' split
    all_goals rfl
  · simp only [subtractDicts, hname, dictExists, hex, if_true]
    repeat' split
    all_goals exact ⟨_, rfl⟩
  · simp only [subtractDicts, hname, dictExists, hex, if_true]
    repeat' split
    all_goals rfl
  · simp only [symdiffDicts, hname, dictExists, hex, if_true]
    repeat' split
    all_goals exact ⟨_, rfl⟩
  · simp only [symdiffDicts, hname, dictExists, hex, if_true]
    repeat' split
    all_goals rfl
  · simp only [loadDict, hname, dictExists, hex, if_true]
    repeat' split
    all_goals exact ⟨_, rfl⟩
  · simp only [loadDict, hname, dictExists, hex, if_true]
    repeat' split
    all_goals rfl

/-- C8, concrete check: `createdict a` when `a` exists. -/
theorem existing_target_not_overwritten_witness :
    (createDict " a\n".toList emptyFs sampleDicts).out
      = printError "dictionary already exists".toList ∧
    (createDict " a\n".toList emptyFs sampleDicts).dicts = sampleDicts :=
  (existing_target_not_overwritten " a\n".toList "\n".toList emptyFs sampleDicts "a".toList
    (by decide) (by decide)).1

/-! ## Reading from the input -/

theorem dropWhile_head_false (p : Char → Bool) (s : List Char) (c : Char) (cs : List Char)
    (h : s.dropWhile p = c :: cs) : p c = false := by
  induction s with
  | nil => simp at h
  | cons d ds ih =>
    cases hd : p d with
    | true =>
      simp only [List.dropWhile, hd] at h
      exact ih h
    | false =>
      simp only [List.dropWhile, hd, List.cons.injEq] at h
      rw [← h.1]
      exact hd


theorem readToken_rest_length (s rest : List Char) (t : Str)
    (h : readToken s = (some t, rest)) : rest.length < s.length := by
  unfold readToken at h
  have h1 : (s.dropWhile isspace).length ≤ s.length := (List.dropWhile_sublist _).length_le
  cases hd : s.dropWhile isspace with
  | nil =>
    rw [hd] at h
    simp at h
  | cons c cs =>
    rw [hd] at h h1
    simp only [Prod.mk.injEq] at h
    have h2 : ((c :: cs).dropWhile (fun x => !isspace x)).length ≤ cs.length := by
      have hc : isspace c = false := dropWhile_head_false isspace s c cs hd
      simp only [List.dropWhile, hc, Bool.not_false]
      exact (List.dropWhile_sublist _).length_le
    rw [← h.2]
    simp only [List.length_cons] at h1
    omega

theorem readTranslationsLoop_enough (fuel : Nat) (s : List Char) (acc : TransSet)
    (h : s.length < fuel) :
    (readTranslationsLoop fuel s acc).2 = [] ∧
      ∀ more, readTranslationsLoop (fuel + more) s acc = readTranslationsLoop fuel s acc := by
  induction fuel generalizing s acc with
  | zero => omega
  | succ n ih =>
    rcases ht : readToken s with ⟨_ | t, r1⟩
    · have hr : r1 = [] := by
        unfold readToken at ht
        cases hd : s.dropWhile isspace with
        | nil =>
          rw [hd] at ht
          simp only [Prod.mk.injEq, true_and] at ht
          exact ht.symm
        | cons c cs =>
          rw [hd] at ht
          simp at ht
      subst hr
      refine ⟨by simp [readTranslationsLoop, ht], ?_⟩
      intro more
      rw [Nat.add_right_comm]
      simp [readTranslationsLoop, ht]
    · have hlen := readToken_rest_length s r1 t ht
      obtain ⟨h1, h2⟩ := ih r1 (insert t acc) (by omega)
      refine ⟨by simp [readTranslationsLoop, ht, h1], ?_⟩
      intro more
      rw [Nat.add_right_comm]
      simp [readTranslationsLoop, ht, h2 more]

/-- The loop of `readTranslations` ends by a failed extraction, with the whole
input consumed, and more iterations would not change its result. -/
theorem readTranslations_total (s : List Char) (acc : TransSet) :
    (readTranslations s acc).2 = [] ∧
      ∀ more, readTranslationsLoop (s.length + 1 + more) s acc = readTranslations s acc :=
  readTranslationsLoop_enough (s.length + 1) s acc (Nat.lt_succ_self _)

theorem readToken_rest_le (s : List Char) : (readToken s).2.length ≤ s.length := by
  rcases h : readToken s with ⟨_ | t, r⟩
  · unfold readToken at h
    cases hd : s.dropWhile isspace with
    | nil =>
      rw [hd] at h
      simp only [Prod.mk.injEq, true_and] at h
      rw [← h]
      exact Nat.zero_le _
    | cons c cs =>
      rw [hd] at h
      simp at h
  · exact Nat.le_of_lt (readToken_rest_length s r t h)

theorem readSign_rest_le (s : List Char) : (readSign s).2.length ≤ s.length := by
  unfold readSign
  split
  · exact Nat.le_succ _
  · exact Nat.le_succ _
  · exact Nat.le_refl _

theorem readInt_rest_eq (s : List Char) :
    (readInt s).2 = (readSign (s.dropWhile isspace)).2.dropWhile Char.isDigit := by
  unfold readInt
  dsimp only
  repeat' split
  all_goals rfl

theorem readInt_rest_le (s : List Char) : (readInt s).2.length ≤ s.length := by
  rw [readInt_rest_eq]
  exact Nat.le_trans (List.dropWhile_sublist _).length_le
    (Nat.le_trans (readSign_rest_le _) (List.dropWhile_sublist _).length_le)

theorem readNames_rest_le (n : Nat) (s : List Char) : (readNames n s).2.length ≤ s.length := by
  induction n generalizing s with
  | zero => exact Nat.le_refl _
  | succ n ih =>
    have h1 := readToken_rest_le s
    rcases ht : readToken s with ⟨_ | t, r1⟩
    · rw [ht] at h1
      simp only [readNames, ht]
      exact h1
    · rw [ht] at h1
      have h2 := ih r1
      rcases hr : readNames n r1 with ⟨_ | ts, r2⟩
      · rw [hr] at h2
        simp only [readNames, ht, hr]
        exact Nat.le_trans h2 h1
      · rw [hr] at h2
        simp only [readNames, ht, hr]
        exact Nat.le_trans h2 h1

theorem readToken_pair_iff (s : List Char) (o : Option Str) (r : List Char) :
    readToken s = (o, r) ↔ (readToken s).1 = o ∧ (readToken s).2 = r ∧ r.length ≤ s.length := by
  constructor
  · intro h
    have h1 := readToken_rest_le s
    rw [h] at h1 ⊢
    exact ⟨rfl, rfl, h1⟩
  · rintro ⟨h1, h2, -⟩
    exact Prod.ext h1 h2

theorem readInt_pair_iff (s : List Char) (o : Option Int) (r : List Char) :
    readInt s = (o, r) ↔ (readInt s).1 = o ∧ (readInt s).2 = r ∧ r.length ≤ s.length := by
  constructor
  · intro h
    have h1 := readInt_rest_le s
    rw [h] at h1 ⊢
    exact ⟨rfl, rfl, h1⟩
  · rintro ⟨h1, h2, -⟩
    exact Prod.ext h1 h2

theorem readNames_pair_iff (n : Nat) (s : List Char) (o : Option (List Str)) (r : List Char) :
    readNames n s = (o, r) ↔
      (readNames n s).1 = o ∧ (readNames n s).2 = r ∧ r.length ≤ s.length := by
  constructor
  · intro h
    have h1 := readNames_rest_le n s
    rw [h] at h1 ⊢
    exact ⟨rfl, rfl, h1⟩
  · rintro ⟨h1, h2, -⟩
    exact Prod.ext h1 h2

theorem readTranslations_rest (s : List Char) (acc : TransSet) :
    (readTranslations s acc).2 = [] :=
  (readTranslations_total s acc).1

theorem createDict_rest_le (inp : List Char) (fs : FileSystem) (dicts : DictCollection) :
    (createDict inp fs dicts).rest.length ≤ inp.length := by
  unfold createDict
  repeat' split
  all_goals
    simp only [errorResult, thrownResult, readToken_pair_iff, readInt_pair_iff,
      readNames_pair_iff, readTranslations_rest, List.length_nil] at *
    omega

theorem deleteDict_rest_le (inp : List Char) (fs : FileSystem) (dicts : DictCollection) :
    (deleteDict inp fs dicts).rest.length ≤ inp.length := by
  unfold deleteDict
  repeat' split
  all_goals
    simp only [errorResult, thrownResult, readToken_pair_iff, readInt_pair_iff,
      readNames_pair_iff, readTranslations_rest, List.length_nil] at *
    omega

theorem listDicts_rest_le (inp : List Char) (fs : FileSystem) (dicts : DictCollection) :
    (listDicts inp fs dicts).rest.length ≤ inp.length := by
  unfold listDicts
  repeat' split
  all_goals
    simp only [errorResult, thrownResult, readToken_pair_iff, readInt_pair_iff,
      readNames_pair_iff, readTranslations_rest, List.length_nil] at *
    omega

theorem addWord_rest_le (inp : List Char) (fs : FileSystem) (dicts : DictCollection) :
    (addWord inp fs dicts).rest.length ≤ inp.length := by
  unfold addWord
  dsimp only
  repeat' split
  all_goals
    simp only [errorResult, thrownResult, readToken_pair_iff, readInt_pair_iff,
      readNames_pair_iff, readTranslations_rest, List.length_nil] at *
    omega

theorem addTranslation_rest_le (inp : List Char) (fs : FileSystem) (dicts : DictCollection) :
    (addTranslation inp fs dicts).rest.length ≤ inp.length := by
  unfold addTranslation
  repeat' split
  all_goals
    simp only [errorResult, thrownResult, readToken_pair_iff, readInt_pair_iff,
      readNames_pair_iff, readTranslations_rest, List.length_nil] at *
    omega

theorem removeTranslation_rest_le (inp : List Char) (fs : FileSystem) (dicts : DictCollection) :
    (removeTranslation inp fs dicts).rest.length ≤ inp.length := by
  unfold removeTranslation
  repeat' split
  all_goals
    simp only [errorResult, thrownResult, readToken_pair_iff, readInt_pair_iff,
      readNames_pair_iff, readTranslations_rest, List.length_nil] at *
    omega

theorem deleteWord_rest_le (inp : List Char) (fs : FileSystem) (dicts : DictCollection) :
    (deleteWord inp fs dicts).rest.length ≤ inp.length := by
  unfold deleteWord
  repeat' split
  all_goals
    simp only [errorResult, thrownResult, readToken_pair_iff, readInt_pair_iff,
      readNames_pair_iff, readTranslations_rest, List.length_nil] at *
    omega

theorem findTranslations_rest_le (inp : List Char) (fs : FileSystem) (dicts : DictCollection) :
    (findTranslations inp fs dicts).rest.length ≤ inp.length := by
  unfold findTranslations
  repeat' split
  all_goals
    simp only [errorResult, thrownResult, readToken_pair_iff, readInt_pair_iff,
      readNames_pair_iff, readTranslations_rest, List.length_nil] at *
    omega

theorem listWords_rest_le (inp : List Char) (fs : FileSystem) (dicts : DictCollection) :
    (listWords inp fs dicts).rest.length ≤ inp.length := by
  unfold listWords
  repeat' split
  all_goals
    simp only [errorResult, thrownResult, readToken_pair_iff, readInt_pair_iff,
      readNames_pair_iff, readTranslations_rest, List.length_nil] at *
    omega

theorem mergeDicts_rest_le (inp : List Char) (fs : FileSystem) (dicts : DictCollection) :
    (mergeDicts inp fs dicts).rest.length ≤ inp.length := by
  unfold mergeDicts
  repeat' split
  all_goals
    simp only [errorResult, thrownResult, readToken_pair_iff, readInt_pair_iff,
      readNames_pair_iff, readTranslations_rest, List.length_nil] at *
    omega

theorem findCommon_rest_le (inp : List Char) (fs : FileSystem) (dicts : DictCollection) :
    (findCommon inp fs dicts).rest.length ≤ inp.length := by
  unfold findCommon
  repeat' split
  all_goals
    simp only [errorResult, thrownResult, readToken_pair_iff, readInt_pair_iff,
      readNames_pair_iff, readTranslations_rest, List.length_nil] at *
    omega

theorem saveDict_rest_le (inp : List Char) (fs : FileSystem) (dicts : DictCollection) :
    (saveDict inp fs dicts).rest.length ≤ inp.length := by
  unfold saveDict
  repeat' split
  all_goals
    simp only [errorResult, thrownResult, readToken_pair_iff, readInt_pair_iff,
      readNames_pair_iff, readTranslations_rest, List.length_nil] at *
    omega

theorem loadDict_rest_le (inp : List Char) (fs : FileSystem) (dicts : DictCollection) :
    (loadDict inp fs dicts).rest.length ≤ inp.length := by
  unfold loadDict
  repeat' split
  all_goals
    simp only [errorResult, thrownResult, readToken_pair_iff, readInt_pair_iff,
      readNames_pair_iff, readTranslations_rest, List.length_nil] at *
    omega

theorem subtractDicts_rest_le (inp : List Char) (fs : FileSystem) (dicts : DictCollection) :
    (subtractDicts inp fs dicts).rest.length ≤ inp.length := by
  unfold subtractDicts
  repeat' split
  all_goals
    simp only [errorResult, thrownResult, readToken_pair_iff, readInt_pair_iff,
      readNames_pair_iff, readTranslations_rest, List.length_nil] at *
    omega

theorem symdiffDicts_rest_le (inp : List Char) (fs : FileSystem) (dicts : DictCollection) :
    (symdiffDicts inp fs dicts).rest.length ≤ inp.length := by
  unfold symdiffDicts
  repeat' split
  all_goals
    simp only [errorResult, thrownResult, readToken_pair_iff, readInt_pair_iff,
      readNames_pair_iff, readTranslations_rest, List.length_nil] at *
    omega

theorem statDict_rest_le (q : Nat → Nat → List Char) (inp : List Char) (fs : FileSystem)
    (dicts : DictCollection) : (statDict q inp fs dicts).rest.length ≤ inp.length := by
  unfold statDict
  repeat' split
  all_goals
    simp only [errorResult, thrownResult, readToken_pair_iff, readInt_pair_iff,
      readNames_pair_iff, readTranslations_rest, List.length_nil] at *
    omega

theorem handler_rest_le (q : Nat → Nat → List Char) (c : Command) (inp : List Char)
    (fs : FileSystem) (dicts : DictCollection) :
    (c.handler q inp fs dicts).rest.length ≤ inp.length := by
  cases c
  · exact createDict_rest_le inp fs dicts
  · exact deleteDict_rest_le inp fs dicts
  · exact listDicts_rest_le inp fs dicts
  · exact addWord_rest_le inp fs dicts
  · exact addTranslation_rest_le inp fs dicts
  · exact removeTranslation_rest_le inp fs dicts
  · exact deleteWord_rest_le inp fs dicts
  · exact findTranslations_rest_le inp fs dicts
  · exact listWords_rest_le inp fs dicts
  · exact mergeDicts_rest_le inp fs dicts
  · exact findCommon_rest_le inp fs dicts
  · exact saveDict_rest_le inp fs dicts
  · exact loadDict_rest_le inp fs dicts
  · exact statDict_rest_le q inp fs dicts
  · exact subtractDicts_rest_le inp fs dicts
  · exact symdiffDicts_rest_le inp fs dicts

theorem dispatch_rest_le (q : Nat → Nat → List Char) (command : Str) (inp : List Char)
    (fs : FileSystem) (dicts : DictCollection) :
    (dispatch q command inp fs dicts).rest.length ≤ inp.length := by
  unfold dispatch
  split
  · exact Nat.le_refl _
  · dsimp only
    split
    · exact handler_rest_le q _ inp fs dicts
    · exact handler_rest_le q _ inp fs dicts

theorem ignoreLine_length_le (s : List Char) : (ignoreLine s).length ≤ s.length := by
  unfold ignoreLine
  rw [List.length_tail]
  exact Nat.le_trans (Nat.sub_le _ _) (List.dropWhile_sublist _).length_le

theorem commandLoop_enough (q : Nat → Nat → List Char) (fuel : Nat) (inp : List Char)
    (st : LoopState) (h : inp.length < fuel) :
    ∃ final, commandLoop q fuel inp st = some final ∧
      ∀ more, commandLoop q (fuel + more) inp st = some final := by
  induction fuel generalizing inp st with
  | zero => omega
  | succ n ih =>
    rcases ht : readToken inp with ⟨_ | command, rest⟩
    · refine ⟨st, by simp [commandLoop, ht], ?_⟩
      intro more
      rw [Nat.add_right_comm]
      simp [commandLoop, ht]
    · by_cases hr : rest = []
      · refine ⟨st, by simp [commandLoop, ht, hr], ?_⟩
        intro more
        rw [Nat.add_right_comm]
        simp [commandLoop, ht, hr]
      · have h1 := readToken_rest_length inp rest command ht
        have h2 := dispatch_rest_le q command rest st.fs st.dicts
        have h3 := ignoreLine_length_le (dispatch q command rest st.fs st.dicts).rest
        obtain ⟨final, hf, hmore⟩ :=
          ih (ignoreLine (dispatch q command rest st.fs st.dicts).rest)
            ⟨st.out ++ (dispatch q command rest st.fs st.dicts).out,
              (dispatch q command rest st.fs st.dicts).dicts,
              (dispatch q command rest st.fs st.dicts).fs⟩ (by omega)
        refine ⟨final, by simp [commandLoop, ht, hr, hf], ?_⟩
        intro more
        rw [Nat.add_right_comm]
        simp [commandLoop, ht, hr, hmore more]

/-- The dispatch loop ends on every input: the bound of `runCommands` is never
reached, and a larger bound gives the same final state. -/
theorem runCommands_total (q : Nat → Nat → List Char) (inp : List Char) (fs : FileSystem)
    (dicts : DictCollection) :
    ∃ final, runCommands q inp fs dicts = some final ∧
      ∀ more, commandLoop q (inp.length + 1 + more) inp ⟨[], dicts, fs⟩ = some final :=
  commandLoop_enough q (inp.length + 1) inp ⟨[], dicts, fs⟩ (Nat.lt_succ_self _)

/-- C9, the code at the failing input.  With the dictionary `en` present,
`addword en cat` followed by two translations and by the command lines
`addword en dog ...` and `stat en` stores every remaining token of the input as
a translation of `cat` and leaves no input; the dispatch loop run on the whole
scenario therefore ends with the single word `cat` in `en` and prints nothing,
the `stat` line included. -/
theorem addWord_reads_following_lines :
    (addWord " en cat кот кошка\naddword en dog пёс\nstat en\n".toList emptyFs sampleDicts4).rest
      = [] ∧
    lookupTranslations
      (addWord " en cat кот кошка\naddword en dog пёс\nstat en\n".toList emptyFs
        sampleDicts4).dicts "en".toList "cat".toList
      = {"кот".toList, "кошка".toList, "addword".toList, "en".toList, "dog".toList,
          "пёс".toList, "stat".toList} ∧
    ∃ st, runCommands (fun _ _ => [])
        "createdict en\naddword en cat кот кошка\naddword en dog пёс\nstat en\n".toList
        emptyFs UMap.empty = some st ∧
      st.out = [] ∧
      (st.dicts.find "en".toList).map UMap.keys = some ["cat".toList] ∧
      lookupTranslations st.dicts "en".toList "cat".toList
        = {"кот".toList, "кошка".toList, "addword".toList, "en".toList, "dog".toList,
            "пёс".toList, "stat".toList} :=
  ⟨by decide, by decide, _, rfl, by decide, by decide, by decide⟩

theorem countTokens_dropWhile_space (s : List Char) :
    countTokens true s = countTokens true (s.dropWhile isspace) := by
  induction s with
  | nil => rfl
  | cons c cs ih =>
    cases hc : isspace c with
    | true => simp [countTokens, List.dropWhile, hc, ih]
    | false => simp [List.dropWhile, hc]

theorem countTokens_dropWhile_token (s : List Char) :
    countTokens false s = countTokens true (s.dropWhile (fun x => !isspace x)) := by
  induction s with
  | nil => rfl
  | cons c cs ih =>
    cases hc : isspace c with
    | true => simp [countTokens, List.dropWhile, hc]
    | false => simp [countTokens, List.dropWhile, hc, ih]

theorem countTokens_readToken_none (s rest : List Char) (h : readToken s = (none, rest)) :
    countTokens true s = 0 := by
  unfold readToken at h
  rw [countTokens_dropWhile_space]
  cases hd : s.dropWhile isspace with
  | nil => rfl
  | cons c cs =>
    rw [hd] at h
    simp at h

theorem countTokens_readToken_some (s rest : List Char) (t : Str)
    (h : readToken s = (some t, rest)) :
    countTokens true s = countTokens true rest + 1 := by
  unfold readToken at h
  rw [countTokens_dropWhile_space]
  cases hd : s.dropWhile isspace with
  | nil =>
    rw [hd] at h
    simp at h
  | cons c cs =>
    rw [hd] at h
    simp only [Prod.mk.injEq] at h
    have hc : isspace c = false := dropWhile_head_false isspace s c cs hd
    rw [← h.2]
    simp only [countTokens, List.dropWhile, hc, Bool.not_false, Bool.and_self, if_true]
    rw [countTokens_dropWhile_token]
    omega

theorem readNames_fails (n : Nat) (s : List Char) (h : countTokens true s < n) :
    ∃ rest, readNames n s = (none, rest) := by
  induction n generalizing s with
  | zero => omega
  | succ n ih =>
    rcases ht : readToken s with ⟨_ | t, r1⟩
    · exact ⟨r1, by simp [readNames, ht]⟩
    · have hcount := countTokens_readToken_some s r1 t ht
      obtain ⟨rest, hrest⟩ := ih r1 (by omega)
      exact ⟨rest, by simp [readNames, ht, hrest]⟩

/-- C10 as stated fails for `findcommon`: with a dictionary name that is not in
the collection and no token after the count, the message is
`dictionary or word(s) not found`, not `invalid count`. -/
theorem findCommon_missing_dictionary_message :
    readToken " x 1\n".toList = (some "x".toList, " 1\n".toList) ∧
    readInt " 1\n".toList = (some 1, "\n".toList) ∧
    countTokens true "\n".toList = 0 ∧
    (findCommon " x 1\n".toList emptyFs sampleDicts).out
      = printError "dictionary or word(s) not found".toList ∧
    (findCommon " x 1\n".toList emptyFs sampleDicts).out
      ≠ printError "invalid count".toList := by
  decide

/-- C10, amended. When fewer than `count` tokens are left in the input after
the count, `merge`, `subtract` and `symdiff` report `invalid count` and leave
the collection unchanged; `findcommon` does the same when its dictionary
exists, and reports `dictionary or word(s) not found`, again without changing
the collection, when it does not. -/
theorem insufficient_tokens_rejected (inp rest1 rest2 : List Char) (fs : FileSystem)
    (dicts : DictCollection) (name : Str) (count : Int)
    (hname : readToken inp = (some name, rest1))
    (hcount : readInt rest1 = (some count, rest2))
    (hfew : (countTokens true rest2 : Int) < count) :
    ((mergeDicts inp fs dicts).out = printError "invalid count".toList ∧
      (mergeDicts inp fs dicts).dicts = dicts) ∧
    ((subtractDicts inp fs dicts).out = printError "invalid count".toList ∧
      (subtractDicts inp fs dicts).dicts = dicts) ∧
    ((symdiffDicts inp fs dicts).out = printError "invalid count".toList ∧
      (symdiffDicts inp fs dicts).dicts = dicts) ∧
    (dicts.contains name = true →
      (findCommon inp fs dicts).out = printError "invalid count".toList ∧
        (findCommon inp fs dicts).dicts = dicts) ∧
    (dicts.contains name = false →
      (findCommon inp fs dicts).out = printError "dictionary or word(s) not found".toList ∧
        (findCommon inp fs dicts).dicts = dicts) := by
  have hlt : countTokens true rest2 < count.toNat := by omega
  obtain ⟨rest, hrest⟩ := readNames_fails count.toNat rest2 hlt
  have hpos : ¬ count < 1 := by omega
  refine ⟨?_, ?_, ?_, ?_, ?_⟩
  · by_cases h2 : count < 2 <;>
      simp [mergeDicts, hname, hcount, h2, hrest, errorResult]
  · by_cases h2 : count < 2 <;>
      simp [subtractDicts, hname, hcount, h2, hrest, errorResult]
  · by_cases h2 : count < 2 <;>
      simp [symdiffDicts, hname, hcount, h2, hrest, errorResult]
  · intro hex
    simp [findCommon, hname, hcount, hpos, dictExists, hex, hrest, errorResult]
  · intro hex
    simp [findCommon, hname, hcount, hpos, dictExists, hex, errorResult]

/-- C10, concrete check: `merge m 3 a b` with two names for a count of three. -/
theorem insufficient_tokens_rejected_witness :
    (mergeDicts " m 3 a b\n".toList emptyFs sampleDicts).out
      = printError "invalid count".toList ∧
    (mergeDicts " m 3 a b\n".toList emptyFs sampleDicts).dicts = sampleDicts :=
  (insufficient_tokens_rejected " m 3 a b\n".toList " 3 a b\n".toList " a b\n".toList emptyFs
    sampleDicts "m".toList 3 (by decide) (by decide) (by decide)).1

/-! ## Missing arguments -/

theorem readToken_none_of_count (s : List Char) (h : countTokens true s = 0) :
    ∃ r, readToken s = (none, r) := by
  rcases ht : readToken s with ⟨_ | t, r⟩
  · exact ⟨r, rfl⟩
  · have h1 := countTokens_readToken_some s r t ht
    omega

theorem dropWhile_isspace_of_count (s : List Char) (h : countTokens true s = 0) :
    s.dropWhile isspace = [] := by
  obtain ⟨r, hr⟩ := readToken_none_of_count s h
  unfold readToken at hr
  cases hd : s.dropWhile isspace with
  | nil => rfl
  | cons c cs =>
    rw [hd] at hr
    simp at hr

theorem readInt_none_of_count (s : List Char) (h : countTokens true s = 0) :
    (readInt s).1 = none := by
  unfold readInt
  simp [dropWhile_isspace_of_count s h, readSign]

/-- C11 as stated fails: a handler takes its arguments from the following lines
when its own line is short.  `createdict` on an empty line followed by the line
`listdicts` creates a dictionary named `listdicts` and reports nothing, and the
dispatch loop run on these two lines never executes `listdicts`. -/
theorem createDict_takes_next_line :
    countTokens true (ownLine "\nlistdicts\n".toList) < Command.required Command.createdict ∧
    (createDict "\nlistdicts\n".toList emptyFs UMap.empty).out = [] ∧
    (createDict "\nlistdicts\n".toList emptyFs UMap.empty).dicts.contains "listdicts".toList
      = true ∧
    ∃ st, runCommands (fun _ _ => []) "createdict\nlistdicts\n".toList emptyFs UMap.empty
        = some st ∧
      st.out = [] ∧ st.dicts.keys = ["listdicts".toList] :=
  ⟨by decide, by decide, by decide, _, rfl, by decide, by decide⟩

/-- C11, amended. For every handler and every input: if the whole remaining
input, the following lines included, carries fewer tokens than the command
requires, the handler reports `invalid arguments for` followed by the command
name and leaves the collection unchanged. -/
theorem missing_arguments_rejected (q : Nat → Nat → List Char) (c : Command) (inp : List Char)
    (fs : FileSystem) (dicts : DictCollection) (h : countTokens true inp < c.required) :
    (c.handler q inp fs dicts).out = printError ("invalid arguments for ".toList ++ c.name) ∧
      (c.handler q inp fs dicts).dicts = dicts := by
  rcases ht : readToken inp with ⟨_ | t, r⟩
  · cases c <;>
      first
        | (simp only [Command.required] at h; omega)
        | simp [Command.handler, Command.name, createDict, deleteDict, addWord, addTranslation,
            removeTranslation, deleteWord, findTranslations, listWords, mergeDicts, findCommon,
            saveDict, loadDict, statDict, subtractDicts, symdiffDicts, ht, errorResult]
  · have h1 := countTokens_readToken_some inp r t ht
    rcases ht2 : readToken r with ⟨_ | t2, r2⟩
    · have hi : (readInt r).1 = none :=
        readInt_none_of_count r (countTokens_readToken_none r r2 ht2)
      rcases hri : readInt r with ⟨o, ri⟩
      rw [hri] at hi
      simp only at hi
      subst hi
      cases c <;>
        first
          | (simp only [Command.required] at h; omega)
          | simp [Command.handler, Command.name, createDict, deleteDict, addWord,
              addTranslation, removeTranslation, deleteWord, findTranslations, listWords,
              mergeDicts, findCommon, saveDict, loadDict, statDict, subtractDicts,
              symdiffDicts, ht, ht2, hri, errorResult]
    · have h2 := countTokens_readToken_some r r2 t2 ht2
      rcases ht3 : readToken r2 with ⟨_ | t3, r3⟩
      · cases c <;>
          first
            | (simp only [Command.required] at h; omega)
            | simp [Command.handler, Command.name, createDict, deleteDict, addWord,
                addTranslation, removeTranslation, deleteWord, findTranslations, listWords,
                mergeDicts, findCommon, saveDict, loadDict, statDict, subtractDicts,
                symdiffDicts, ht, ht2, ht3, errorResult]
      · have h3 := countTokens_readToken_some r2 r3 t3 ht3
        cases c <;> (simp only [Command.required] at h; omega)

/-- C11, concrete check: `stat` with nothing left in the input. -/
theorem missing_arguments_rejected_witness :
    (Command.handler (fun _ _ => []) Command.stat "\n".toList emptyFs sampleDicts).out
      = printError ("invalid arguments for ".toList ++ Command.name Command.stat) ∧
    (Command.handler (fun _ _ => []) Command.stat "\n".toList emptyFs sampleDicts).dicts
      = sampleDicts :=
  missing_arguments_rejected (fun _ _ => []) Command.stat "\n".toList emptyFs sampleDicts
    (by decide)

/-! ## Decoding as tokenisation -/

theorem tokensBy_mem (isSep : Char → Bool) (s : List Char) (t : Str)
    (h : t ∈ tokensBy isSep s) : t ≠ [] ∧ ∀ c ∈ t, isSep c = false ∧ c ∈ s := by
  induction s generalizing t with
  | nil => simp [tokensBy] at h
  | cons c cs ih =>
    have lift : ∀ u, u ∈ tokensBy isSep cs → u ≠ [] ∧ ∀ x ∈ u, isSep x = false ∧ x ∈ c :: cs :=
      fun u hu => ⟨(ih u hu).1, fun x hx => ⟨((ih u hu).2 x hx).1,
        List.mem_cons_of_mem _ ((ih u hu).2 x hx).2⟩⟩
    have single : isSep c = false →
        ([c] : Str) ≠ [] ∧ ∀ x ∈ [c], isSep x = false ∧ x ∈ c :: cs := by
      intro hc
      refine ⟨List.cons_ne_nil _ _, ?_⟩
      intro x hx
      rw [List.mem_singleton] at hx
      subst hx
      exact ⟨hc, List.mem_cons_self _ _⟩
    cases cs with
    | nil =>
      cases hc : isSep c with
      | true => simp [tokensBy, hc] at h
      | false =>
        simp only [tokensBy, hc, Bool.false_eq_true, if_false, List.mem_singleton] at h
        rw [h]
        exact single hc
    | cons d r =>
      cases hc : isSep c with
      | true =>
        simp only [tokensBy, hc, if_true] at h
        exact lift t h
      | false =>
        cases hd : isSep d with
        | true =>
          simp only [tokensBy, hc, hd, Bool.false_eq_true, if_false, if_true,
            List.mem_cons] at h
          rcases h with h | h
          · rw [h]
            exact single hc
          · exact lift t h
        | false =>
          simp only [tokensBy, hc, hd, Bool.false_eq_true, if_false] at h
          cases hts : tokensBy isSep (d :: r) with
          | nil =>
            rw [hts] at h
            simp only [List.mem_singleton] at h
            rw [h]
            exact single hc
          | cons t0 ts =>
            rw [hts] at h
            simp only [List.mem_cons] at h
            rcases h with h | h
            · have h0 := lift t0 (by rw [hts]; exact List.mem_cons_self _ _)
              rw [h]
              refine ⟨List.cons_ne_nil _ _, ?_⟩
              intro x hx
              rcases List.mem_cons.mp hx with hx | hx
              · rw [hx]
                exact ⟨hc, List.mem_cons_self _ _⟩
              · exact h0.2 x hx
            · exact lift t (by rw [hts]; exact List.mem_cons_of_mem _ h)

theorem spacePieces_ne_nil (s : List Char) : spacePieces s ≠ [] := by
  cases s with
  | nil => simp [spacePieces]
  | cons c cs =>
    rw [spacePieces]
    split
    · exact List.cons_ne_nil _ _
    · split <;> exact List.cons_ne_nil _ _

theorem tokensBy_eq_filter (s : List Char) :
    tokensBy isBlank s = (spacePieces s).filter (fun p => p ≠ []) := by
  induction s with
  | nil => simp [tokensBy, spacePieces]
  | cons c cs ih =>
    cases cs with
    | nil =>
      by_cases hc : c = ' '
      · simp [tokensBy, spacePieces, isBlank, hc]
      · simp [tokensBy, spacePieces, isBlank, hc]
    | cons d r =>
      by_cases hc : c = ' '
      · subst hc
        simp only [tokensBy, isBlank, decide_True, if_true]
        rw [spacePieces, if_pos rfl]
        simpa [isBlank] using ih
      · have hb : isBlank c = false := by simp [isBlank, hc]
        rw [spacePieces, if_neg hc]
        by_cases hd : d = ' '
        · subst hd
          have hbd : isBlank ' ' = true := by simp [isBlank]
          simp only [tokensBy, hb, hbd, Bool.false_eq_true, if_false, if_true]
          rw [ih]
          simp [spacePieces]
        · have hbd : isBlank d = false := by simp [isBlank, hd]
          simp only [tokensBy, hb, hbd, Bool.false_eq_true, if_false]
          rw [ih, spacePieces, if_neg hd]
          cases hp : spacePieces r with
          | nil => exact absurd hp (spacePieces_ne_nil r)
          | cons p ps => simp

theorem parseTranslations_eq_tokens (s : List Char) :
    parseTranslations s = (tokensBy isBlank s).toFinset := by
  unfold parseTranslations
  ext t
  rw [mem_foldl_pieces, tokensBy_eq_filter]
  simp only [Finset.not_mem_empty, false_or, List.mem_toFinset, List.mem_filter, ne_eq,
    decide_not, Bool.not_eq_true', decide_eq_false_iff_not]

theorem getlines_no_newline (text : List Char) :
    ∀ line ∈ getlines text, ∀ c ∈ line, c ≠ '\n' := by
  induction text with
  | nil => simp [getlines]
  | cons c cs ih =>
    intro line hl
    rw [getlines] at hl
    by_cases hc : c = '\n'
    · rw [if_pos hc, List.mem_cons] at hl
      rcases hl with hl | hl
      · rw [hl]
        simp
      · exact ih line hl
    · rw [if_neg hc] at hl
      cases hg : getlines cs with
      | nil =>
        rw [hg] at hl
        simp only [List.mem_singleton] at hl
        rw [hl]
        intro x hx
        rw [List.mem_singleton] at hx
        rw [hx]
        exact hc
      | cons l ls =>
        rw [hg] at hl ih
        simp only [List.mem_cons] at hl
        rcases hl with hl | hl
        · rw [hl]
          intro x hx
          rcases List.mem_cons.mp hx with hx | hx
          · rw [hx]
            exact hc
          · exact ih l (List.mem_cons_self _ _) x hx
        · exact ih line (List.mem_cons_of_mem _ hl)

theorem readLine_eq_decodeLine (d : Dictionary) (line : List Char)
    (h : line.head? ≠ some ' ') : readLine d line = decodeLine isBlank d line := by
  cases line with
  | nil => simp [readLine, decodeLine, tokensBy]
  | cons c cs =>
    have hc : c ≠ ' ' := by
      intro hc
      apply h
      rw [hc]
      rfl
    unfold readLine decodeLine
    rw [if_neg (List.cons_ne_nil _ _)]
    by_cases hm : ' ' ∈ c :: cs
    · rw [if_neg (not_not.mpr hm)]
      have hstep := spacePieces_step (c :: cs)
      rw [if_pos hm] at hstep
      have htok : tokensBy isBlank (c :: cs)
          = (c :: cs).takeWhile (fun x => x ≠ ' ')
            :: tokensBy isBlank ((c :: cs).dropWhile (fun x => x ≠ ' ')).tail := by
        rw [tokensBy_eq_filter, hstep, tokensBy_eq_filter]
        simp [List.takeWhile, hc]
      rw [htok]
      simp only [parseTranslations_eq_tokens]
      cases tokensBy isBlank ((c :: cs).dropWhile (fun x => x ≠ ' ')).tail with
      | nil => simp
      | cons t ts =>
        have hne : (t :: ts).toFinset ≠ ∅ := by
          rw [List.toFinset_cons]
          exact Finset.insert_ne_empty _ _
        rw [if_pos hne]
    · rw [if_pos hm]
      have hstep := spacePieces_step (c :: cs)
      rw [if_neg hm] at hstep
      have htok : tokensBy isBlank (c :: cs) = [c :: cs] := by
        rw [tokensBy_eq_filter, hstep]
        simp
      rw [htok]

theorem foldl_readLine_eq_decode (lines : List (List Char)) (d : Dictionary)
    (h : ∀ line ∈ lines, line.head? ≠ some ' ') :
    lines.foldl readLine d = lines.foldl (decodeLine isBlank) d := by
  induction lines generalizing d with
  | nil => rfl
  | cons l ls ih =>
    rw [List.foldl_cons, List.foldl_cons, readLine_eq_decodeLine d l (h l (List.mem_cons_self _ _)),
      ih _ (fun x hx => h x (List.mem_cons_of_mem _ hx))]

theorem decodeLine_spaceFree (d : Dictionary) (line : List Char)
    (hl : ∀ c ∈ line, c ≠ '\n')
    (hd : ∀ w T, d.find w = some T → spaceFree w ∧ T ≠ ∅ ∧ ∀ t ∈ T, spaceFree t) :
    ∀ w T, (decodeLine isBlank d line).find w = some T →
      spaceFree w ∧ T ≠ ∅ ∧ ∀ t ∈ T, spaceFree t := by
  have htok : ∀ t ∈ tokensBy isBlank line, spaceFree t := by
    intro t ht
    obtain ⟨h1, h2⟩ := tokensBy_mem isBlank line t ht
    refine ⟨h1, fun c hc => ⟨?_, hl c (h2 c hc).2⟩⟩
    intro hcs
    have := (h2 c hc).1
    simp [isBlank, hcs] at this
  unfold decodeLine
  cases hts : tokensBy isBlank line with
  | nil => exact hd
  | cons word rest =>
    cases rest with
    | nil => exact hd
    | cons t ts =>
      rw [hts] at htok
      intro w T hw
      simp only at hw
      rw [UMap.find_assign] at hw
      by_cases hww : w = word
      · rw [if_pos hww] at hw
        rw [hww, ← Option.some.inj hw]
        refine ⟨htok word (List.mem_cons_self _ _), ?_, ?_⟩
        · rw [List.toFinset_cons]
          exact Finset.insert_ne_empty _ _
        · intro x hx
          rw [List.mem_toFinset] at hx
          exact htok x (List.mem_cons_of_mem _ hx)
      · rw [if_neg hww] at hw
        exact hd w T hw

theorem foldl_decodeLine_spaceFree (lines : List (List Char)) (d : Dictionary)
    (hl : ∀ line ∈ lines, ∀ c ∈ line, c ≠ '\n')
    (hd : ∀ w T, d.find w = some T → spaceFree w ∧ T ≠ ∅ ∧ ∀ t ∈ T, spaceFree t) :
    ∀ w T, (lines.foldl (decodeLine isBlank) d).find w = some T →
      spaceFree w ∧ T ≠ ∅ ∧ ∀ t ∈ T, spaceFree t := by
  induction lines generalizing d with
  | nil => exact hd
  | cons l ls ih =>
    rw [List.foldl_cons]
    exact ih _ (fun x hx => hl x (List.mem_cons_of_mem _ hx))
      (decodeLine_spaceFree d l (hl l (List.mem_cons_self _ _)) hd)

/-- C12 as stated fails: `readDictionary` separates tokens at the space
character only.  On the line `a<TAB>b c` tokenisation on white space gives the
word `a`, but the decoded word is `a<TAB>b`, which contains white space; and
the line ` x y`, which begins with a space, is decoded to the empty word. -/
theorem readDictionary_splits_on_space_only :
    (decodeBy isspace "a\tb c\n".toList).contains "a".toList = true ∧
    (readDictionary "a\tb c\n".toList).contains "a".toList = false ∧
    (readDictionary "a\tb c\n".toList).contains "a\tb".toList = true ∧
    ¬ tokenOK "a\tb".toList ∧
    (readDictionary " x y\n".toList).contains [] = true := by
  decide

/-- C12, amended. For every text in which no line begins with a space,
`readDictionary` returns the dictionary obtained by splitting each line on runs
of the space character, taking the first token as the word and the set of the
remaining tokens as its translations, and skipping the lines without a
translation; every word and every translation of that dictionary is a
non-empty string without a space or a newline, and no translation set is
empty. -/
theorem readDictionary_eq_decodeBy (text : List Char)
    (h : ∀ line ∈ getlines text, line.head? ≠ some ' ') :
    readDictionary text = decodeBy isBlank text ∧
    ∀ w T, (readDictionary text).find w = some T →
      spaceFree w ∧ T ≠ ∅ ∧ ∀ t ∈ T, spaceFree t := by
  have heq : readDictionary text = decodeBy isBlank text :=
    foldl_readLine_eq_decode (getlines text) UMap.empty h
  refine ⟨heq, ?_⟩
  rw [heq]
  exact foldl_decodeLine_spaceFree (getlines text) UMap.empty (getlines_no_newline text)
    (fun w T hw => by simp at hw)

/-- C12, concrete check: a text of four lines, one of them without a
translation and one empty. -/
theorem readDictionary_eq_decodeBy_witness :
    readDictionary "cat kot  koshka\ndog\n\nsun solnce \n".toList
      = decodeBy isBlank "cat kot  koshka\ndog\n\nsun solnce \n".toList ∧
    ∀ w T, (readDictionary "cat kot  koshka\ndog\n\nsun solnce \n".toList).find w = some T →
      spaceFree w ∧ T ≠ ∅ ∧ ∀ t ∈ T, spaceFree t :=
  readDictionary_eq_decodeBy "cat kot  koshka\ndog\n\nsun solnce \n".toList (by decide)

/-! ## Removing translations -/

theorem commandLine_head (as : List Str) :
    ∃ x r, commandLine as = x :: r ∧ isspace x = true := by
  cases as with
  | nil => exact ⟨'\n', [], rfl, by decide⟩
  | cons a as => exact ⟨' ', a ++ commandLine as, rfl, by decide⟩

theorem readToken_commandLine (a : Str) (as : List Str) (ha : tokenOK a) :
    readToken (commandLine (a :: as)) = (some a, commandLine as) := by
  obtain ⟨x, r, hxr, hx⟩ := commandLine_head as
  obtain ⟨hne, hchars⟩ := ha
  cases a with
  | nil => exact absurd rfl hne
  | cons c cs =>
    have hc : isspace c = false := hchars c (List.mem_cons_self _ _)
    have hsplit := takeWhile_append_stop (fun y => !isspace y) (c :: cs) r x
      (fun y hy => by simp [hchars y hy]) (by simp [hx])
    have hsp : isspace ' ' = true := by decide
    have hdrop : (' ' :: (c :: cs ++ x :: r)).dropWhile isspace = c :: (cs ++ x :: r) := by
      simp [List.dropWhile, hsp, hc]
    rw [List.cons_append] at hsplit
    unfold readToken
    rw [commandLine, hxr, hdrop]
    simp only [hsplit.1, hsplit.2]

theorem removeTranslation_step (inp rest1 rest2 rest3 : List Char) (fs : FileSystem)
    (dicts : DictCollection) (dictName word t : Str) (dict : Dictionary) (T : TransSet)
    (h1 : readToken inp = (some dictName, rest1))
    (h2 : readToken rest1 = (some word, rest2))
    (h3 : readToken rest2 = (some t, rest3))
    (hd : dicts.find dictName = some dict) (hw : dict.find word = some T) (ht : t ∈ T) :
    (removeTranslation inp fs dicts).out = [] ∧
    ∃ dict2, (removeTranslation inp fs dicts).dicts.find dictName = some dict2 ∧
      dict2.find word = (if T.erase t = ∅ then none else some (T.erase t)) ∧
      (∀ w2, w2 ≠ word → dict2.find w2 = dict.find w2) ∧
      (∀ name2, name2 ≠ dictName →
        (removeTranslation inp fs dicts).dicts.find name2 = dicts.find name2) := by
  by_cases he : T.erase t = ∅
  · have hres : removeTranslation inp fs dicts
        = ⟨[], dicts.modify dictName (fun d => d.erase word), rest3, fs, false⟩ := by
      simp [removeTranslation, h1, h2, h3, hd, hw, ht, he]
    rw [hres]
    refine ⟨rfl, dict.erase word, ?_, ?_, ?_, ?_⟩
    · simp [UMap.find_modify, hd]
    · simp [UMap.find_erase, he]
    · intro w2 hw2
      simp [UMap.find_erase, hw2]
    · intro name2 hn2
      simp [UMap.find_modify, hn2]
  · have hres : removeTranslation inp fs dicts
        = ⟨[], dicts.modify dictName (fun d => d.modify word (fun s => s.erase t)),
            rest3, fs, false⟩ := by
      simp [removeTranslation, h1, h2, h3, hd, hw, ht, he]
    rw [hres]
    refine ⟨rfl, dict.modify word (fun s => s.erase t), ?_, ?_, ?_, ?_⟩
    · simp [UMap.find_modify, hd]
    · simp [UMap.find_modify, hw, he]
    · intro w2 hw2
      simp [UMap.find_modify, hw2]
    · intro name2 hn2
      simp [UMap.find_modify, hn2]

theorem removeEach_absent (fs : FileSystem) (dictName word : Str)
    (hdn : tokenOK dictName) (hwd : tokenOK word) (ts : List Str) (hne : ts ≠ [])
    (hnd : ts.Nodup) (htok : ∀ t ∈ ts, tokenOK t) (dicts : DictCollection) (dict : Dictionary)
    (hd : dicts.find dictName = some dict) (hw : dict.find word = some ts.toFinset) :
    ∃ dict2, (removeEach fs dicts dictName word ts).find dictName = some dict2 ∧
      dict2.find word = none := by
  induction ts generalizing dicts dict with
  | nil => exact absurd rfl hne
  | cons t rest ih =>
    have hp1 := readToken_commandLine dictName [word, t] hdn
    have hp2 := readToken_commandLine word [t] hwd
    have hp3 := readToken_commandLine t [] (htok t (List.mem_cons_self _ _))
    obtain ⟨-, dict2, hd2, hfw, -, -⟩ := removeTranslation_step _ _ _ _ fs dicts dictName
      word t dict _ hp1 hp2 hp3 hd hw (by simp)
    rw [List.nodup_cons] at hnd
    have herase : (t :: rest).toFinset.erase t = rest.toFinset := by
      rw [List.toFinset_cons, Finset.erase_insert]
      rw [List.mem_toFinset]
      exact hnd.1
    rw [herase] at hfw
    unfold removeEach
    rw [List.foldl_cons]
    cases rest with
    | nil =>
      refine ⟨dict2, hd2, ?_⟩
      rw [hfw]
      simp
    | cons t2 rest2 =>
      have hne2 : (t2 :: rest2).toFinset ≠ ∅ := by
        rw [List.toFinset_cons]
        exact Finset.insert_ne_empty _ _
      rw [if_neg hne2] at hfw
      exact ih (List.cons_ne_nil _ _) hnd.2 (fun x hx => htok x (List.mem_cons_of_mem _ hx))
        _ dict2 hd2 hfw

/-- C13. With the dictionary, the word and the translation present,
`removeTranslation` prints nothing, replaces the set of the word by the old set
without the translation when other translations remain, removes the word when
the translation was its only one, and leaves every other word and every other
dictionary as they were.  Hence the commands that remove the translations of a
word one by one leave the word absent from its dictionary. -/
theorem removeTranslation_removes (fs : FileSystem) (dicts : DictCollection)
    (dictName word : Str) (dict : Dictionary) (T : TransSet)
    (hd : dicts.find dictName = some dict) (hw : dict.find word = some T) :
    (∀ inp rest1 rest2 rest3 t,
      readToken inp = (some dictName, rest1) → readToken rest1 = (some word, rest2) →
      readToken rest2 = (some t, rest3) → t ∈ T →
      (removeTranslation inp fs dicts).out = [] ∧
      ∃ dict2, (removeTranslation inp fs dicts).dicts.find dictName = some dict2 ∧
        dict2.find word = (if T.erase t = ∅ then none else some (T.erase t)) ∧
        (∀ w2, w2 ≠ word → dict2.find w2 = dict.find w2) ∧
        (∀ name2, name2 ≠ dictName →
          (removeTranslation inp fs dicts).dicts.find name2 = dicts.find name2)) ∧
    (tokenOK dictName → tokenOK word →
      ∀ ts : List Str, ts ≠ [] → ts.Nodup → ts.toFinset = T → (∀ t ∈ ts, tokenOK t) →
      ∃ dict2, (removeEach fs dicts dictName word ts).find dictName = some dict2 ∧
        dict2.find word = none) := by
  constructor
  · intro inp rest1 rest2 rest3 t h1 h2 h3 ht
    exact removeTranslation_step inp rest1 rest2 rest3 fs dicts dictName word t dict T h1 h2 h3
      hd hw ht
  · intro hdn hwd ts hne hnd hT htok
    apply removeEach_absent fs dictName word hdn hwd ts hne hnd htok dicts dict hd
    rw [hT]
    exact hw

/-- C13, concrete check: removing the only translation of `cat` from the sample
dictionary `b`. -/
theorem removeTranslation_removes_witness :
    sampleDicts.find "b".toList = some sampleB ∧
    sampleB.find "cat".toList = some {"koshka".toList} ∧
    ∃ dict2, (removeEach emptyFs sampleDicts "b".toList "cat".toList
        ["koshka".toList]).find "b".toList = some dict2 ∧
      dict2.find "cat".toList = none :=
  ⟨by decide, by decide,
    (removeTranslation_removes emptyFs sampleDicts "b".toList "cat".toList sampleB
      {"koshka".toList} (by decide) (by decide)).2 (by decide) (by decide) ["koshka".toList]
      (by decide) (by decide) (by decide) (by decide)⟩

/-! ## Statistics -/

theorem foldl_add_card (l : List (Str × TransSet)) (a : Nat) :
    l.foldl (fun total wordPair => total + wordPair.2.card) a
      = a + (l.map (fun e => e.2.card)).sum := by
  induction l generalizing a with
  | nil => simp
  | cons e es ih =>
    rw [List.foldl_cons, ih, List.map_cons, List.sum_cons]
    omega

theorem totalTranslations_eq_sum (dict : Dictionary) :
    totalTranslations dict = (dict.entries.map (fun e => e.2.card)).sum := by
  unfold totalTranslations
  rw [foldl_add_card]
  omega

theorem statDict_out (q : Nat → Nat → List Char) (inp rest : List Char) (fs : FileSystem)
    (dicts : DictCollection) (dictName : Str) (dict : Dictionary)
    (hname : readToken inp = (some dictName, rest))
    (hd : dicts.find dictName = some dict) :
    (statDict q inp fs dicts).out
      = "Words: ".toList ++ Nat.toDigits 10 dict.keys.length ++ "\n".toList
        ++ "Translations: ".toList
        ++ Nat.toDigits 10 (dict.entries.map (fun e => e.2.card)).sum ++ "\n".toList
        ++ "Average translations per word: ".toList
        ++ (if dict.keys.length = 0 then q 0 1
            else q (dict.entries.map (fun e => e.2.card)).sum dict.keys.length)
        ++ "\n".toList ∧
    (statDict q inp fs dicts).dicts = dicts := by
  have hc : dicts.contains dictName = true := (UMap.contains_iff _ _).mpr ⟨dict, hd⟩
  have hlen : dict.keys.length = dict.size := by simp [UMap.keys, UMap.size]
  rw [hlen, ← totalTranslations_eq_sum]
  by_cases h0 : dict.size = 0
  · simp [statDict, hname, dictExists, hc, hd, h0]
  · have hpos : dict.size > 0 := Nat.pos_of_ne_zero h0
    simp [statDict, hname, dictExists, hc, hd, h0, hpos]

/-- C14. For an existing dictionary `statDict` prints three lines: the number of
keys, the sum of the sizes of the translation sets, and the average, which is
the text of the quotient of these two counts, or the text of zero, without a
division, when the dictionary has no words.  For `cat -> кот, кошка` and
`dog -> пёс` the lines are 2, 3 and, the quotient of 3 and 2 being written
`1.5`, the average 1.5. -/
theorem statDict_reports_counts :
    (∀ (q : Nat → Nat → List Char) (inp rest : List Char) (fs : FileSystem)
      (dicts : DictCollection) (dictName : Str) (dict : Dictionary),
      readToken inp = (some dictName, rest) → dicts.find dictName = some dict →
      (statDict q inp fs dicts).out
        = "Words: ".toList ++ Nat.toDigits 10 dict.keys.length ++ "\n".toList
          ++ "Translations: ".toList
          ++ Nat.toDigits 10 (dict.entries.map (fun e => e.2.card)).sum ++ "\n".toList
          ++ "Average translations per word: ".toList
          ++ (if dict.keys.length = 0 then q 0 1
              else q (dict.entries.map (fun e => e.2.card)).sum dict.keys.length)
          ++ "\n".toList ∧
      (statDict q inp fs dicts).dicts = dicts) ∧
    (∀ q : Nat → Nat → List Char, q 3 2 = "1.5".toList →
      (statDict q " en\n".toList emptyFs sampleDicts5).out
        = "Words: 2\nTranslations: 3\nAverage translations per word: 1.5\n".toList) := by
  constructor
  · intro q inp rest fs dicts dictName dict hname hd
    exact statDict_out q inp rest fs dicts dictName dict hname hd
  · intro q hq
    have h := (statDict_out q " en\n".toList "\n".toList emptyFs sampleDicts5 "en".toList
      sampleEn (by decide) (by decide)).1
    have hk : sampleEn.keys.length = 2 := by decide
    have hs : (sampleEn.entries.map (fun e => e.2.card)).sum = 3 := by decide
    rw [h, hk, hs, if_neg (by decide), hq]
    decide

/-- C14, concrete check: the statistics of the sample dictionary `en` with a
formatter that writes every quotient as `1.5`. -/
theorem statDict_reports_counts_witness :
    (statDict (fun _ _ => "1.5".toList) " en\n".toList emptyFs sampleDicts5).out
      = "Words: 2\nTranslations: 3\nAverage translations per word: 1.5\n".toList :=
  statDict_reports_counts.2 (fun _ _ => "1.5".toList) rfl

/-! ## Missing sources -/

/-- C15. For `merge`, `subtract` and `symdiff`: when the `count >= 2` names were
read and at least one of them is not a key of the collection, the handler
reports `dictionary not found` and leaves the collection as it was, whether the
target name exists or not. -/
theorem missing_source_aborts (inp rest1 rest2 rest3 : List Char) (fs : FileSystem)
    (dicts : DictCollection) (newDictName : Str) (count : Int) (dictNames : List Str)
    (hname : readToken inp = (some newDictName, rest1))
    (hcount : readInt rest1 = (some count, rest2))
    (hge : 2 ≤ count)
    (hnames : readNames count.toNat rest2 = (some dictNames, rest3))
    (hmiss : ∃ name ∈ dictNames, dicts.contains name = false) :
    ((mergeDicts inp fs dicts).out = printError "dictionary not found".toList ∧
      (mergeDicts inp fs dicts).dicts = dicts) ∧
    ((subtractDicts inp fs dicts).out = printError "dictionary not found".toList ∧
      (subtractDicts inp fs dicts).dicts = dicts) ∧
    ((symdiffDicts inp fs dicts).out = printError "dictionary not found".toList ∧
      (symdiffDicts inp fs dicts).dicts = dicts) := by
  have hlt : ¬ count < 2 := not_lt.mpr hge
  refine ⟨?_, ?_, ?_⟩
  · simp [mergeDicts, hname, hcount, hlt, hnames, dictExists, hmiss, errorResult]
  · simp [subtractDicts, hname, hcount, hlt, hnames, dictExists, hmiss, errorResult]
  · simp [symdiffDicts, hname, hcount, hlt, hnames, dictExists, hmiss, errorResult]

/-- C15, concrete check: `merge a 2 b x`, with an existing target `a` and a
missing source `x`. -/
theorem missing_source_aborts_witness :
    sampleDicts.contains "a".toList = true ∧
    (mergeDicts " a 2 b x\n".toList emptyFs sampleDicts).out
      = printError "dictionary not found".toList ∧
    (mergeDicts " a 2 b x\n".toList emptyFs sampleDicts).dicts = sampleDicts :=
  ⟨by decide,
    (missing_source_aborts " a 2 b x\n".toList " 2 b x\n".toList " b x\n".toList "\n".toList
      emptyFs sampleDicts "a".toList 2 ["b".toList, "x".toList] (by decide) (by decide)
      (by decide) (by decide) (by decide)).1⟩

/-! ## Adding translations -/

theorem UMap.ext_entries {V : Type} {a b : UMap V} (h : a.entries = b.entries) : a = b := by
  cases a
  cases b
  simp only [UMap.mk.injEq]
  exact h

theorem UMap.modify_eq_self {V : Type} (m : UMap V) (k : Str) (f : V → V) (v : V)
    (hk : m.find k = some v) (hf : f v = v) : m.modify k f = m := by
  apply UMap.ext_entries
  unfold UMap.modify
  simp only
  have h : ∀ e ∈ m.entries, (if e.1 = k then (e.1, f e.2) else e) = e := by
    intro e he
    by_cases hek : e.1 = k
    · rw [if_pos hek]
      have h1 : m.find e.1 = some e.2 := (UMap.mem_entries m e.1 e.2).mp he
      rw [hek, hk] at h1
      have hv : e.2 = v := (Option.some.inj h1).symm
      exact Prod.ext rfl (by simp only; rw [hv, hf])
    · rw [if_neg hek]
  rw [List.map_congr_left h, List.map_id']

theorem UMap.keys_modify {V : Type} (m : UMap V) (k : Str) (f : V → V) :
    (m.modify k f).keys = m.keys := by
  unfold UMap.modify UMap.keys
  simp only
  rw [List.map_map]
  apply List.map_congr_left
  intro e _
  by_cases hk : e.1 = k <;> simp [hk]

theorem addTranslation_step (inp rest1 rest2 rest3 : List Char) (fs : FileSystem)
    (dicts : DictCollection) (dictName word t : Str) (dict : Dictionary) (T : TransSet)
    (h1 : readToken inp = (some dictName, rest1))
    (h2 : readToken rest1 = (some word, rest2))
    (h3 : readToken rest2 = (some t, rest3))
    (hd : dicts.find dictName = some dict) (hw : dict.find word = some T) :
    addTranslation inp fs dicts
      = ⟨[], dicts.modify dictName (fun d => d.modify word (fun s => insert t s)),
          rest3, fs, false⟩ := by
  simp [addTranslation, h1, h2, h3, hd, hw]

theorem addTranslation_present (inp rest1 rest2 rest3 : List Char) (fs : FileSystem)
    (dicts : DictCollection) (dictName word t : Str) (dict : Dictionary) (T : TransSet)
    (h1 : readToken inp = (some dictName, rest1))
    (h2 : readToken rest1 = (some word, rest2))
    (h3 : readToken rest2 = (some t, rest3))
    (hd : dicts.find dictName = some dict) (hw : dict.find word = some T) (ht : t ∈ T) :
    (addTranslation inp fs dicts).dicts = dicts ∧ (addTranslation inp fs dicts).out = [] := by
  rw [addTranslation_step inp rest1 rest2 rest3 fs dicts dictName word t dict T h1 h2 h3 hd hw]
  refine ⟨?_, rfl⟩
  exact UMap.modify_eq_self dicts dictName (fun d => d.modify word (fun s => insert t s))
    dict hd (UMap.modify_eq_self dict word _ T hw (Finset.insert_eq_of_mem ht))

/-- C16. With the dictionary and the word present, `addTranslation` prints
nothing and stores for the word its old set with the translation inserted;
the keys of the dictionary and of the collection, every other word and every
other dictionary stay as they were.  When the translation was already in the
set the collection is unchanged, and a second identical call leaves the
collection of the first call unchanged. -/
theorem addTranslation_inserts (inp rest1 rest2 rest3 : List Char) (fs : FileSystem)
    (dicts : DictCollection) (dictName word t : Str) (dict : Dictionary) (T : TransSet)
    (h1 : readToken inp = (some dictName, rest1))
    (h2 : readToken rest1 = (some word, rest2))
    (h3 : readToken rest2 = (some t, rest3))
    (hd : dicts.find dictName = some dict) (hw : dict.find word = some T) :
    (addTranslation inp fs dicts).out = [] ∧
    (∃ dict2, (addTranslation inp fs dicts).dicts.find dictName = some dict2 ∧
      dict2.find word = some (insert t T) ∧
      (∀ w2, w2 ≠ word → dict2.find w2 = dict.find w2) ∧
      dict2.keys = dict.keys) ∧
    (∀ name2, name2 ≠ dictName →
      (addTranslation inp fs dicts).dicts.find name2 = dicts.find name2) ∧
    (addTranslation inp fs dicts).dicts.keys = dicts.keys ∧
    (t ∈ T → (addTranslation inp fs dicts).dicts = dicts) ∧
    (addTranslation inp fs (addTranslation inp fs dicts).dicts).dicts
      = (addTranslation inp fs dicts).dicts ∧
    (addTranslation inp fs (addTranslation inp fs dicts).dicts).out = [] := by
  have hstep :=
    addTranslation_step inp rest1 rest2 rest3 fs dicts dictName word t dict T h1 h2 h3 hd hw
  have hd2 : (addTranslation inp fs dicts).dicts.find dictName
      = some (dict.modify word (fun s => insert t s)) := by
    rw [hstep]
    simp [UMap.find_modify, hd]
  have hw2 : (dict.modify word (fun s => insert t s)).find word = some (insert t T) := by
    simp [UMap.find_modify, hw]
  have hagain := addTranslation_present inp rest1 rest2 rest3 fs
    (addTranslation inp fs dicts).dicts dictName word t _ _ h1 h2 h3 hd2 hw2
    (Finset.mem_insert_self t T)
  refine ⟨by rw [hstep], ⟨_, hd2, hw2, ?_, UMap.keys_modify _ _ _⟩, ?_, ?_, ?_, hagain.1,
    hagain.2⟩
  · intro w2 hne
    simp [UMap.find_modify, hne]
  · intro name2 hne
    rw [hstep]
    simp [UMap.find_modify, hne]
  · rw [hstep]
    exact UMap.keys_modify _ _ _
  · intro ht
    exact (addTranslation_present inp rest1 rest2 rest3 fs dicts dictName word t dict T h1 h2
      h3 hd hw ht).1

/-- C16, concrete check: `addtranslation a cat kot`, a translation that `cat`
already has in the sample dictionary `a`. -/
theorem addTranslation_inserts_witness :
    "kot".toList ∈ ({"kot".toList} : TransSet) ∧
    (addTranslation " a cat kot\n".toList emptyFs sampleDicts).out = [] ∧
    (addTranslation " a cat kot\n".toList emptyFs sampleDicts).dicts = sampleDicts :=
  ⟨by decide,
    (addTranslation_inserts " a cat kot\n".toList " cat kot\n".toList " kot\n".toList
      "\n".toList emptyFs sampleDicts "a".toList "cat".toList "kot".toList sampleA
      {"kot".toList} (by decide) (by decide) (by decide) (by decide) (by decide)).1,
    (addTranslation_inserts " a cat kot\n".toList " cat kot\n".toList " kot\n".toList
      "\n".toList emptyFs sampleDicts "a".toList "cat".toList "kot".toList sampleA
      {"kot".toList} (by decide) (by decide) (by decide) (by decide) (by decide)).2.2.2.2.1
      (by decide)⟩

/-! ## Output format -/

theorem printWords_eq_join (l : List Str) :
    printWords l = (l.map (fun t => t ++ [' '])).flatten := by
  induction l with
  | nil => rfl
  | cons w ws ih =>
    rw [printWords, ih]
    simp

theorem findTranslations_out (inp rest1 rest2 : List Char) (fs : FileSystem)
    (dicts : DictCollection) (dictName word : Str) (dict : Dictionary) (T : TransSet)
    (h1 : readToken inp = (some dictName, rest1))
    (h2 : readToken rest1 = (some word, rest2))
    (hd : dicts.find dictName = some dict) (hw : dict.find word = some T) :
    (findTranslations inp fs dicts).out = printWords (setElems T) ++ ['\n'] := by
  have hc : dicts.contains dictName = true := (UMap.contains_iff _ _).mpr ⟨dict, hd⟩
  simp [findTranslations, h1, h2, dictExists, hc, hd, hw]

/-- C17 as stated fails: the translations are not separated by spaces but each
is followed by one, so the line ends with a space.  For `cat -> kot` the output
is `kot`, a space and a newline, not `kot` and a newline. -/
theorem findTranslations_trailing_space :
    sampleDicts.find "a".toList = some sampleA ∧
    sampleA.find "cat".toList = some {"kot".toList} ∧
    (findTranslations " a cat\n".toList emptyFs sampleDicts).out = "kot \n".toList ∧
    (findTranslations " a cat\n".toList emptyFs sampleDicts).out ≠ "kot\n".toList := by
  have h := findTranslations_out " a cat\n".toList " cat\n".toList "\n".toList emptyFs
    sampleDicts "a".toList "cat".toList sampleA {"kot".toList} (by decide) (by decide)
    (by decide) (by decide)
  have hs : setElems ({"kot".toList} : TransSet) = ["kot".toList] := Finset.sort_singleton _ _
  rw [hs] at h
  refine ⟨by decide, by decide, ?_, ?_⟩
  · rw [h]
    decide
  · rw [h]
    decide

/-- C17, amended. For an existing dictionary and a word of it, `findTranslations`
prints the translations of the word, each exactly once and in strictly
ascending lexicographic order of their characters, each followed by a single
space, and then a newline; a line of `listwords` and of a saved file is the
word, a space, and the translations written in the same way. -/
theorem findTranslations_format (inp rest1 rest2 : List Char) (fs : FileSystem)
    (dicts : DictCollection) (dictName word : Str) (dict : Dictionary) (T : TransSet)
    (h1 : readToken inp = (some dictName, rest1))
    (h2 : readToken rest1 = (some word, rest2))
    (hd : dicts.find dictName = some dict) (hw : dict.find word = some T) :
    (findTranslations inp fs dicts).out
      = ((setElems T).map (fun t => t ++ [' '])).flatten ++ ['\n'] ∧
    (setElems T).Sorted (fun a b => List.Lex (fun x y => x < y) a b) ∧
    (setElems T).Nodup ∧
    (∀ t, t ∈ setElems T ↔ t ∈ T) ∧
    (∀ e : Str × TransSet, printWordWithTranslations e
      = e.1 ++ [' '] ++ ((setElems e.2).map (fun t => t ++ [' '])).flatten ++ ['\n']) := by
  refine ⟨?_, ?_, Finset.sort_nodup _ _, fun t => Finset.mem_sort _, ?_⟩
  · rw [findTranslations_out inp rest1 rest2 fs dicts dictName word dict T h1 h2 hd hw,
      printWords_eq_join]
  · exact Finset.sort_sorted_lt T
  · intro e
    rw [printWordWithTranslations, printWords_eq_join]
    simp

/-- C17, concrete check: `findtranslations b dog` on the sample collection. -/
theorem findTranslations_format_witness :
    (findTranslations " b dog\n".toList emptyFs sampleDicts).out
      = ((setElems {"pes".toList}).map (fun t => t ++ [' '])).flatten ++ ['\n'] :=
  (findTranslations_format " b dog\n".toList " dog\n".toList "\n".toList emptyFs sampleDicts
    "b".toList "dog".toList sampleB {"pes".toList} (by decide) (by decide) (by decide)
    (by decide)).1

/-! ## Frame of set algebra and queries -/

theorem UMap.entries_assign_new {V : Type} (m : UMap V) (k : Str) (v : V)
    (h : m.contains k = false) : (m.assign k v).entries = (k, v) :: m.entries := by
  have hn : k ∉ m.entries.map Prod.fst :=
    (UMap.find_eq_none m k).mp ((UMap.contains_eq_false m k).mp h)
  unfold UMap.assign
  rw [dif_neg hn]

theorem UMap.find_of_cons_entries {V : Type} (m m2 : UMap V) (k : Str) (v : V)
    (hk : m.contains k = false) (h : m2.entries = (k, v) :: m.entries)
    (name : Str) (d : V) (hd : m.find name = some d) : m2.find name = some d := by
  have hne : ¬ k = name := by
    intro hkn
    rw [hkn, (UMap.contains_eq_false m name), hd] at hk
    cases hk
  unfold UMap.find at hd ⊢
  rw [h, UMap.lookupList, if_neg hne]
  exact hd

theorem mergeDicts_frame (inp : List Char) (fs : FileSystem) (dicts : DictCollection) :
    (mergeDicts inp fs dicts).dicts = dicts ∨
      ∃ newName newDict, dicts.contains newName = false ∧
        (mergeDicts inp fs dicts).dicts.entries = (newName, newDict) :: dicts.entries ∧
        (mergeDicts inp fs dicts).out = [] := by
  unfold mergeDicts
  repeat' split
  all_goals first
    | exact Or.inl rfl
    | skip
  rename_i hnew _ _ _
  have hc := (Bool.not_eq_true _).mp hnew
  exact Or.inr ⟨_, _, hc, UMap.entries_assign_new _ _ _ hc, rfl⟩

theorem subtractDicts_frame (inp : List Char) (fs : FileSystem) (dicts : DictCollection) :
    (subtractDicts inp fs dicts).dicts = dicts ∨
      ∃ newName newDict, dicts.contains newName = false ∧
        (subtractDicts inp fs dicts).dicts.entries = (newName, newDict) :: dicts.entries ∧
        (subtractDicts inp fs dicts).out = [] := by
  unfold subtractDicts
  repeat' split
  all_goals first
    | exact Or.inl rfl
    | skip
  rename_i hnew _ _ _
  have hc := (Bool.not_eq_true _).mp hnew
  exact Or.inr ⟨_, _, hc, UMap.entries_assign_new _ _ _ hc, rfl⟩

theorem symdiffDicts_frame (inp : List Char) (fs : FileSystem) (dicts : DictCollection) :
    (symdiffDicts inp fs dicts).dicts = dicts ∨
      ∃ newName newDict, dicts.contains newName = false ∧
        (symdiffDicts inp fs dicts).dicts.entries = (newName, newDict) :: dicts.entries ∧
        (symdiffDicts inp fs dicts).out = [] := by
  unfold symdiffDicts
  repeat' split
  all_goals first
    | exact Or.inl rfl
    | skip
  rename_i hnew _ _ _
  have hc := (Bool.not_eq_true _).mp hnew
  exact Or.inr ⟨_, _, hc, UMap.entries_assign_new _ _ _ hc, rfl⟩

theorem listDicts_unchanged (inp : List Char) (fs : FileSystem) (dicts : DictCollection) :
    (listDicts inp fs dicts).dicts = dicts := by
  unfold listDicts
  repeat' split
  all_goals rfl

theorem listWords_unchanged (inp : List Char) (fs : FileSystem) (dicts : DictCollection) :
    (listWords inp fs dicts).dicts = dicts := by
  unfold listWords
  repeat' split
  all_goals rfl

theorem findTranslations_unchanged (inp : List Char) (fs : FileSystem) (dicts : DictCollection) :
    (findTranslations inp fs dicts).dicts = dicts := by
  unfold findTranslations
  repeat' split
  all_goals rfl

theorem findCommon_unchanged (inp : List Char) (fs : FileSystem) (dicts : DictCollection) :
    (findCommon inp fs dicts).dicts = dicts := by
  unfold findCommon
  repeat' split
  all_goals rfl

theorem saveDict_unchanged (inp : List Char) (fs : FileSystem) (dicts : DictCollection) :
    (saveDict inp fs dicts).dicts = dicts := by
  unfold saveDict
  repeat' split
  all_goals rfl

theorem statDict_unchanged (q : Nat → Nat → List Char) (inp : List Char) (fs : FileSystem)
    (dicts : DictCollection) : (statDict q inp fs dicts).dicts = dicts := by
  unfold statDict
  repeat' split
  all_goals rfl

/-- C18. `merge`, `subtract` and `symdiff` either leave the collection as it was
or, when they succeed, put one new entry, under a name that was not a key, in
front of the unchanged entries; so every dictionary present before the call is
still present with the same content.  `listdicts`, `listwords`,
`findtranslations`, `findcommon`, `stat` and `save` never change the
collection. -/
theorem set_algebra_and_queries_frame (q : Nat → Nat → List Char) (inp : List Char)
    (fs : FileSystem) (dicts : DictCollection) :
    (∀ c ∈ [Command.merge, Command.subtract, Command.symdiff],
      ((c.handler q inp fs dicts).dicts = dicts ∨
        ∃ newName newDict, dicts.contains newName = false ∧
          (c.handler q inp fs dicts).dicts.entries = (newName, newDict) :: dicts.entries ∧
          (c.handler q inp fs dicts).out = []) ∧
      ∀ name d, dicts.find name = some d →
        (c.handler q inp fs dicts).dicts.find name = some d) ∧
    (∀ c ∈ [Command.listdicts, Command.listwords, Command.findtranslations,
        Command.findcommon, Command.stat, Command.save],
      (c.handler q inp fs dicts).dicts = dicts) := by
  have keep : ∀ r : Result,
      (r.dicts = dicts ∨ ∃ newName newDict, dicts.contains newName = false ∧
        r.dicts.entries = (newName, newDict) :: dicts.entries ∧ r.out = []) →
      ∀ name d, dicts.find name = some d → r.dicts.find name = some d := by
    intro r h name d hd
    rcases h with h | ⟨newName, newDict, hc, he, -⟩
    · rw [h]
      exact hd
    · exact UMap.find_of_cons_entries dicts r.dicts newName newDict hc he name d hd
  constructor
  · intro c hc
    simp only [List.mem_cons, List.mem_singleton, List.mem_nil_iff, or_false] at hc
    rcases hc with hc | hc | hc
    · subst hc
      exact ⟨mergeDicts_frame inp fs dicts, keep _ (mergeDicts_frame inp fs dicts)⟩
    · subst hc
      exact ⟨subtractDicts_frame inp fs dicts, keep _ (subtractDicts_frame inp fs dicts)⟩
    · subst hc
      exact ⟨symdiffDicts_frame inp fs dicts, keep _ (symdiffDicts_frame inp fs dicts)⟩
  · intro c hc
    simp only [List.mem_cons, List.mem_singleton, List.mem_nil_iff, or_false] at hc
    rcases hc with hc | hc | hc | hc | hc | hc
    · subst hc
      exact listDicts_unchanged inp fs dicts
    · subst hc
      exact listWords_unchanged inp fs dicts
    · subst hc
      exact findTranslations_unchanged inp fs dicts
    · subst hc
      exact findCommon_unchanged inp fs dicts
    · subst hc
      exact statDict_unchanged q inp fs dicts
    · subst hc
      exact saveDict_unchanged inp fs dicts

/-- C18, concrete check: `subtract m 2 b a` keeps the dictionary `a` of the
sample collection. -/
theorem set_algebra_and_queries_frame_witness :
    sampleDicts.find "a".toList = some sampleA ∧
    (Command.handler (fun _ _ => []) Command.subtract " m 2 b a\n".toList emptyFs
      sampleDicts).dicts.find "a".toList = some sampleA :=
  ⟨by decide,
    ((set_algebra_and_queries_frame (fun _ _ => []) " m 2 b a\n".toList emptyFs sampleDicts).1
      Command.subtract (by decide)).2 "a".toList sampleA (by decide)⟩

/-! ## Guarded lookups -/

theorem find_of_dictExists {dicts : DictCollection} {name : Str}
    (h : ¬ (!dictExists name dicts) = true) (hn : dicts.find name = none) : False := by
  simp [dictExists, UMap.contains, hn] at h

theorem mergeDicts_not_thrown (inp : List Char) (fs : FileSystem) (dicts : DictCollection) :
    (mergeDicts inp fs dicts).thrown = false := by
  unfold mergeDicts
  repeat' split
  all_goals first
    | rfl
    | skip
  rename_i hall hnew x hnone
  simp [dictExists] at hall
  obtain ⟨R, hR, -⟩ := mergeLoop_spec dicts _ hall UMap.empty
  rw [hR] at hnone
  cases hnone

theorem symdiffDicts_not_thrown (inp : List Char) (fs : FileSystem) (dicts : DictCollection) :
    (symdiffDicts inp fs dicts).thrown = false := by
  unfold symdiffDicts
  repeat' split
  all_goals first
    | rfl
    | skip
  rename_i hall hnew x hnone
  simp [dictExists] at hall
  obtain ⟨res, hres, -⟩ := symdiffLoop_spec dicts _ hall (UMap.empty, UMap.empty)
  simp [symdiffResult, hres] at hnone

theorem subtractDicts_not_thrown (inp : List Char) (fs : FileSystem) (dicts : DictCollection) :
    (subtractDicts inp fs dicts).thrown = false := by
  unfold subtractDicts
  repeat' split
  all_goals first
    | rfl
    | skip
  rename_i hcount _ names _ hnames hall hnew x hnone
  simp [dictExists] at hall
  have hlen := readNames_length _ _ _ _ hnames
  cases names with
  | nil =>
    simp only [List.length_nil] at hlen
    omega
  | cons first others =>
    obtain ⟨d, hd⟩ := (UMap.contains_iff dicts first).mp (hall first (List.mem_cons_self _ _))
    obtain ⟨R, hR, -⟩ := subtractLoop_spec dicts others
      (fun n hn => hall n (List.mem_cons_of_mem _ hn)) d.entries d.nodupKeys UMap.empty
    simp [subtractResult, hd, hR] at hnone

theorem findCommon_not_thrown (inp : List Char) (fs : FileSystem) (dicts : DictCollection) :
    (findCommon inp fs dicts).thrown = false := by
  unfold findCommon
  repeat' split
  all_goals first
    | rfl
    | skip
  · rename_i hex _ _ _ _ _ hnone
    exact (find_of_dictExists hex hnone).elim
  · rename_i hcount _ _ words _ hwords _ dict _ hall _ hnone
    simp at hall
    have hlen := readNames_length _ _ _ _ hwords
    have hne : words ≠ [] := by
      intro h
      rw [h] at hlen
      simp only [List.length_nil] at hlen
      omega
    obtain ⟨R, hR, -⟩ := commonTranslations_spec dict words hne hall
    rw [hR] at hnone
    cases hnone

theorem createDict_not_thrown (inp : List Char) (fs : FileSystem) (dicts : DictCollection) :
    (createDict inp fs dicts).thrown = false := by
  unfold createDict
  repeat' split
  all_goals rfl

theorem deleteDict_not_thrown (inp : List Char) (fs : FileSystem) (dicts : DictCollection) :
    (deleteDict inp fs dicts).thrown = false := by
  unfold deleteDict
  repeat' split
  all_goals rfl

theorem listDicts_not_thrown (inp : List Char) (fs : FileSystem) (dicts : DictCollection) :
    (listDicts inp fs dicts).thrown = false := by
  unfold listDicts
  repeat' split
  all_goals rfl

theorem addTranslation_not_thrown (inp : List Char) (fs : FileSystem) (dicts : DictCollection) :
    (addTranslation inp fs dicts).thrown = false := by
  unfold addTranslation
  repeat' split
  all_goals rfl

theorem removeTranslation_not_thrown (inp : List Char) (fs : FileSystem) (dicts : DictCollection) :
    (removeTranslation inp fs dicts).thrown = false := by
  unfold removeTranslation
  repeat' split
  all_goals rfl

theorem deleteWord_not_thrown (inp : List Char) (fs : FileSystem) (dicts : DictCollection) :
    (deleteWord inp fs dicts).thrown = false := by
  unfold deleteWord
  repeat' split
  all_goals rfl

theorem loadDict_not_thrown (inp : List Char) (fs : FileSystem) (dicts : DictCollection) :
    (loadDict inp fs dicts).thrown = false := by
  unfold loadDict
  repeat' split
  all_goals rfl

theorem addWord_not_thrown (inp : List Char) (fs : FileSystem) (dicts : DictCollection) :
    (addWord inp fs dicts).thrown = false := by
  unfold addWord
  dsimp only
  repeat' split
  all_goals rfl

theorem findTranslations_not_thrown (inp : List Char) (fs : FileSystem) (dicts : DictCollection) :
    (findTranslations inp fs dicts).thrown = false := by
  unfold findTranslations
  repeat' split
  all_goals first
    | rfl
    | skip
  rename_i hnone
  exact (find_of_dictExists (by assumption) hnone).elim

theorem listWords_not_thrown (inp : List Char) (fs : FileSystem) (dicts : DictCollection) :
    (listWords inp fs dicts).thrown = false := by
  unfold listWords
  repeat' split
  all_goals first
    | rfl
    | skip
  rename_i hnone
  exact (find_of_dictExists (by assumption) hnone).elim

theorem saveDict_not_thrown (inp : List Char) (fs : FileSystem) (dicts : DictCollection) :
    (saveDict inp fs dicts).thrown = false := by
  unfold saveDict
  repeat' split
  all_goals first
    | rfl
    | skip
  rename_i hnone
  exact (find_of_dictExists (by assumption) hnone).elim

theorem statDict_not_thrown (q : Nat → Nat → List Char) (inp : List Char) (fs : FileSystem)
    (dicts : DictCollection) : (statDict q inp fs dicts).thrown = false := by
  unfold statDict
  repeat' split
  all_goals first
    | rfl
    | skip
  rename_i hnone
  exact (find_of_dictExists (by assumption) hnone).elim

/-- C19. No handler is left by an exception: on every collection and every
input each `at` is reached only for a present key, and `words[0]` and
`dictNames[0]` only for a non-empty vector.  So the dispatch loop never catches
anything from a handler: for a registered command its pass is the handler
call itself. -/
theorem no_handler_throws (q : Nat → Nat → List Char) (c : Command) (inp : List Char)
    (fs : FileSystem) (dicts : DictCollection) :
    (c.handler q inp fs dicts).thrown = false ∧
    ∀ command, Command.ofName command = some c →
      dispatch q command inp fs dicts = c.handler q inp fs dicts := by
  have h : (c.handler q inp fs dicts).thrown = false := by
    cases c
    · exact createDict_not_thrown inp fs dicts
    · exact deleteDict_not_thrown inp fs dicts
    · exact listDicts_not_thrown inp fs dicts
    · exact addWord_not_thrown inp fs dicts
    · exact addTranslation_not_thrown inp fs dicts
    · exact removeTranslation_not_thrown inp fs dicts
    · exact deleteWord_not_thrown inp fs dicts
    · exact findTranslations_not_thrown inp fs dicts
    · exact listWords_not_thrown inp fs dicts
    · exact mergeDicts_not_thrown inp fs dicts
    · exact findCommon_not_thrown inp fs dicts
    · exact saveDict_not_thrown inp fs dicts
    · exact loadDict_not_thrown inp fs dicts
    · exact statDict_not_thrown q inp fs dicts
    · exact subtractDicts_not_thrown inp fs dicts
    · exact symdiffDicts_not_thrown inp fs dicts
  refine ⟨h, ?_⟩
  intro command hc
  unfold dispatch
  rw [hc]
  simp only [h, Bool.false_eq_true, if_false]

/-- C19, concrete check: the command `findcommon` on the sample collection. -/
theorem no_handler_throws_witness :
    Command.ofName "findcommon".toList = some Command.findcommon ∧
    dispatch (fun _ _ => []) "findcommon".toList " d 3 a b c\n".toList emptyFs sampleDicts2
      = Command.handler (fun _ _ => []) Command.findcommon " d 3 a b c\n".toList emptyFs
          sampleDicts2 :=
  ⟨by decide,
    (no_handler_throws (fun _ _ => []) Command.findcommon " d 3 a b c\n".toList emptyFs
      sampleDicts2).2 "findcommon".toList (by decide)⟩

/-! ## Symmetric difference as a union of differences -/

theorem commandLine_head2 (as : List Str) :
    ∃ x r, commandLine as = x :: r ∧ (x = ' ' ∨ x = '\n') := by
  cases as with
  | nil => exact ⟨'\n', [], rfl, Or.inr rfl⟩
  | cons a as => exact ⟨' ', a ++ commandLine as, rfl, Or.inl rfl⟩

theorem readInt_commandLine_two (as : List Str) :
    readInt (commandLine (['2'] :: as)) = (some 2, commandLine as) := by
  obtain ⟨x, r, hxr, hx⟩ := commandLine_head2 as
  have hd : Char.isDigit x = false := by
    rcases hx with hx | hx <;> (rw [hx]; decide)
  have hsp : isspace ' ' = true := by decide
  have h2 : isspace '2' = false := by decide
  have hd2 : Char.isDigit '2' = true := by decide
  unfold readInt
  rw [commandLine, hxr]
  simp [List.dropWhile, List.takeWhile, hsp, h2, readSign, hd, hd2, digitsValue]

theorem readNames_commandLine_two (a b : Str) (ha : tokenOK a) (hb : tokenOK b) :
    readNames 2 (commandLine [a, b]) = (some [a, b], commandLine []) := by
  simp [readNames, readToken_commandLine a [b] ha, readToken_commandLine b [] hb]

theorem subtractDicts_run (fs : FileSystem) (dicts : DictCollection) (n a b : Str)
    (A B : Dictionary) (hn : tokenOK n) (hta : tokenOK a) (htb : tokenOK b)
    (ha : dicts.find a = some A) (hb : dicts.find b = some B)
    (hnew : dicts.contains n = false) :
    ∃ R, (subtractDicts (commandLine [n, ['2'], a, b]) fs dicts).dicts = dicts.assign n R ∧
      ∀ w, R.find w = if B.contains w = true then none else A.find w := by
  have hca : dicts.contains a = true := (UMap.contains_iff _ _).mpr ⟨A, ha⟩
  have hcb : dicts.contains b = true := (UMap.contains_iff _ _).mpr ⟨B, hb⟩
  have hex : ∀ name ∈ [b], dicts.contains name = true := by
    intro name hname
    rw [List.mem_singleton] at hname
    rw [hname]
    exact hcb
  obtain ⟨R, hR, hfind⟩ := subtractLoop_spec dicts [b] hex A.entries A.nodupKeys UMap.empty
  refine ⟨R, ?_, ?_⟩
  · simp [subtractDicts, readToken_commandLine n _ hn, readInt_commandLine_two,
      readNames_commandLine_two a b hta htb, dictExists, hca, hcb, hnew, subtractResult, ha, hR]
  · intro w
    rw [hfind w]
    change (match A.find w with
      | none => (UMap.empty : Dictionary).find w
      | some S => if foundInOthers dicts w [b] = some true
          then (UMap.empty : Dictionary).find w else some S) = _
    cases hA : A.find w <;> cases hB : B.contains w <;> simp [foundInOthers, hb, hB]

theorem mergeDicts_run (fs : FileSystem) (dicts : DictCollection) (n x y : Str)
    (D1 D2 : Dictionary) (hn : tokenOK n) (htx : tokenOK x) (hty : tokenOK y)
    (hx : dicts.find x = some D1) (hy : dicts.find y = some D2)
    (hnew : dicts.contains n = false) :
    (mergeDicts (commandLine [n, ['2'], x, y]) fs dicts).dicts
      = dicts.assign n (mergeSource (mergeSource UMap.empty D1) D2) := by
  have hcx : dicts.contains x = true := (UMap.contains_iff _ _).mpr ⟨D1, hx⟩
  have hcy : dicts.contains y = true := (UMap.contains_iff _ _).mpr ⟨D2, hy⟩
  simp [mergeDicts, readToken_commandLine n _ hn, readInt_commandLine_two,
    readNames_commandLine_two x y htx hty, dictExists, hcx, hcy, hnew, mergeLoop, hx, hy]

theorem symdiffDicts_run (fs : FileSystem) (dicts : DictCollection) (n a b : Str)
    (A B : Dictionary) (hn : tokenOK n) (hta : tokenOK a) (htb : tokenOK b)
    (ha : dicts.find a = some A) (hb : dicts.find b = some B)
    (hnew : dicts.contains n = false) :
    ∃ S, (symdiffDicts (commandLine [n, ['2'], a, b]) fs dicts).dicts = dicts.assign n S ∧
      ∀ w, S.find w =
        if (A.contains w = true ∧ B.contains w = false)
            ∨ (A.contains w = false ∧ B.contains w = true) then
          some (translationsOf (mergeSource (mergeSource UMap.empty A) B) w)
        else none := by
  have hca : dicts.contains a = true := (UMap.contains_iff _ _).mpr ⟨A, ha⟩
  have hcb : dicts.contains b = true := (UMap.contains_iff _ _).mpr ⟨B, hb⟩
  have hex : ∀ name ∈ [a, b], dicts.contains name = true := by
    intro name hname
    simp only [List.mem_cons, List.mem_singleton, List.mem_nil_iff, or_false] at hname
    rcases hname with h | h <;> (rw [h]; assumption)
  obtain ⟨res, hres, hm, hcnt⟩ := symdiffLoop_spec dicts [a, b] hex (UMap.empty, UMap.empty)
  have hwt : res.2 = mergeSource (mergeSource UMap.empty A) B := by
    have h : mergeLoop dicts [a, b] UMap.empty = some res.2 := hm
    simp only [mergeLoop, ha, hb, Option.some.injEq] at h
    exact h.symm
  refine ⟨symdiffSelect res.1 res.2, ?_, ?_⟩
  · simp [symdiffDicts, readToken_commandLine n _ hn, readInt_commandLine_two,
      readNames_commandLine_two a b hta htb, dictExists, hca, hcb, hnew, symdiffResult, hres]
  · intro w
    rw [find_symdiffSelect, hwt]
    have hc := hcnt w
    simp only [UMap.find_empty, Option.getD_none, zero_add, sourcesWith, List.filter_cons,
      wordExists_eq dicts a w A ha, wordExists_eq dicts b w B hb, List.filter_nil] at hc
    have hone : res.1.find w = some 1 ↔
        ((A.contains w = true ∧ B.contains w = false)
          ∨ (A.contains w = false ∧ B.contains w = true)) := by
      cases hf : res.1.find w with
      | none =>
        rw [hf] at hc
        cases hA : A.contains w <;> cases hB : B.contains w <;> simp [hA, hB] at hc ⊢
      | some c =>
        rw [hf] at hc
        cases hA : A.contains w <;> cases hB : B.contains w <;> simp [hA, hB] at hc ⊢ <;>
          omega
    by_cases h1 : res.1.find w = some 1
    · rw [if_pos h1, if_pos (hone.mp h1)]
    · rw [if_neg h1, if_neg (fun h => h1 (hone.mpr h))]

theorem isEmpty_of_find_none {V : Type} (m : UMap V) (h : ∀ k, m.find k = none) :
    m.isEmpty = true := by
  cases he : m.isEmpty with
  | true => rfl
  | false =>
    obtain ⟨k, v, hkv⟩ := exists_find_of_isEmpty_false m he
    rw [h k] at hkv
    cases hkv

theorem ne_of_present_absent {V : Type} (m : UMap V) (a x : Str) (v : V)
    (ha : m.find a = some v) (hx : m.contains x = false) : a ≠ x := by
  intro h
  rw [h, (UMap.contains_eq_false m x).mp hx] at ha
  cases ha

theorem contains_assign_false {V : Type} (m : UMap V) (k n : Str) (v : V)
    (hne : n ≠ k) (hn : m.contains n = false) : (m.assign k v).contains n = false := by
  rw [UMap.contains_eq_false, UMap.find_assign, if_neg hne]
  exact (UMap.contains_eq_false m n).mp hn

/-- C20. For existing dictionaries `a` and `b`, equal or distinct, the
dictionary that `symdiff s 2 a b` stores maps every word as the dictionary
stored by `subtract x 2 a b`, `subtract y 2 b a` and `merge m 2 x y` does
(the names `x`, `y`, `m` and `s` being unused); when `a` and `b` are the same
name, the result of `symdiff` and the result of `subtract x 2 a a` are
empty. -/
theorem symdiff_eq_merge_of_differences (fs : FileSystem) (dicts : DictCollection)
    (a b x y m s : Str) (A B : Dictionary)
    (ha : dicts.find a = some A) (hb : dicts.find b = some B)
    (hta : tokenOK a) (htb : tokenOK b) (htx : tokenOK x) (hty : tokenOK y)
    (htm : tokenOK m) (hts : tokenOK s)
    (hx : dicts.contains x = false) (hy : dicts.contains y = false)
    (hm : dicts.contains m = false) (hs : dicts.contains s = false)
    (hyx : y ≠ x) (hmx : m ≠ x) (hmy : m ≠ y) :
    ∃ D1 M S,
      (subtractDicts (commandLine [x, ['2'], a, b]) fs dicts).dicts.find x = some D1 ∧
      (mergeOfDifferences fs dicts a b x y m).find m = some M ∧
      (symdiffDicts (commandLine [s, ['2'], a, b]) fs dicts).dicts.find s = some S ∧
      (∀ w, S.find w = M.find w) ∧
      (a = b → S.isEmpty = true ∧ D1.isEmpty = true) := by
  obtain ⟨D1, hd1, hD1⟩ := subtractDicts_run fs dicts x a b A B htx hta htb ha hb hx
  have hax : a ≠ x := ne_of_present_absent dicts a x A ha hx
  have hbx : b ≠ x := ne_of_present_absent dicts b x B hb hx
  have ha1 : (dicts.assign x D1).find a = some A := by
    rw [UMap.find_assign, if_neg hax]
    exact ha
  have hb1 : (dicts.assign x D1).find b = some B := by
    rw [UMap.find_assign, if_neg hbx]
    exact hb
  have hy1 : (dicts.assign x D1).contains y = false := contains_assign_false dicts x y D1 hyx hy
  obtain ⟨D2, hd2, hD2⟩ :=
    subtractDicts_run fs (dicts.assign x D1) y b a B A hty htb hta hb1 ha1 hy1
  have hx2 : ((dicts.assign x D1).assign y D2).find x = some D1 := by
    rw [UMap.find_assign, if_neg (fun h => hyx h.symm), UMap.find_assign, if_pos rfl]
  have hy2 : ((dicts.assign x D1).assign y D2).find y = some D2 := by
    rw [UMap.find_assign, if_pos rfl]
  have hm2 : ((dicts.assign x D1).assign y D2).contains m = false :=
    contains_assign_false _ y m D2 hmy (contains_assign_false dicts x m D1 hmx hm)
  have hmerge := mergeDicts_run fs ((dicts.assign x D1).assign y D2) m x y D1 D2 htm htx hty
    hx2 hy2 hm2
  obtain ⟨S, hsd, hS⟩ := symdiffDicts_run fs dicts s a b A B hts hta htb ha hb hs
  have hMS : ∀ w, S.find w = (mergeSource (mergeSource UMap.empty D1) D2).find w := by
    intro w
    cases hA : A.find w <;> cases hB : B.find w <;>
      simp [hS w, find_mergeSource, hD2 w, hD1 w, translationsOf, UMap.contains, hA, hB]
  refine ⟨D1, mergeSource (mergeSource UMap.empty D1) D2, S, ?_, ?_, ?_, hMS, ?_⟩
  · rw [hd1, UMap.find_assign, if_pos rfl]
  · unfold mergeOfDifferences
    rw [hd1, hd2, hmerge, UMap.find_assign, if_pos rfl]
  · rw [hsd, UMap.find_assign, if_pos rfl]
  · intro hab
    subst hab
    rw [ha] at hb
    have hAB : A = B := Option.some.inj hb
    subst hAB
    constructor
    · apply isEmpty_of_find_none
      intro w
      cases hA : A.contains w <;> simp [hS w, hA]
    · apply isEmpty_of_find_none
      intro w
      cases hA : A.find w <;> simp [hD1 w, UMap.contains, hA]

/-- C20, concrete check: the sample dictionaries `a` and `b` with the unused
names `x`, `y`, `m` and `s`. -/
theorem symdiff_eq_merge_of_differences_witness :
    ∃ D1 M S,
      (subtractDicts (commandLine ["x".toList, ['2'], "a".toList, "b".toList]) emptyFs
        sampleDicts).dicts.find "x".toList = some D1 ∧
      (mergeOfDifferences emptyFs sampleDicts "a".toList "b".toList "x".toList "y".toList
        "m".toList).find "m".toList = some M ∧
      (symdiffDicts (commandLine ["s".toList, ['2'], "a".toList, "b".toList]) emptyFs
        sampleDicts).dicts.find "s".toList = some S ∧
      (∀ w, S.find w = M.find w) ∧
      ("a".toList = "b".toList → S.isEmpty = true ∧ D1.isEmpty = true) :=
  symdiff_eq_merge_of_differences emptyFs sampleDicts "a".toList "b".toList "x".toList
    "y".toList "m".toList "s".toList sampleA sampleB (by decide) (by decide) (by decide)
    (by decide) (by decide) (by decide) (by decide) (by decide) (by decide) (by decide)
    (by decide) (by decide) (by decide) (by decide) (by decide)

/-! ## Merge: order and multiplicity of the sources -/

theorem find_eq_of_contains_translations (R1 R2 : Dictionary)
    (hc : ∀ w, R1.contains w = true ↔ R2.contains w = true)
    (ht : ∀ w t, t ∈ translationsOf R1 w ↔ t ∈ translationsOf R2 w) (w : Str) :
    R1.find w = R2.find w := by
  have hcw := hc w
  have htw := ht w
  cases h1 : R1.find w with
  | none =>
    cases h2 : R2.find w with
    | none => rfl
    | some S2 =>
      have : R1.contains w = true := hcw.mpr (by simp [UMap.contains, h2])
      simp [UMap.contains, h1] at this
  | some S1 =>
    cases h2 : R2.find w with
    | none =>
      have : R2.contains w = true := hcw.mp (by simp [UMap.contains, h1])
      simp [UMap.contains, h2] at this
    | some S2 =>
      rw [translationsOf_of_find h1, translationsOf_of_find h2] at htw
      rw [Finset.ext htw]

theorem mergeDicts_target (inp rest1 rest2 rest3 : List Char) (fs : FileSystem)
    (dicts : DictCollection) (newDictName : Str) (count : Int) (dictNames : List Str)
    (R : Dictionary)
    (hname : readToken inp = (some newDictName, rest1))
    (hcount : readInt rest1 = (some count, rest2))
    (hge : 2 ≤ count)
    (hnames : readNames count.toNat rest2 = (some dictNames, rest3))
    (hex : ∀ name ∈ dictNames, dicts.contains name = true)
    (hnew : dicts.contains newDictName = false)
    (hR : mergeLoop dicts dictNames UMap.empty = some R) :
    (mergeDicts inp fs dicts).dicts.find newDictName = some R := by
  have hlt : ¬ count < 2 := not_lt.mpr hge
  simp [mergeDicts, hname, hcount, hlt, hnames, not_exists_missing hex, dictExists, hnew, hR,
    UMap.find_assign]

/-- C21. The dictionary that `mergeDicts` stores does not depend on the order or
the multiplicity of its sources. Two successful merges on the same collection
(each with `count >= 2`, all listed dictionaries existing, target name unused)
whose lists of source names contain the same names store targets with the same
word-to-translation-set mapping (dictionaries are compared as mappings, the way
`std::unordered_map` compares, not by the order of their entries). When every
listed name is the same dictionary `a`, the target has the mapping of `a`. -/
theorem mergeDicts_order_multiplicity (inp1 rest11 rest12 rest13 : List Char)
    (inp2 rest21 rest22 rest23 : List Char) (fs1 fs2 : FileSystem)
    (dicts : DictCollection) (newDictName1 newDictName2 : Str) (count1 count2 : Int)
    (dictNames1 dictNames2 : List Str)
    (hname1 : readToken inp1 = (some newDictName1, rest11))
    (hcount1 : readInt rest11 = (some count1, rest12))
    (hge1 : 2 ≤ count1)
    (hnames1 : readNames count1.toNat rest12 = (some dictNames1, rest13))
    (hname2 : readToken inp2 = (some newDictName2, rest21))
    (hcount2 : readInt rest21 = (some count2, rest22))
    (hge2 : 2 ≤ count2)
    (hnames2 : readNames count2.toNat rest22 = (some dictNames2, rest23))
    (hex : ∀ name ∈ dictNames1, dicts.contains name = true)
    (hsame : ∀ name, name ∈ dictNames1 ↔ name ∈ dictNames2)
    (hnew1 : dicts.contains newDictName1 = false)
    (hnew2 : dicts.contains newDictName2 = false) :
    ∃ target1 target2,
      (mergeDicts inp1 fs1 dicts).dicts.find newDictName1 = some target1 ∧
      (mergeDicts inp2 fs2 dicts).dicts.find newDictName2 = some target2 ∧
      (∀ w, target1.find w = target2.find w) ∧
      (∀ a A, (∀ name ∈ dictNames1, name = a) → dicts.find a = some A →
        ∀ w, target1.find w = A.find w) := by
  have hex2 : ∀ name ∈ dictNames2, dicts.contains name = true :=
    fun name h => hex name ((hsame name).mpr h)
  obtain ⟨R1, hR1, hc1, ht1⟩ := mergeLoop_spec dicts dictNames1 hex UMap.empty
  obtain ⟨R2, hR2, hc2, ht2⟩ := mergeLoop_spec dicts dictNames2 hex2 UMap.empty
  refine ⟨R1, R2,
    mergeDicts_target inp1 rest11 rest12 rest13 fs1 dicts newDictName1 count1 dictNames1 R1
      hname1 hcount1 hge1 hnames1 hex hnew1 hR1,
    mergeDicts_target inp2 rest21 rest22 rest23 fs2 dicts newDictName2 count2 dictNames2 R2
      hname2 hcount2 hge2 hnames2 hex2 hnew2 hR2, ?_, ?_⟩
  · apply find_eq_of_contains_translations
    · intro w
      rw [hc1 w, hc2 w]
      simp only [hsame]
    · intro w t
      rw [ht1 w t, ht2 w t]
      simp only [hsame]
  · intro a A hall hA
    have hlen : dictNames1.length = count1.toNat :=
      readNames_length _ _ _ _ hnames1
    have hmem : a ∈ dictNames1 := by
      cases hd : dictNames1 with
      | nil =>
        rw [hd] at hlen
        simp only [List.length_nil] at hlen
        omega
      | cons n ns =>
        have := hall n (by rw [hd]; exact List.mem_cons_self _ _)
        rw [← this]
        exact List.mem_cons_self _ _
    apply find_eq_of_contains_translations
    · intro w
      rw [hc1 w]
      constructor
      · rintro (h | ⟨n, hn, d, hd, hw⟩)
        · simp [UMap.contains] at h
        · rw [hall n hn, hA] at hd
          cases hd
          exact hw
      · intro hw
        exact Or.inr ⟨a, hmem, A, hA, hw⟩
    · intro w t
      rw [ht1 w t]
      constructor
      · rintro (h | ⟨n, hn, d, S, hd, hS, h⟩)
        · simp [translationsOf] at h
        · rw [hall n hn, hA] at hd
          cases hd
          rw [translationsOf_of_find hS]
          exact h
      · intro h
        cases hS : A.find w with
        | none =>
          rw [translationsOf_of_none hS] at h
          simp at h
        | some S =>
          rw [translationsOf_of_find hS] at h
          exact Or.inr ⟨a, hmem, A, S, hA, hS, h⟩

/-- C21, concrete check: `merge m 2 a b` and `merge n 3 b a b` on the sample
collection. -/
theorem mergeDicts_order_multiplicity_witness :
    ∃ target1 target2,
      (mergeDicts " m 2 a b\n".toList emptyFs sampleDicts).dicts.find "m".toList
        = some target1 ∧
      (mergeDicts " n 3 b a b\n".toList emptyFs sampleDicts).dicts.find "n".toList
        = some target2 ∧
      (∀ w, target1.find w = target2.find w) ∧
      (∀ a A, (∀ name ∈ ["a".toList, "b".toList], name = a) → sampleDicts.find a = some A →
        ∀ w, target1.find w = A.find w) :=
  mergeDicts_order_multiplicity " m 2 a b\n".toList " 2 a b\n".toList " a b\n".toList
    "\n".toList " n 3 b a b\n".toList " 3 b a b\n".toList " b a b\n".toList "\n".toList
    emptyFs emptyFs sampleDicts "m".toList "n".toList 2 3 ["a".toList, "b".toList]
    ["b".toList, "a".toList, "b".toList] (by decide) (by decide) (by decide) (by decide)
    (by decide) (by decide) (by decide) (by decide) (by decide)
    (fun name => by simp only [List.mem_cons, List.mem_singleton, List.not_mem_nil]; tauto)
    (by decide) (by decide)

/-- Concrete check: `merge m 2 a b` and `merge m 2 b a` on the sample collection
give the same translations of `cat` and of `dog`. -/
theorem mergeDicts_swapped_check :
    lookupTranslations (mergeDicts " m 2 a b\n".toList emptyFs sampleDicts).dicts
        "m".toList "cat".toList
      = lookupTranslations (mergeDicts " m 2 b a\n".toList emptyFs sampleDicts).dicts
        "m".toList "cat".toList ∧
    lookupTranslations (mergeDicts " m 2 a b\n".toList emptyFs sampleDicts).dicts
        "m".toList "dog".toList
      = lookupTranslations (mergeDicts " m 2 b a\n".toList emptyFs sampleDicts).dicts
        "m".toList "dog".toList := by
  decide

/-- Concrete check: `merge m 2 b b` on the sample collection stores the mapping
of `b`. -/
theorem mergeDicts_repeated_check :
    lookupTranslations (mergeDicts " m 2 b b\n".toList emptyFs sampleDicts).dicts
        "m".toList "cat".toList = {"koshka".toList} ∧
    lookupTranslations (mergeDicts " m 2 b b\n".toList emptyFs sampleDicts).dicts
        "m".toList "dog".toList = {"pes".toList} := by
  decide

/-! ## Decoding: repeated words -/

theorem readLine_find_self (d : Dictionary) (line : List Char) (hsp : ' ' ∈ line)
    (hne : lineTranslations line ≠ ∅) :
    (readLine d line).find (lineWord line) = some (lineTranslations line) := by
  have hnil : line ≠ [] := List.ne_nil_of_mem hsp
  unfold lineTranslations at hne
  simp only [readLine, hnil, hsp, not_true_eq_false, if_false, hne, ne_eq, not_false_eq_true,
    if_true, UMap.find_assign, lineWord, lineTranslations]

theorem readLine_find_other (d : Dictionary) (l : List Char) (w : Str)
    (h : ' ' ∈ l → lineWord l = w → lineTranslations l = ∅) :
    (readLine d l).find w = d.find w := by
  unfold readLine
  split
  · rfl
  · split
    · rfl
    · rename_i hsp
      have hsp2 : ' ' ∈ l := not_not.mp hsp
      dsimp only
      split
      · rename_i hne
        rw [UMap.find_assign]
        split
        · rename_i hw
          exact absurd (h hsp2 hw.symm) hne
        · rfl
      · rfl

theorem find_foldl_readLine_keep (post : List (List Char)) (w : Str)
    (h : ∀ l ∈ post, ' ' ∈ l → lineWord l = w → lineTranslations l = ∅) (d : Dictionary) :
    (post.foldl readLine d).find w = d.find w := by
  induction post generalizing d with
  | nil => rfl
  | cons l ls ih =>
    rw [List.foldl_cons, ih (fun l2 h2 => h l2 (List.mem_cons_of_mem _ h2)),
      readLine_find_other d l w (h l (List.mem_cons_self _ _))]

/-- C22. Decoding keeps the last line of a repeated word. When a line of the
text has a space and yields at least one translation, and no later line with
the same word yields a translation, `readDictionary` maps the word to the
translation set of that line alone, whatever the earlier lines hold (the entry
is assigned, not united with earlier ones); later lines of the word that yield
no translation leave the entry in place. -/
theorem readDictionary_last_line (text : List Char) (pre post : List (List Char))
    (line : List Char)
    (hsplit : getlines text = pre ++ line :: post)
    (hsp : ' ' ∈ line)
    (hne : lineTranslations line ≠ ∅)
    (hpost : ∀ l ∈ post, ' ' ∈ l → lineWord l = lineWord line → lineTranslations l = ∅) :
    (readDictionary text).find (lineWord line) = some (lineTranslations line) := by
  unfold readDictionary
  rw [hsplit, List.foldl_append, List.foldl_cons,
    find_foldl_readLine_keep post (lineWord line) hpost, readLine_find_self _ line hsp hne]

/-- C22, concrete check: in the text `a x`, `a y`, `a ` the word `a` gets the
translations of the second line. -/
theorem readDictionary_last_line_witness :
    (readDictionary "a x\na y\na \n".toList).find (lineWord "a y".toList)
      = some (lineTranslations "a y".toList) :=
  readDictionary_last_line "a x\na y\na \n".toList ["a x".toList] ["a ".toList] "a y".toList
    (by decide) (by decide) (by decide) (by decide)

/-- Concrete check: the same text decodes `a` to `y` alone, not to `x` and `y`. -/
theorem readDictionary_repeated_check :
    translationsOf (readDictionary "a x\na y\na \n".toList) "a".toList = {"y".toList} ∧
    translationsOf (readDictionary "a x\na y\n".toList) "a".toList = {"y".toList} ∧
    translationsOf (readDictionary "a x\na \n".toList) "a".toList = {"x".toList} := by
  decide

end sharifullina
